import Mathlib

set_option maxRecDepth 8000

/-!
Verification of the marker-graph construction and simplification core of the
shasta long-read assembler against its natural-language specification.

The Lean definitions below are shallow embeddings of the C++ source:

* `src/src/AssemblerMarkerGraph.cpp` — marker-graph vertex creation
  (disjoint-set convergence loop, bad-set flagging), edge creation,
  reverse-complement (strand symmetry) maps and checks, transitive reduction,
  reverse transitive reduction, pruning, and bubble/superbubble removal.
* `src/src/mode3.cpp` — mode-3 assembly graph segments, pseudo-paths,
  transitions and links.

Machine integers of the source (uint8/uint32/uint64) are modelled as `Nat`;
the only place where the width matters is the coverage cap at 255, which the
source implements by an explicit comparison that is embedded as written.
Memory-mapped containers are modelled as lists; per-edge flag arrays are
modelled as `Nat → Bool` functions updated pointwise, which matches the
source's use of flag bit-fields indexed by edge id.
-/

namespace Shasta

/-! ## Marker layout

Modelled from the spec: the flattened marker table (class `Markers`,
`findMarkerId.hpp`) is not part of the sources under verification; the spec
describes it as a concatenated array of per-oriented-read marker lists,
indexed by `OrientedReadId.getValue() = 2·ReadId + Strand`.  `markerCounts`
lists the number of markers of each oriented read, in `getValue()` order.
`findMarkerId` recovers `(orientedReadValue, ordinal)` from a flat MarkerId.
-/

/-- Recover the oriented-read index and the ordinal of a flat marker id from
the per-oriented-read marker counts (spec §3, marker table). -/
def findMarkerIdIn (markerCounts : List Nat) (m : Nat) : Nat × Nat :=
  match markerCounts with
  | [] => (0, m)
  | c :: rest =>
    if m < c then (0, m)
    else
      let p := findMarkerIdIn rest (m - c)
      (p.1 + 1, p.2)

/-- Oriented-read value (`OrientedReadId.getValue()`) of a flat marker id. -/
def orientedReadValueOf (markerCounts : List Nat) (m : Nat) : Nat :=
  (findMarkerIdIn markerCounts m).1

/-- ReadId of a flat marker id: `getValue() / 2`. -/
def readIdOfMarker (markerCounts : List Nat) (m : Nat) : Nat :=
  orientedReadValueOf markerCounts m / 2

/-- Strand of a flat marker id: `getValue() % 2`. -/
def strandOfMarker (markerCounts : List Nat) (m : Nat) : Nat :=
  orientedReadValueOf markerCounts m % 2

/-! ## Bad disjoint-set flagging (C1)

Embedding of `Assembler::createMarkerGraphVerticesThreadFunction7`
(`AssemblerMarkerGraph.cpp`).  The function receives the sorted marker list of
one disjoint set kept by the first renumbering and decides whether the set is
"bad" (to be dropped by the second renumbering).
-/

/-- Inner loop of `createMarkerGraphVerticesThreadFunction7` for marker
index `j ≥ 1`: accumulates per-strand counts and stops early (returning
`dup = true`) when, with duplicates disallowed, the current marker has the
same `ReadId` as the previous one.  Returns `(countStrand0, countStrand1,
dup)`. -/
def badSetScan (markerCounts : List Nat) (allowDuplicateMarkers : Bool)
    (previous : Nat) (c0 c1 : Nat) : List Nat → Nat × Nat × Bool
  | [] => (c0, c1, false)
  | m :: rest =>
    let c0' := if strandOfMarker markerCounts m = 0 then c0 + 1 else c0
    let c1' := if strandOfMarker markerCounts m = 1 then c1 + 1 else c1
    if ¬allowDuplicateMarkers ∧
        readIdOfMarker markerCounts m = readIdOfMarker markerCounts previous then
      (c0', c1', true)
    else
      badSetScan markerCounts allowDuplicateMarkers m c0' c1' rest

/-- Embedding of the body of `createMarkerGraphVerticesThreadFunction7` for
one disjoint set (its sorted marker list `ms`).  A set with exactly one
marker is flagged bad iff `1 < minCoveragePerStrand`; otherwise the markers
are scanned for an adjacent pair on the same read (unless
`allowDuplicateMarkers`), and failing that the per-strand counts are checked
against `minCoveragePerStrand`. -/
def isBadDisjointSet (markerCounts : List Nat) (allowDuplicateMarkers : Bool)
    (minCoveragePerStrand : Nat) : List Nat → Bool
  | [] => false
  | [_] => decide (1 < minCoveragePerStrand)
  | m0 :: m1 :: rest =>
    let c0 := if strandOfMarker markerCounts m0 = 0 then 1 else 0
    let c1 := if strandOfMarker markerCounts m0 = 1 then 1 else 0
    let r := badSetScan markerCounts allowDuplicateMarkers m0 c0 c1 (m1 :: rest)
    if r.2.2 then true
    else decide (r.1 < minCoveragePerStrand ∨ r.2.1 < minCoveragePerStrand)

/-- Number of markers of the set lying on strand `s`. -/
def strandCount (markerCounts : List Nat) (s : Nat) (ms : List Nat) : Nat :=
  (ms.filter (fun m => strandOfMarker markerCounts m = s)).length

/-- Bad-set criterion exactly as worded by the spec (§4.3 step 6): the set
contains two markers with the same `ReadId` (unless duplicates are allowed),
or either strand contributes fewer than `minCoveragePerStrand` markers. -/
def badSetSpec (markerCounts : List Nat) (allowDuplicateMarkers : Bool)
    (minCoveragePerStrand : Nat) (ms : List Nat) : Prop :=
  (¬allowDuplicateMarkers = true ∧ ¬(ms.map (readIdOfMarker markerCounts)).Nodup) ∨
    strandCount markerCounts 0 ms < minCoveragePerStrand ∨
    strandCount markerCounts 1 ms < minCoveragePerStrand

instance (markerCounts : List Nat) (allowDuplicateMarkers : Bool)
    (minCoveragePerStrand : Nat) (ms : List Nat) :
    Decidable (badSetSpec markerCounts allowDuplicateMarkers minCoveragePerStrand ms) := by
  unfold badSetSpec
  infer_instance

/-! ## Disjoint-set convergence loop (C2)

Embedding of the `do { ... } while` loop of
`Assembler::createMarkerGraphVertices` (`AssemblerMarkerGraph.cpp`): starting
at `pass = 1`, each iteration runs `find(i, true)` over all oriented markers
and observes the global `parentUpdated` counter, then increments `pass`; the
loop continues while `parentUpdated > 0 && pass <= 10` and the function
throws a fatal `runtime_error` when the final `pass` exceeds 10.

Modelled from the spec: the `DisjointSets` engine itself
(`dset64-gccatomic.hpp`) is not part of the sources under verification; per
spec §4.1 each full pass observes a `parentUpdated` counter, so a pass is
abstracted as the sequence `u : Nat → Nat` of counter values observed by
pass 1, 2, 3, ....  The loop control flow is embedded from the source.
-/

/-- Value of `pass` when the convergence loop of
`createMarkerGraphVertices` exits, given the `parentUpdated` value `u k`
observed by the k-th pass.  The loop body runs with the current `pass`,
increments it, and repeats while `parentUpdated > 0 && pass <= 10`; `fuel`
only bounds the recursion and never runs out when started at 10 from
`pass = 1`, because the loop guard stops at `pass = 10`. -/
def convergenceLoopGo (u : Nat → Nat) : Nat → Nat → Nat
  | 0, pass => pass + 1
  | fuel + 1, pass =>
    if u pass > 0 ∧ pass + 1 ≤ 10 then convergenceLoopGo u fuel (pass + 1)
    else pass + 1

/-- Final value of `pass` for the convergence loop started at `pass = 1`. -/
def convergenceLoopFinalPass (u : Nat → Nat) : Nat :=
  convergenceLoopGo u 10 1

/-- The convergence stage of `createMarkerGraphVertices` throws
(`"DisjointSets parent information did not converge"`) iff the final value of
`pass` exceeds 10. -/
def convergenceLoopThrows (u : Nat → Nat) : Bool :=
  decide (convergenceLoopFinalPass u > 10)

/-! ## Marker-graph edge creation and the coverage cap (C9)

Embedding of `Assembler::createMarkerGraphEdgesThreadFunction0` and the
single-threaded merge in `Assembler::createMarkerGraphEdges`
(`AssemblerMarkerGraph.cpp`).  For each vertex `v0` and each child
`(v1, markerIntervals)` produced by `getGlobalMarkerGraphVertexChildren`, one
edge is appended to `edges` and its interval list to `edgeMarkerIntervals`;
the edge's 8-bit `coverage` field stores `markerIntervals.size()` when that
is `< 256` and 255 otherwise.
-/

/-- MarkerInterval: oriented read value plus the two ordinals. -/
structure MarkerInterval where
  orientedReadValue : Nat
  ord0 : Nat
  ord1 : Nat
deriving DecidableEq, Repr, Inhabited

/-- MarkerGraph::Edge as produced by edge creation (flags all clear). -/
structure MarkerGraphEdgeRec where
  source : Nat
  target : Nat
  coverage : Nat
deriving DecidableEq, Repr, Inhabited

/-- The `coverage` byte stored for an interval list of length `n`:
`if(coverage < 256) edge.coverage = uint8_t(coverage); else edge.coverage = 255;`. -/
def edgeCoverageField (n : Nat) : Nat :=
  if n < 256 then n else 255

/-- Embedding of the edge-creation loops: the input lists, per source vertex,
the children `(targetVertex, markerIntervals)`; the output is the pair of the
`edges` vector and the parallel `edgeMarkerIntervals` vector, concatenated in
processing order exactly as the per-thread vectors are merged. -/
def createMarkerGraphEdgesFrom :
    List (Nat × List (Nat × List MarkerInterval)) →
      List MarkerGraphEdgeRec × List (List MarkerInterval)
  | [] => ([], [])
  | (v0, children) :: rest =>
    let here := children.map fun c =>
      (MarkerGraphEdgeRec.mk v0 c.1 (edgeCoverageField c.2.length), c.2)
    let r := createMarkerGraphEdgesFrom rest
    (here.map Prod.fst ++ r.1, here.map Prod.snd ++ r.2)

/-! ## Reverse-complement involution checks (C5)

Embedding of the involution checks run by the strand-symmetry enforcer:
`findMarkerGraphReverseComplementVerticesThreadFunction2` asserts
`reverseComplementVertex[reverseComplementVertex[v]] == v` for every vertex,
and `checkMarkerGraphIsStrandSymmetricThreadFunction2` asserts, for every
edge `e0` with `e1 = reverseComplementEdge[e0]`, that
`reverseComplementEdge[e1] == e0`, that `e1 != e0`, and that coverage and the
three simplifier flags of `e0` and `e1` agree.  (The corresponding vertex
check `v1 != v0` is commented out in the source: a vertex may be its own
reverse complement.)  Each check throws on failure, so the properties hold
exactly when the checks return normally.
-/

/-- Coverage and flag fields of a `MarkerGraph::Edge` inspected by
`checkMarkerGraphIsStrandSymmetricThreadFunction2`. -/
structure EdgeFlagsRec where
  coverage : Nat
  wasRemovedByTransitiveReduction : Bool
  wasPruned : Bool
  isSuperBubbleEdge : Bool
deriving DecidableEq, Repr, Inhabited

/-- Embedding of `findMarkerGraphReverseComplementVerticesThreadFunction2`:
true iff no `SHASTA_ASSERT` fires. -/
def checkReverseComplementVertexInvolution (rcVertex : List Nat) : Bool :=
  (List.range rcVertex.length).all fun v =>
    rcVertex.getD (rcVertex.getD v 0) 0 == v

/-- Embedding of `checkMarkerGraphIsStrandSymmetricThreadFunction2`:
true iff no `SHASTA_ASSERT` fires while scanning every edge. -/
def checkStrandSymmetricEdgeLoop (rcEdge : List Nat) (edges : List EdgeFlagsRec) : Bool :=
  (List.range edges.length).all fun e0 =>
    let e1 := rcEdge.getD e0 0
    let edge0 := edges.getD e0 default
    let edge1 := edges.getD e1 default
    (rcEdge.getD e1 0 == e0) && (e1 != e0) &&
      (edge0.coverage == edge1.coverage) &&
      (edge0.wasRemovedByTransitiveReduction == edge1.wasRemovedByTransitiveReduction) &&
      (edge0.wasPruned == edge1.wasPruned) &&
      (edge0.isSuperBubbleEdge == edge1.isSuperBubbleEdge)

/-! ## Mode-3 transitions and links (C7)

Embedding of `AssemblyGraph::findTransitions` and
`AssemblyGraph::createLinks` (`mode3.cpp`).  `findTransitions` scans, for
every oriented read, the adjacent pairs of its (sorted) pseudo-path and
records a transition under key `(previous.segmentId, current.segmentId)`
whenever the two segment ids differ; the keys live in a `std::map`, modelled
as a sorted duplicate-free key list built by ordered insertion.
`createLinks` then emits, for every key whose transition count reaches
`minCoverage`, a `Link` carrying that count as coverage, and stores the
supporting transitions in a parallel array.  The `AssemblyGraph` constructor
calls `createLinks` with `minCoverage = 2`.
-/

/-- PseudoPathEntry (`mode3.hpp`): segment id, position in the segment path,
and the two marker ordinals. -/
structure PseudoPathEntry where
  segmentId : Nat
  position : Nat
  ord0 : Nat
  ord1 : Nat
deriving DecidableEq, Repr, Inhabited

/-- One recorded transition: the oriented read and the adjacent pair of
pseudo-path entries that generated it. -/
structure TransitionRec where
  orientedReadValue : Nat
  first : PseudoPathEntry
  second : PseudoPathEntry
deriving DecidableEq, Repr, Inhabited

/-- Mode3 `Link`. -/
structure LinkRec where
  segmentId0 : Nat
  segmentId1 : Nat
  coverage : Nat
deriving DecidableEq, Repr, Inhabited

/-- Transitions generated by the inner loop of `findTransitions` on one
pseudo-path: for each adjacent pair with differing segment ids, one entry
keyed by the segment-id pair. -/
def adjacentTransitions (orv : Nat) : List PseudoPathEntry →
    List ((Nat × Nat) × TransitionRec)
  | [] => []
  | [_] => []
  | p :: q :: rest =>
    (if p.segmentId = q.segmentId then []
     else [((p.segmentId, q.segmentId), TransitionRec.mk orv p q)]) ++
      adjacentTransitions orv (q :: rest)

/-- Embedding of `findTransitions`: loop over `readId < pseudoPaths.size()/2`
and both strands, so over oriented read values `0 ≤ orv < 2*(size/2)`, in
order. -/
def findTransitionsList (pseudoPaths : List (List PseudoPathEntry)) :
    List ((Nat × Nat) × TransitionRec) :=
  ((List.range (2 * (pseudoPaths.length / 2))).map fun orv =>
    adjacentTransitions orv (pseudoPaths.getD orv [])).flatten

/-- Strict-weak ordering of `std::map<SegmentPair, ...>` keys
(lexicographic `std::pair` comparison). -/
def segmentPairLt (a b : Nat × Nat) : Bool :=
  a.1 < b.1 || (a.1 == b.1 && a.2 < b.2)

/-- Ordered key insertion, modelling `std::map` key storage. -/
def insertSegmentPairKey (k : Nat × Nat) : List (Nat × Nat) → List (Nat × Nat)
  | [] => [k]
  | k2 :: rest =>
    if k = k2 then k2 :: rest
    else if segmentPairLt k k2 then k :: k2 :: rest
    else k2 :: insertSegmentPairKey k rest

/-- The sorted duplicate-free key set of the transition map. -/
def transitionKeys (ts : List ((Nat × Nat) × TransitionRec)) : List (Nat × Nat) :=
  ts.foldl (fun acc t => insertSegmentPairKey t.1 acc) []

/-- Transitions recorded under one key, in recording order
(`transitionMap[segmentPair].push_back(...)`). -/
def transitionsForPair (ts : List ((Nat × Nat) × TransitionRec))
    (k : Nat × Nat) : List TransitionRec :=
  (ts.filter (fun t => t.1 = k)).map Prod.snd

/-- Minimum number of transitions needed to create a link; the
`AssemblyGraph` constructor in `mode3.cpp` fixes it at 2. -/
def mode3LinkMinCoverage : Nat := 2

/-- Embedding of `createLinks`: iterate the map in key order; for each key
with `coverage = transitionVector.size() >= minCoverage` push a `Link` and
append the supporting transition vector. -/
def createLinksFrom (ts : List ((Nat × Nat) × TransitionRec))
    (minCoverage : Nat) : List LinkRec × List (List TransitionRec) :=
  let keys := (transitionKeys ts).filter
    (fun k => minCoverage ≤ (transitionsForPair ts k).length)
  (keys.map fun k => LinkRec.mk k.1 k.2 (transitionsForPair ts k).length,
   keys.map fun k => transitionsForPair ts k)

/-- Pseudo-paths used by the C7 witness: one read (two oriented reads), both
traversing segment 1 then segment 2. -/
def witnessPseudoPaths : List (List PseudoPathEntry) :=
  [[PseudoPathEntry.mk 1 0 0 1, PseudoPathEntry.mk 2 0 2 3],
   [PseudoPathEntry.mk 1 0 0 1, PseudoPathEntry.mk 2 0 2 3]]

/-! ## Marker graph model for the simplifier

The simplifier passes (transitive reduction, reverse transitive reduction,
pruning, bubble/superbubble removal) operate on the global marker graph:
`markerGraph.edges` (source, target, coverage, marker intervals),
`markerGraph.edgesBySource` / `edgesByTarget`, and the
`reverseComplementVertex` / `reverseComplementEdge` maps.  Edge flags are
mutable and modelled as `Nat → Bool` functions.
-/

/-- A `MarkerGraph::Edge` together with its `edgeMarkerIntervals` ordinal
pairs (only the ordinals are consulted by the simplifier, for the coverage-1
marker-skip pass). -/
structure MGEdge where
  src : Nat
  tgt : Nat
  cov : Nat
  ivals : List (Nat × Nat)
deriving DecidableEq, Repr, Inhabited

/-- The global marker graph as seen by the simplifier. -/
structure MGraph where
  nV : Nat
  edges : List MGEdge
  rcE : Nat → Nat
  rcV : Nat → Nat
  eBySrc : Nat → List Nat
  eByTgt : Nat → List Nat

/-- Number of edges. -/
def MGraph.nE (G : MGraph) : Nat := G.edges.length

/-- Source vertex of an edge id. -/
def MGraph.src (G : MGraph) (e : Nat) : Nat := (G.edges.getD e default).src

/-- Target vertex of an edge id. -/
def MGraph.tgt (G : MGraph) (e : Nat) : Nat := (G.edges.getD e default).tgt

/-- Coverage of an edge id. -/
def MGraph.cov (G : MGraph) (e : Nat) : Nat := (G.edges.getD e default).cov

/-- Marker-interval ordinal pairs of an edge id. -/
def MGraph.ivals (G : MGraph) (e : Nat) : List (Nat × Nat) :=
  (G.edges.getD e default).ivals

/-- Coherence of `edgesBySource`/`edgesByTarget` with the edge records, and
validity of vertex ids and of the reverse-complement edge map.  These are
construction invariants of `createMarkerGraphEdgesBySourceAndTarget` and
`findMarkerGraphReverseComplementEdges` (spec §3, invariants). -/
structure MGraph.WellFormed (G : MGraph) : Prop where
  src_of_mem : ∀ v, v < G.nV → ∀ f ∈ G.eBySrc v, f < G.nE ∧ G.src f = v
  mem_of_src : ∀ v, v < G.nV → ∀ f, f < G.nE → G.src f = v → f ∈ G.eBySrc v
  tgt_of_mem : ∀ v, v < G.nV → ∀ f ∈ G.eByTgt v, f < G.nE ∧ G.tgt f = v
  mem_of_tgt : ∀ v, v < G.nV → ∀ f, f < G.nE → G.tgt f = v → f ∈ G.eByTgt v
  src_nodup : ∀ v, v < G.nV → (G.eBySrc v).Nodup
  tgt_nodup : ∀ v, v < G.nV → (G.eByTgt v).Nodup
  vert_lt : ∀ e, e < G.nE → G.src e < G.nV ∧ G.tgt e < G.nV

/-! ## Pruning of the strong subgraph (C8)

Embedding of `Assembler::pruneMarkerGraphStrongSubgraph`,
`isForwardLeafOfMarkerGraphPrunedStrongSubgraph` and
`isBackwardLeafOfMarkerGraphPrunedStrongSubgraph`
(`AssemblerMarkerGraph.cpp`).  The `wasPruned` flags are cleared, then at
each iteration the edges to prune are first collected in `edgesToBePruned`
against the current flags and only then committed, so leaves created by an
iteration are pruned no earlier than the following iteration.
-/

/-- `isForwardLeafOfMarkerGraphPrunedStrongSubgraph`: the vertex has no
out-edge that is neither removed nor pruned. -/
def isForwardLeafPSS (G : MGraph) (rem pru : Nat → Bool) (v : Nat) : Bool :=
  (G.eBySrc v).all fun f => rem f || pru f

/-- `isBackwardLeafOfMarkerGraphPrunedStrongSubgraph`: the vertex has no
in-edge that is neither removed nor pruned. -/
def isBackwardLeafPSS (G : MGraph) (rem pru : Nat → Bool) (v : Nat) : Bool :=
  (G.eByTgt v).all fun f => rem f || pru f

/-- The `edgesToBePruned` marks of one iteration, computed against the flag
state at the start of the iteration. -/
def pruneMarks (G : MGraph) (rem pru : Nat → Bool) : List Nat :=
  (List.range G.nE).filter fun e =>
    !rem e && !pru e &&
      (isForwardLeafPSS G rem pru (G.tgt e) || isBackwardLeafPSS G rem pru (G.src e))

/-- Commit step of one prune iteration: all collected marks are applied
together. -/
def pruneIterationStep (G : MGraph) (rem pru : Nat → Bool) : Nat → Bool :=
  fun e => pru e || decide (e ∈ pruneMarks G rem pru)

/-- `pruneMarkerGraphStrongSubgraph`: clear `wasPruned`, then run the given
number of iterations. -/
def pruneStrongSubgraph (G : MGraph) (rem : Nat → Bool) : Nat → (Nat → Bool)
  | 0 => fun _ => false
  | n + 1 => pruneIterationStep G rem (pruneStrongSubgraph G rem n)

/-- Marker graph used by the pruning and transitive-reduction witnesses:
a two-edge chain `0 → 1 → 2`. -/
def pruneWitnessGraph : MGraph where
  nV := 3
  edges := [MGEdge.mk 0 1 1 [], MGEdge.mk 1 2 1 []]
  rcE := fun e => e
  rcV := fun v => v
  eBySrc := fun v => if v = 0 then [0] else if v = 1 then [1] else []
  eByTgt := fun v => if v = 1 then [0] else if v = 2 then [1] else []

/-! ## Transitive reduction (C4) and reverse transitive reduction

Embedding of `Assembler::transitiveReduction` and
`Assembler::reverseTransitiveReduction` (`AssemblerMarkerGraph.cpp`).
Edges are bucketed by coverage, keeping only the canonical edge of each
reverse-complement pair (the one whose id is not larger than its reverse
complement's); edges with coverage `<= lowCoverageThreshold` are flagged
outright, coverage-1 edges with a large marker skip are flagged, and the
remaining buckets are processed in ascending coverage order with a bounded
BFS per edge.
-/

/-- Inner loop of the per-edge BFS: scan the out-edges of the dequeued
vertex.  `d1` is the distance assigned to newly encountered vertices,
`q` the queue (the already-dequeued head removed), `marked` the
`bfsVertices` list of encountered vertices.  Skips the avoided edge and
edges flagged removed; returns `found = true` upon reaching `u1`; otherwise
marks unvisited targets and enqueues them when `d1 < maxDist`. -/
def bfsScan (G : MGraph) (rem : Nat → Bool) (eAvoid u1 maxDist d1 : Nat) :
    List Nat → (Nat → Option Nat) → List Nat → List Nat →
      (Nat → Option Nat) × List Nat × List Nat × Bool
  | [], dist, q, marked => (dist, q, marked, false)
  | f :: fs, dist, q, marked =>
    if f = eAvoid then bfsScan G rem eAvoid u1 maxDist d1 fs dist q marked
    else if rem f then bfsScan G rem eAvoid u1 maxDist d1 fs dist q marked
    else if (dist (G.tgt f)).isSome then bfsScan G rem eAvoid u1 maxDist d1 fs dist q marked
    else if G.tgt f = u1 then (dist, q, marked, true)
    else
      bfsScan G rem eAvoid u1 maxDist d1 fs
        (fun x => if x = G.tgt f then some d1 else dist x)
        (if d1 < maxDist then q ++ [G.tgt f] else q)
        (marked ++ [G.tgt f])

/-- Outer loop of the per-edge BFS (`while(!q.empty())`).  The fuel only
bounds the number of dequeues; `nV + 1` dequeues always suffice because each
dequeued vertex was enqueued exactly once when first encountered. -/
def bfsLoop (G : MGraph) (rem : Nat → Bool) (eAvoid u1 maxDist : Nat) :
    Nat → (Nat → Option Nat) → List Nat → List Nat → Bool
  | 0, _, _, _ => false
  | fuel + 1, dist, q, marked =>
    match q with
    | [] => false
    | v0 :: rest =>
      let r := bfsScan G rem eAvoid u1 maxDist ((dist v0).getD 0 + 1)
        (G.eBySrc v0) dist rest marked
      if r.2.2.2 then true
      else bfsLoop G rem eAvoid u1 maxDist fuel r.1 r.2.1 r.2.2.1

/-- The per-edge BFS of `transitiveReduction`: start at `u0`, search `u1`,
avoiding `eAvoid` and the currently removed edges. -/
def bfsFindsPath (G : MGraph) (rem : Nat → Bool) (eAvoid u0 u1 maxDist : Nat) : Bool :=
  bfsLoop G rem eAvoid u1 maxDist (G.nV + 1)
    (fun x => if x = u0 then some 0 else none) [u0] [u0]

/-- Flag an edge and its reverse complement as removed by transitive
reduction. -/
def setRemovedPair (G : MGraph) (rem : Nat → Bool) (e : Nat) : Nat → Bool :=
  fun x => if x = e then true else if x = G.rcE e then true else rem x

/-- Processing of one canonical edge in the main pass of
`transitiveReduction`: skip it when already removed, otherwise run the BFS
from its source towards its target and, on success, flag the edge and its
reverse complement. -/
def trProcessEdge (G : MGraph) (maxDist : Nat) (rem : Nat → Bool) (e : Nat) : Nat → Bool :=
  if rem e then rem
  else if bfsFindsPath G rem e (G.src e) (G.tgt e) maxDist then setRemovedPair G rem e
  else rem

/-- The bucket `edgesByCoverage[c]`: canonical edges (id not above the
reverse complement's id) with coverage `c`, in id order. -/
def edgesWithCoverage (G : MGraph) (c : Nat) : List Nat :=
  (List.range G.nE).filter fun e => !(G.rcE e < e) && G.cov e == c

/-- Pass flagging all canonical edges of coverage `1..lowCoverageThreshold`
together with their reverse complements. -/
def trLowCoveragePass (G : MGraph) (low : Nat) (rem : Nat → Bool) : Nat → Bool :=
  (List.range' 1 low).foldl
    (fun r c => (edgesWithCoverage G c).foldl (fun r2 e => setRemovedPair G r2 e) r) rem

/-- Pass flagging coverage-1 canonical edges whose single marker interval has
an ordinal skip above `edgeMarkerSkipThreshold` (and their reverse
complements), when not already flagged. -/
def trSkipPass (G : MGraph) (skipThreshold : Nat) (rem : Nat → Bool) : Nat → Bool :=
  (edgesWithCoverage G 1).foldl
    (fun r e =>
      if 1 < (G.ivals e).length then r
      else if skipThreshold < ((G.ivals e).getD 0 default).2 - ((G.ivals e).getD 0 default).1 then
        if r e then r else setRemovedPair G r e
      else r) rem

/-- Main pass: coverages strictly between the thresholds, ascending; within
a coverage bucket, canonical edges in id order. -/
def trMainPass (G : MGraph) (low high maxDist : Nat) (rem : Nat → Bool) : Nat → Bool :=
  (List.range' (low + 1) (high - (low + 1))).foldl
    (fun r c => (edgesWithCoverage G c).foldl (trProcessEdge G maxDist) r) rem

/-- `Assembler::transitiveReduction`: clear the flags, run the
low-coverage pass, the marker-skip pass, and the BFS main pass. -/
def transitiveReduction (G : MGraph) (low high maxDist skipThreshold : Nat) : Nat → Bool :=
  trMainPass G low high maxDist (trSkipPass G skipThreshold (trLowCoveragePass G low (fun _ => false)))

/-- Bucket of `reverseTransitiveReduction`: canonical edges with coverage
strictly between the thresholds. -/
def rtrEdgesWithCoverage (G : MGraph) (low high c : Nat) : List Nat :=
  (List.range G.nE).filter fun e =>
    !(G.rcE e < e) && (decide (low < G.cov e) && decide (G.cov e < high)) && G.cov e == c

/-- Processing of one canonical edge in `reverseTransitiveReduction`: the
BFS starts at the edge's target and searches for its source, along forward
edges. -/
def rtrProcessEdge (G : MGraph) (maxDist : Nat) (rem : Nat → Bool) (e : Nat) : Nat → Bool :=
  if rem e then rem
  else if bfsFindsPath G rem e (G.tgt e) (G.src e) maxDist then setRemovedPair G rem e
  else rem

/-- `Assembler::reverseTransitiveReduction`: no flag clearing; coverages
strictly between the thresholds, ascending. -/
def reverseTransitiveReduction (G : MGraph) (low high maxDist : Nat)
    (rem : Nat → Bool) : Nat → Bool :=
  (List.range' (low + 1) (high - (low + 1))).foldl
    (fun r c => (rtrEdgesWithCoverage G low high c).foldl (rtrProcessEdge G maxDist) r) rem

/-- A forward path of `len` edges from `u` to `v` that avoids the edge
`eAvoid` and all edges flagged in `rem` (the spec-side notion used by the
transitive-reduction claim). -/
inductive AdmissiblePath (G : MGraph) (rem : Nat → Bool) (eAvoid : Nat) :
    Nat → Nat → Nat → Prop
  | single (f : Nat) (hf : f < G.nE) (hna : f ≠ eAvoid) (hr : rem f = false)
      (u v : Nat) (hs : G.src f = u) (ht : G.tgt f = v) :
      AdmissiblePath G rem eAvoid u v 1
  | cons (f : Nat) (hf : f < G.nE) (hna : f ≠ eAvoid) (hr : rem f = false)
      (u v k : Nat) (hs : G.src f = u)
      (tail : AdmissiblePath G rem eAvoid (G.tgt f) v k) :
      AdmissiblePath G rem eAvoid u v (k + 1)

/-- A forward admissible path whose vertices strictly between the endpoints
are unvisited in `dist` (used to characterize the BFS mid-run). -/
inductive UnvisitedPath (G : MGraph) (rem : Nat → Bool) (eAvoid : Nat)
    (dist : Nat → Option Nat) (u1 : Nat) : Nat → Nat → Prop
  | single (f : Nat) (hf : f < G.nE) (hna : f ≠ eAvoid) (hr : rem f = false)
      (u : Nat) (hs : G.src f = u) (ht : G.tgt f = u1) :
      UnvisitedPath G rem eAvoid dist u1 u 1
  | cons (f : Nat) (hf : f < G.nE) (hna : f ≠ eAvoid) (hr : rem f = false)
      (u k : Nat) (hs : G.src f = u) (hun : dist (G.tgt f) = none)
      (tail : UnvisitedPath G rem eAvoid dist u1 (G.tgt f) k) :
      UnvisitedPath G rem eAvoid dist u1 u (k + 1)

/-- Invariant of the per-edge BFS loop between dequeues. -/
structure BfsInv (G : MGraph) (rem : Nat → Bool) (eAvoid u0 u1 maxDist : Nat)
    (dist : Nat → Option Nat) (q marked : List Nat) : Prop where
  dist_u0 : dist u0 = some 0
  mark_iff : ∀ v, (dist v).isSome ↔ v ∈ marked
  mark_nodup : marked.Nodup
  mark_lt : ∀ v ∈ marked, v < G.nV
  dist_u1 : dist u1 = none
  dist_path : ∀ v m, dist v = some m → (v = u0 ∧ m = 0) ∨
      (1 ≤ m ∧ m ≤ max 1 maxDist ∧ AdmissiblePath G rem eAvoid u0 v m)
  q_nodup : q.Nodup
  q_mem : ∀ v ∈ q, ∃ m, dist v = some m ∧ (m < maxDist ∨ (v = u0 ∧ m = 0))
  q_pair : List.Pairwise (fun a b => (dist a).getD 0 ≤ (dist b).getD 0 ∧
      (dist b).getD 0 ≤ (dist a).getD 0 + 1) q
  processed : ∀ v m, dist v = some m → (m < maxDist ∨ (v = u0 ∧ m = 0)) → v ∉ q →
      ∀ f, f < G.nE → f ≠ eAvoid → rem f = false → G.src f = v →
        G.tgt f ≠ u1 ∧ (dist (G.tgt f)).isSome

/-- What the BFS can still find from a mid-run state: a queued vertex with an
admissible path to `u1` through unvisited vertices, short enough that every
intermediate vertex will still be enqueued. -/
def BfsFoundGoal (G : MGraph) (rem : Nat → Bool) (eAvoid u1 maxDist : Nat)
    (dist : Nat → Option Nat) (q : List Nat) : Prop :=
  ∃ v m ℓ, v ∈ q ∧ dist v = some m ∧
    UnvisitedPath G rem eAvoid dist u1 v ℓ ∧ (ℓ = 1 ∨ m + ℓ ≤ maxDist)

/-- Marker graph with two parallel canonical edges `0 → 1` (ids 0, 1) and
their reverse complements `2 → 3` (ids 2, 3), all of coverage 2. -/
def trParallelGraph : MGraph where
  nV := 4
  edges := [MGEdge.mk 0 1 2 [], MGEdge.mk 0 1 2 [], MGEdge.mk 2 3 2 [], MGEdge.mk 2 3 2 []]
  rcE := fun e => if e = 0 then 2 else if e = 2 then 0 else if e = 1 then 3
    else if e = 3 then 1 else e
  rcV := fun v => 3 - v
  eBySrc := fun v => if v = 0 then [0, 1] else if v = 2 then [2, 3] else []
  eByTgt := fun v => if v = 1 then [0, 1] else if v = 3 then [2, 3] else []

/-- Marker graph with two parallel self-loops at vertex 0 (ids 0, 1) and
their reverse complements at vertex 1 (ids 2, 3), all of coverage 2. -/
def trSelfLoopGraph : MGraph where
  nV := 2
  edges := [MGEdge.mk 0 0 2 [], MGEdge.mk 0 0 2 [], MGEdge.mk 1 1 2 [], MGEdge.mk 1 1 2 []]
  rcE := fun e => if e = 0 then 2 else if e = 2 then 0 else if e = 1 then 3
    else if e = 3 then 1 else e
  rcV := fun v => 1 - v
  eBySrc := fun v => if v = 0 then [0, 1] else if v = 1 then [2, 3] else []
  eByTgt := fun v => if v = 0 then [0, 1] else if v = 1 then [2, 3] else []

/-! ## Mode-3 segment creation (C6)

Embedding of `AssemblyGraph::createSegments` (`mode3.cpp`).  The main loop
walks, from each not-yet-found edge, forward while the target vertex has
in- and out-degree 1 (detecting a circular chain when the walk returns to
the start edge) and, for non-circular chains, backward analogously; the
gathered path becomes a segment and all its edges are marked found.  The
`SHASTA_ASSERT(not wasFound[...])` checks of the source are modelled by
returning `none`, as is the final check that every edge was found; fuel
`nE + 1` bounds the walks, which the correctness proof shows is never
exhausted. -/

/-- Next edge of the forward walk: defined when the target vertex of `e` has
exactly one out-edge and one in-edge, and then equal to that out-edge. -/
def succE (G : MGraph) (e : Nat) : Option Nat :=
  if (G.eBySrc (G.tgt e)).length = 1 ∧ (G.eByTgt (G.tgt e)).length = 1 then
    some ((G.eBySrc (G.tgt e)).getD 0 0)
  else none

/-- Previous edge of the backward walk: defined when the source vertex of
`e` has exactly one out-edge and one in-edge, and then equal to that
in-edge. -/
def predE (G : MGraph) (e : Nat) : Option Nat :=
  if (G.eBySrc (G.src e)).length = 1 ∧ (G.eByTgt (G.src e)).length = 1 then
    some ((G.eByTgt (G.src e)).getD 0 0)
  else none

/-- Iterated forward successor. -/
def iterSuccE (G : MGraph) : Nat → Nat → Option Nat
  | 0, e => some e
  | k + 1, e =>
    match succE G e with
    | none => none
    | some f => iterSuccE G k f

/-- Forward walk of `createSegments` (`nextEdges` accumulation and circular
detection). -/
def fwdWalk (G : MGraph) (start : Nat) : Nat → Nat → List Nat → Option (List Nat × Bool)
  | 0, _, _ => none
  | fuel + 1, cur, acc =>
    match succE G cur with
    | none => some (acc, false)
    | some nxt =>
      if nxt = start then some (acc, true)
      else fwdWalk G start fuel nxt (acc ++ [nxt])

/-- Backward walk of `createSegments` (`previousEdges` accumulation, push
order). -/
def bwdWalk (G : MGraph) : Nat → Nat → List Nat → Option (List Nat)
  | 0, _, _ => none
  | fuel + 1, cur, acc =>
    match predE G cur with
    | none => some acc
    | some prv => bwdWalk G fuel prv (acc ++ [prv])

/-- Main loop of `createSegments` over candidate start edges. -/
def createSegmentsLoop (G : MGraph) :
    List Nat → (Nat → Bool) → List (List Nat) → Option (List (List Nat))
  | [], wasFound, paths =>
    if (List.range G.nE).all wasFound then some paths else none
  | s :: todo, wasFound, paths =>
    if wasFound s then createSegmentsLoop G todo wasFound paths
    else
      match fwdWalk G s (G.nE + 1) s [] with
      | none => none
      | some (nextEdges, isCircular) =>
        match (if isCircular then some [] else bwdWalk G (G.nE + 1) s []) with
        | none => none
        | some previousEdges =>
          let path := previousEdges.reverse ++ s :: nextEdges
          if path.any wasFound then none
          else createSegmentsLoop G todo
            (fun x => if x ∈ path then true else wasFound x) (paths ++ [path])

/-- `AssemblyGraph::createSegments`. -/
def createSegments (G : MGraph) : Option (List (List Nat)) :=
  createSegmentsLoop G (List.range G.nE) (fun _ => false) []

/-- Closure property of a segment path used for the circular-chain clause:
every forward iterate of an edge of the path that lies on a cycle stays in
the path. -/
def SegClosed (G : MGraph) (p : List Nat) : Prop :=
  ∀ e ∈ p, ∀ T, 1 ≤ T → iterSuccE G T e = some e →
    ∀ j f, iterSuccE G j e = some f → f ∈ p

/-- A two-edge circular chain (`e0 : v0 → v1`, `e1 : v1 → v0`) used to
exercise `createSegments` on a concrete instance. -/
def segWitnessGraph : MGraph where
  nV := 2
  edges := [⟨0, 1, 4, []⟩, ⟨1, 0, 4, []⟩]
  rcE := fun e => e
  rcV := fun v => v
  eBySrc := fun v => if v = 0 then [0] else if v = 1 then [1] else []
  eByTgt := fun v => if v = 0 then [1] else if v = 1 then [0] else []

/-! ## The temporary assembly graph and the simplify iteration (C3, C10)

`simplifyMarkerGraphIterationPart1` / `Part2` (`AssemblerMarkerGraph.cpp`)
work on a temporary assembly graph whose construction
(`createAssemblyGraphEdges` / `createAssemblyGraphVertices`) is not under
`src/`.  The graph itself is therefore modelled from the spec (§4.6): each
assembly-graph edge carries the chain of marker-graph edge ids it was built
from (`edgeLists`), an average coverage, a removed flag, and the graph is
strand-symmetric via `rcV` / `rcE`.  The part-1 and part-2 algorithms
below are embedded from the source.
-/

/-- Modelled from the spec: an edge of the temporary assembly graph
(`AssemblyGraph::Edge`): source and target vertex, average marker-graph
edge coverage, and the removed flag tested by `wasRemoved()`. -/
structure AGEdge where
  src : Nat
  tgt : Nat
  avgCov : Nat
  removed : Bool
deriving DecidableEq, Repr, Inhabited

/-- Modelled from the spec: the temporary assembly graph produced by
`createAssemblyGraphEdges` / `createAssemblyGraphVertices` (not under
`src/`), with its connectivity tables and reverse-complement maps. -/
structure AGraph where
  nV : Nat
  edges : List AGEdge
  edgeLists : Nat → List Nat
  rcV : Nat → Nat
  rcE : Nat → Nat
  eBySrc : Nat → List Nat
  eByTgt : Nat → List Nat

/-- Number of assembly-graph edges. -/
def AGraph.nE (A : AGraph) : Nat := A.edges.length

/-- Source vertex of an assembly-graph edge id. -/
def AGraph.src (A : AGraph) (e : Nat) : Nat := (A.edges.getD e default).src

/-- Target vertex of an assembly-graph edge id. -/
def AGraph.tgt (A : AGraph) (e : Nat) : Nat := (A.edges.getD e default).tgt

/-- `averageEdgeCoverage` of an assembly-graph edge id. -/
def AGraph.avgCov (A : AGraph) (e : Nat) : Nat := (A.edges.getD e default).avgCov

/-- `wasRemoved()` of an assembly-graph edge id. -/
def AGraph.removed (A : AGraph) (e : Nat) : Bool := (A.edges.getD e default).removed

/-- Coherence of the assembly graph's `edgesBySource` / `edgesByTarget`
with its edge records (construction invariants, spec §4.6). -/
structure AGraph.WellFormed (A : AGraph) : Prop where
  src_of_mem : ∀ v, v < A.nV → ∀ f ∈ A.eBySrc v, f < A.nE ∧ A.src f = v
  mem_of_src : ∀ v, v < A.nV → ∀ f, f < A.nE → A.src f = v → f ∈ A.eBySrc v
  tgt_of_mem : ∀ v, v < A.nV → ∀ f ∈ A.eByTgt v, f < A.nE ∧ A.tgt f = v
  mem_of_tgt : ∀ v, v < A.nV → ∀ f, f < A.nE → A.tgt f = v → f ∈ A.eByTgt v
  vert_lt : ∀ e, e < A.nE → A.src e < A.nV ∧ A.tgt e < A.nV

/-- Strand symmetry of the temporary assembly graph: `rcV` / `rcE` are
involutions exchanging sources and targets, and a reverse-complement edge
carries as many marker-graph edges as the original
(spec §4.6; asserted by `checkMarkerGraphIsStrandSymmetric` on the
underlying marker graph before each part runs). -/
structure AGraph.StrandSymmetric (A : AGraph) : Prop where
  rcE_lt : ∀ e, e < A.nE → A.rcE e < A.nE
  rcE_inv : ∀ e, e < A.nE → A.rcE (A.rcE e) = e
  rcV_lt : ∀ v, v < A.nV → A.rcV v < A.nV
  rcV_inv : ∀ v, v < A.nV → A.rcV (A.rcV v) = v
  src_rcE : ∀ e, e < A.nE → A.src (A.rcE e) = A.rcV (A.tgt e)
  tgt_rcE : ∀ e, e < A.nE → A.tgt (A.rcE e) = A.rcV (A.src e)
  len_rcE : ∀ e, e < A.nE → (A.edgeLists (A.rcE e)).length = (A.edgeLists e).length

/-- Strand symmetry of the marker graph in the form asserted by
`checkMarkerGraphIsStrandSymmetric`: the reverse-complement vertex and
edge maps are involutions and `rcE` exchanges sources and targets through
`rcV`. -/
structure MGraph.StrandSymmetric (G : MGraph) : Prop where
  rcE_lt : ∀ e, e < G.nE → G.rcE e < G.nE
  rcE_inv : ∀ e, e < G.nE → G.rcE (G.rcE e) = e
  rcV_lt : ∀ v, v < G.nV → G.rcV v < G.nV
  rcV_inv : ∀ v, v < G.nV → G.rcV (G.rcV v) = v
  src_rcE : ∀ e, e < G.nE → G.src (G.rcE e) = G.rcV (G.tgt e)
  tgt_rcE : ∀ e, e < G.nE → G.tgt (G.rcE e) = G.rcV (G.src e)

/-- The per-edge strand-symmetry invariant on a marker-graph edge flag
array (`wasRemovedByTransitiveReduction`, `wasPruned`,
`isSuperBubbleEdge`). -/
def FlagSym (G : MGraph) (b : Nat → Bool) : Prop :=
  ∀ e, e < G.nE → b e = b (G.rcE e)

/-- The same invariant for the `keepAssemblyGraphEdge` array of the
simplify iteration. -/
def KeepSymA (A : AGraph) (k : Nat → Bool) : Prop :=
  ∀ e, e < A.nE → k e = k (A.rcE e)

/-! ### Part 1 (bubble removal) -/

/-- Sorted key list of the `edgeTable` `std::map` (insertion keeps the keys
sorted and deduplicated). -/
def insertKey (k : Nat) : List Nat → List Nat
  | [] => [k]
  | a :: t => if k < a then k :: a :: t else if k = a then a :: t else a :: insertKey k t

/-- The keys of `edgeTable` for one source vertex, in `std::map` order. -/
def tableKeys (ks : List Nat) : List Nat :=
  ks.foldl (fun acc k => insertKey k acc) []

/-- Descending insertion by average coverage.  `std::sort` with
`OrderPairsBySecondOnlyGreater` leaves the order of equal-coverage entries
unspecified; this embedding fixes the stable order, and no proved property
depends on the tie order (only the partition into "first element" and
"rest" by coverage matters, and for the claims below not even that). -/
def insertByCovDesc (p : Nat × Nat) : List (Nat × Nat) → List (Nat × Nat)
  | [] => [p]
  | q :: t => if q.2 < p.2 then p :: q :: t else q :: insertByCovDesc p t

/-- Sort of one `edgeTable` group by decreasing average coverage. -/
def sortByCovDesc (l : List (Nat × Nat)) : List (Nat × Nat) :=
  l.foldr insertByCovDesc []

/-- Clear one entry of `keepAssemblyGraphEdge`. -/
def clearKeep (k : Nat → Bool) (e : Nat) : Nat → Bool :=
  fun x => if x = e then false else k x

/-- Processing of one `edgeTable` group (one target vertex `v1`) of part 1:
skip it when `v1` is the reverse complement of the source vertex, keep
groups of fewer than two edges, and otherwise clear the keep flag of every
edge but the highest-coverage one. -/
def part1ProcessTarget (A : AGraph) (v0 : Nat) (keep : Nat → Bool) (v1 : Nat) :
    Nat → Bool :=
  if v1 = A.rcV v0 then keep
  else
    let group := ((A.eBySrc v0).filter fun e => A.tgt e = v1).map fun e => (e, A.avgCov e)
    if group.length < 2 then keep
    else ((sortByCovDesc group).drop 1).foldl (fun k p => clearKeep k p.1) keep

/-- Processing of one source vertex of part 1: skip the vertex when any of
its out-edges has more than `maxLength` marker-graph edges, otherwise
process its `edgeTable` groups in key order. -/
def part1ProcessVertex (A : AGraph) (maxLength : Nat) (keep : Nat → Bool) (v0 : Nat) :
    Nat → Bool :=
  let outEdges := A.eBySrc v0
  if outEdges.any (fun e => decide (maxLength < (A.edgeLists e).length)) then keep
  else (tableKeys (outEdges.map A.tgt)).foldl (part1ProcessTarget A v0) keep

/-- The `keepAssemblyGraphEdge` array computed by the vertex loop of
`simplifyMarkerGraphIterationPart1` (initially all `true`). -/
def part1Keep (A : AGraph) (maxLength : Nat) : Nat → Bool :=
  (List.range A.nV).foldl (part1ProcessVertex A maxLength) (fun _ => true)

/-- Set one marker-graph flag. -/
def setFlag (sb : Nat → Bool) (m : Nat) : Nat → Bool :=
  fun x => if x = m then true else sb x

/-- Marking loop of part 1: for every assembly-graph edge not kept, flag
all its marker-graph edges and their reverse complements as superbubble
edges. -/
def part1MarkLoop (G : MGraph) (A : AGraph) (keep : Nat → Bool) (sb : Nat → Bool) :
    Nat → Bool :=
  (List.range A.nE).foldl
    (fun sb e =>
      if keep e then sb
      else (A.edgeLists e).foldl (fun sb2 m => setFlag (setFlag sb2 m) (G.rcE m)) sb)
    sb

/-! ### Part 2 (superbubble removal) -/

/-- Option-valued left fold: the loop stops (and the enclosing function
fails) as soon as one step fails. -/
def foldlOpt {α β : Type} (f : β → α → Option β) : List α → β → Option β
  | [], b => some b
  | a :: t, b =>
    match f b a with
    | none => none
    | some b2 => foldlOpt f t b2

/-- The union step relation of part 2's disjoint sets: one assembly-graph
edge of length at most `maxLength` from `u` to `v`. -/
def shortAdj (A : AGraph) (maxLength : Nat) (u v : Nat) : Prop :=
  ∃ e, e < A.nE ∧ (A.edgeLists e).length ≤ maxLength ∧ A.src e = u ∧ A.tgt e = v

/-- Two vertices lie in the same part-2 connected component: the
equivalence closure of `shortAdj`. -/
def SameComp (A : AGraph) (maxLength : Nat) : Nat → Nat → Prop :=
  Relation.EqvGen (shortAdj A maxLength)

/-- Initial `keepAssemblyGraphEdge` of part 2: edges between different
components, or longer than `maxLength`, are kept. -/
def part2Keep0 (A : AGraph) (find : Nat → Nat) (maxLength : Nat) : Nat → Bool :=
  fun e => decide (find (A.src e) ≠ find (A.tgt e)) ||
    decide (maxLength < (A.edgeLists e).length)

/-- `componentTable[c]`: the vertices whose representative is `c`, in
increasing id order (the code gathers them by a scan over vertex ids). -/
def componentTable (A : AGraph) (find : Nat → Nat) (c : Nat) : List Nat :=
  (List.range A.nV).filter fun v => find v = c

/-- `rcComponentTable[c]`: the representative of the reverse complement of
the first vertex of the component. -/
def rcComp (A : AGraph) (find : Nat → Nat) (c : Nat) : Nat :=
  A.rcV ((componentTable A find c).headD 0) |> find

/-- `isEntry`: the vertex has an in-edge longer than `maxLength` or coming
from another component. -/
def isEntryV (A : AGraph) (find : Nat → Nat) (maxLength : Nat) (v : Nat) : Bool :=
  (A.eByTgt v).any fun e =>
    decide (maxLength < (A.edgeLists e).length) || decide (find (A.src e) ≠ find v)

/-- `isExit`: the vertex has an out-edge longer than `maxLength` or going
to another component. -/
def isExitV (A : AGraph) (find : Nat → Nat) (maxLength : Nat) (v : Nat) : Bool :=
  (A.eBySrc v).any fun e =>
    decide (maxLength < (A.edgeLists e).length) || decide (find (A.tgt e) ≠ find v)

/-- Set one entry of `keepAssemblyGraphEdge`. -/
def setKeepTrue (k : Nat → Bool) (e : Nat) : Nat → Bool :=
  fun x => if x = e then true else k x

/-- Keep an assembly-graph edge together with its reverse complement. -/
def setKeepPairA (A : AGraph) (k : Nat → Bool) (e : Nat) : Nat → Bool :=
  fun x => if x = e then true else if x = A.rcE e then true else k x

/-- Marking of all intra-component out-edges of a component's vertices
(the self-complementary branch of part 2: no reverse-complement marking). -/
def keepInternal (A : AGraph) (find : Nat → Nat) (comp : List Nat)
    (keep : Nat → Bool) : Nat → Bool :=
  comp.foldl
    (fun k v0 => (A.eBySrc v0).foldl
      (fun k2 e => if find (A.tgt e) = find v0 then setKeepTrue k2 e else k2) k)
    keep

/-- Marking of all intra-component out-edges together with their reverse
complements (the no-entries-or-no-exits branch of part 2). -/
def keepInternalPairs (A : AGraph) (find : Nat → Nat) (comp : List Nat)
    (keep : Nat → Bool) : Nat → Bool :=
  comp.foldl
    (fun k v0 => (A.eBySrc v0).foldl
      (fun k2 e => if find (A.tgt e) = find v0 then setKeepPairA A k2 e else k2) k)
    keep

/-- One candidate of the best-edge scan: skip removed edges, edges with the
wrong target and long edges, then select on strictly larger average
coverage (the running best starts at coverage 0). -/
def bestEdgeStep (A : AGraph) (maxLength v1id : Nat) (best : Nat × Nat) (e : Nat) :
    Nat × Nat :=
  if A.removed e then best
  else if A.tgt e ≠ v1id then best
  else if maxLength < (A.edgeLists e).length then best
  else if best.1 < A.avgCov e then (A.avgCov e, e) else best

/-- The best (highest-coverage) usable edge from `v0id` to `v1id`; `.1 = 0`
means none was found, which trips `SHASTA_ASSERT(bestCoverage != 0)`. -/
def bestEdgeFor (A : AGraph) (maxLength v0id v1id : Nat) : Nat × Nat :=
  (A.eBySrc v0id).foldl (bestEdgeStep A maxLength v1id) (0, 0)

/-- The backward walk along the Dijkstra predecessor map from an exit to
the entry, keeping the best edge of every step together with its reverse
complement.  Vertices are component indexes; the C++ `while(true)` loop is
fuelled, `none` standing for the failing `SHASTA_ASSERT` or a
non-terminating predecessor chain. -/
def predWalk (A : AGraph) (maxLength : Nat) (comp : List Nat) (pred : Nat → Nat)
    (entryId : Nat) : Nat → Nat → (Nat → Bool) → Option (Nat → Bool)
  | 0, _, _ => none
  | fuel + 1, v1, keep =>
    let v0 := pred v1
    let best := bestEdgeFor A maxLength (comp.getD v0 0) (comp.getD v1 0)
    if best.1 = 0 then none
    else
      let keep2 := setKeepPairA A keep best.2
      if comp.getD v0 0 = entryId then some keep2
      else predWalk A maxLength comp pred entryId fuel v0 keep2

/-- The exit loop for one entry of part 2: walk back from every reachable
exit other than the entry itself. -/
def processExits (A : AGraph) (find : Nat → Nat) (maxLength : Nat) (comp : List Nat)
    (pred : Nat → Nat) (entryIndex : Nat) (keep : Nat → Bool) : Option (Nat → Bool) :=
  foldlOpt
    (fun k exitIndex =>
      let exitId := comp.getD exitIndex 0
      if ¬ (isExitV A find maxLength exitId = true) then some k
      else if exitId = comp.getD entryIndex 0 then some k
      else if pred exitIndex = exitIndex then some k
      else predWalk A maxLength comp pred (comp.getD entryIndex 0) (A.nV + 1) exitIndex k)
    (List.range comp.length) keep

/-- The entry loop of part 2 for one component.  The Boost graph built for
the component and `dijkstra_shortest_paths_no_color_map` (external
libraries, not under `src/`) are abstracted into the predecessor-map
oracle `preds`: the symmetry proved below holds for every oracle. -/
def processEntries (A : AGraph) (find : Nat → Nat) (maxLength : Nat) (comp : List Nat)
    (preds : Nat → Nat → Nat) (keep : Nat → Bool) : Option (Nat → Bool) :=
  foldlOpt
    (fun k entryIndex =>
      if ¬ (isEntryV A find maxLength (comp.getD entryIndex 0) = true) then some k
      else processExits A find maxLength comp (preds entryIndex) entryIndex k)
    (List.range comp.length) keep

/-- Processing of one connected component of part 2. -/
def processComponent (A : AGraph) (find : Nat → Nat) (preds : Nat → Nat → Nat → Nat)
    (maxLength c : Nat) (keep : Nat → Bool) : Option (Nat → Bool) :=
  let comp := componentTable A find c
  if comp.isEmpty then some keep
  else if rcComp A find c = c then some (keepInternal A find comp keep)
  else if rcComp A find c < c then some keep
  else
    let entriesExist := comp.any (isEntryV A find maxLength)
    let exitsExist := comp.any (isExitV A find maxLength)
    if !(entriesExist && exitsExist) then some (keepInternalPairs A find comp keep)
    else processEntries A find maxLength comp (preds c) keep

/-- The `keepAssemblyGraphEdge` array computed by
`simplifyMarkerGraphIterationPart2` (the `boost::disjoint_sets` engine is
abstracted into the `find` oracle, characterized against `SameComp`). -/
def part2Keep (A : AGraph) (find : Nat → Nat) (preds : Nat → Nat → Nat → Nat)
    (maxLength : Nat) : Option (Nat → Bool) :=
  foldlOpt
    (fun k c => processComponent A find preds maxLength c k)
    (List.range A.nV) (part2Keep0 A find maxLength)

/-- Marking loop of part 2: for every assembly-graph edge not kept, flag
all its marker-graph edges as superbubble edges (no explicit
reverse-complement marking here, unlike part 1). -/
def part2MarkLoop (A : AGraph) (keep : Nat → Bool) (sb : Nat → Bool) : Nat → Bool :=
  (List.range A.nE).foldl
    (fun sb e =>
      if keep e then sb
      else (A.edgeLists e).foldl (fun sb2 m => setFlag sb2 m) sb)
    sb

/-- The marker graph used by the strand-symmetry witness: one parallel
pair of edges `v0 → v1` that are reverse complements of each other, with
`rcV` exchanging the two vertices. -/
def bubbleG : MGraph where
  nV := 2
  edges := [⟨0, 1, 4, []⟩, ⟨0, 1, 4, []⟩]
  rcE := fun e => if e = 0 then 1 else if e = 1 then 0 else e
  rcV := fun v => if v = 0 then 1 else if v = 1 then 0 else v
  eBySrc := fun v => if v = 0 then [0, 1] else []
  eByTgt := fun v => if v = 1 then [0, 1] else []

/-- The temporary assembly graph used by the strand-symmetry and
bubble-retention witnesses: a two-edge bubble `v0 → rcV v0` whose edges
are reverse complements of each other and carry one marker-graph edge
each. -/
def bubbleA : AGraph where
  nV := 2
  edges := [⟨0, 1, 4, false⟩, ⟨0, 1, 3, false⟩]
  edgeLists := fun e => if e = 0 then [0] else if e = 1 then [1] else []
  rcV := fun v => if v = 0 then 1 else if v = 1 then 0 else v
  rcE := fun e => if e = 0 then 1 else if e = 1 then 0 else e
  eBySrc := fun v => if v = 0 then [0, 1] else []
  eByTgt := fun v => if v = 1 then [0, 1] else []

/-- The keep flags of assembly-graph edges whose target is the reverse
complement of their source ("rc-target" bubbles, skipped by part 1). -/
def RcTargetKept (A : AGraph) (keep : Nat → Bool) : Prop :=
  ∀ e, e < A.nE → A.tgt e = A.rcV (A.src e) → keep e = true

theorem findMarkerIdIn_fst_mono (markerCounts : List Nat) :
    ∀ {m m' : Nat}, m ≤ m' →
      (findMarkerIdIn markerCounts m).1 ≤ (findMarkerIdIn markerCounts m').1 := by
  induction markerCounts with
  | nil => intro m m' _; simp [findMarkerIdIn]
  | cons c rest ih =>
    intro m m' hmm
    by_cases h1 : m < c
    · simp only [findMarkerIdIn, if_pos h1]
      by_cases h2 : m' < c
      · simp [if_pos h2]
      · simp only [if_neg h2]; omega
    · have h2 : ¬ m' < c := by omega
      simp only [findMarkerIdIn, if_neg h1, if_neg h2]
      have := @ih (m - c) (m' - c) (by omega)
      omega

theorem readIdOfMarker_mono (markerCounts : List Nat) {m m' : Nat} (h : m ≤ m') :
    readIdOfMarker markerCounts m ≤ readIdOfMarker markerCounts m' := by
  unfold readIdOfMarker orientedReadValueOf
  exact Nat.div_le_div_right (findMarkerIdIn_fst_mono markerCounts h)

theorem badSetScan_no_dup_counts (markerCounts : List Nat) (prev : Nat)
    (c0 c1 : Nat) (l : List Nat) :
    (badSetScan markerCounts true prev c0 c1 l) =
      (c0 + strandCount markerCounts 0 l, c1 + strandCount markerCounts 1 l, false) := by
  induction l generalizing prev c0 c1 with
  | nil => simp [badSetScan, strandCount]
  | cons m rest ih =>
    simp only [badSetScan, false_and, if_false, Bool.not_eq_true]
    rw [ih]
    have hms : strandOfMarker markerCounts m = 0 ∨ strandOfMarker markerCounts m = 1 := by
      unfold strandOfMarker; omega
    rcases hms with h | h <;>
      simp [strandCount, List.filter, h] <;> omega

theorem badSetScan_characterization (markerCounts : List Nat) (prev : Nat)
    (c0 c1 : Nat) (l : List Nat) :
    (badSetScan markerCounts false prev c0 c1 l).2.2 = true ↔
      ¬ (List.Chain (fun a b =>
            readIdOfMarker markerCounts a ≠ readIdOfMarker markerCounts b) prev l) := by
  induction l generalizing prev c0 c1 with
  | nil => simp [badSetScan]
  | cons m rest ih =>
    simp only [badSetScan, List.chain_cons]
    by_cases hdup : readIdOfMarker markerCounts m = readIdOfMarker markerCounts prev
    · simp [hdup, fun h : readIdOfMarker markerCounts prev ≠ readIdOfMarker markerCounts m =>
        h hdup.symm]
    · have hne : readIdOfMarker markerCounts prev ≠ readIdOfMarker markerCounts m :=
        fun h => hdup h.symm
      simp only [hdup, and_false, if_false, not_false_eq_true, true_and, ih, false_or]
      tauto

theorem badSetScan_chain_counts (markerCounts : List Nat) (prev : Nat)
    (c0 c1 : Nat) (l : List Nat)
    (h : List.Chain (fun a b =>
          readIdOfMarker markerCounts a ≠ readIdOfMarker markerCounts b) prev l) :
    badSetScan markerCounts false prev c0 c1 l =
      (c0 + strandCount markerCounts 0 l, c1 + strandCount markerCounts 1 l, false) := by
  induction l generalizing prev c0 c1 with
  | nil => simp [badSetScan, strandCount]
  | cons m rest ih =>
    rw [List.chain_cons] at h
    have hdup : ¬ readIdOfMarker markerCounts m = readIdOfMarker markerCounts prev :=
      fun hh => h.1 hh.symm
    simp only [badSetScan, hdup, and_false, if_false]
    rw [ih m _ _ h.2]
    have hms : strandOfMarker markerCounts m = 0 ∨ strandOfMarker markerCounts m = 1 := by
      unfold strandOfMarker; omega
    rcases hms with hstr | hstr <;>
      simp [strandCount, List.filter, hstr] <;> omega

/-- Helper: a nondecreasing chain with distinct neighbours is strictly
increasing. -/
theorem chain_lt_of_le_ne : ∀ {L : List Nat}, List.Chain' (· ≤ ·) L →
    List.Chain' (· ≠ ·) L → List.Chain' (· < ·) L := by
  intro L
  induction L with
  | nil => intro _ _; simp
  | cons a rest ih =>
    intro hle hne
    cases rest with
    | nil => simp
    | cons b r2 =>
      rw [List.chain'_cons] at hle hne ⊢
      exact ⟨lt_of_le_of_ne hle.1 hne.1, ih hle.2 hne.2⟩

/-- Helper: a list sorted by `≤` has no duplicates iff adjacent entries are
distinct. -/
theorem sorted_nodup_iff_chain_ne {L : List Nat} (hs : List.Sorted (· ≤ ·) L) :
    L.Nodup ↔ List.Chain' (· ≠ ·) L := by
  constructor
  · intro h; exact List.Pairwise.chain' h
  · intro h
    exact (List.chain'_iff_pairwise.mp
      (chain_lt_of_le_ne (List.Pairwise.chain' hs) h)).imp Nat.ne_of_lt

/-- Read-id duplicates in a marker list sorted by marker id show up on an
adjacent pair, because the marker table is laid out read by read so mapping a
marker id to its read id is monotone. -/
theorem nodupReadIds_iff_chain (markerCounts : List Nat) (m0 : Nat) (l : List Nat)
    (hsorted : List.Sorted (· ≤ ·) (m0 :: l)) :
    ((m0 :: l).map (readIdOfMarker markerCounts)).Nodup ↔
      List.Chain (fun a b =>
        readIdOfMarker markerCounts a ≠ readIdOfMarker markerCounts b) m0 l := by
  have hmapSorted : List.Sorted (· ≤ ·)
      ((m0 :: l).map (readIdOfMarker markerCounts)) :=
    List.Pairwise.map _ (fun a b hab => readIdOfMarker_mono markerCounts hab) hsorted
  rw [sorted_nodup_iff_chain_ne hmapSorted, List.chain'_map]
  exact Iff.rfl

/-- Helper: strand count of a cons cell. -/
theorem strandCount_cons (markerCounts : List Nat) (s m : Nat) (l : List Nat) :
    strandCount markerCounts s (m :: l) =
      (if strandOfMarker markerCounts m = s then 1 else 0) +
        strandCount markerCounts s l := by
  by_cases h : strandOfMarker markerCounts m = s <;>
    simp [strandCount, List.filter, h] <;> omega

/-- C1 (amended).  For a disjoint set kept by the first renumbering, given as
its sorted marker list: if the set has at least two markers, it is flagged bad
iff (unless `allowDuplicateMarkers`) it contains two markers with the same
`ReadId`, or either strand contributes fewer than `minCoveragePerStrand`
markers.  A set with exactly one marker, however, is flagged bad iff
`1 < minCoveragePerStrand`: for `minCoveragePerStrand = 1`, the code keeps
a single-marker set even though its empty strand contributes 0 markers. -/
theorem badDisjointSetFlagging (markerCounts : List Nat)
    (allowDuplicateMarkers : Bool) (minCoveragePerStrand : Nat) (ms : List Nat)
    (hsorted : List.Sorted (· ≤ ·) ms) :
    (2 ≤ ms.length →
      (isBadDisjointSet markerCounts allowDuplicateMarkers minCoveragePerStrand ms = true ↔
        badSetSpec markerCounts allowDuplicateMarkers minCoveragePerStrand ms)) ∧
    (ms.length = 1 →
      (isBadDisjointSet markerCounts allowDuplicateMarkers minCoveragePerStrand ms = true ↔
        1 < minCoveragePerStrand)) := by
  constructor
  · intro hlen
    match ms, hsorted with
    | m0 :: m1 :: rest, hsorted =>
      cases allowDuplicateMarkers with
      | true =>
        rw [isBadDisjointSet, badSetScan_no_dup_counts]
        simp only [badSetSpec, not_true_eq_false, false_and, false_or]
        rw [strandCount_cons markerCounts 0 m0 (m1 :: rest),
          strandCount_cons markerCounts 1 m0 (m1 :: rest)]
        have hms : strandOfMarker markerCounts m0 = 0 ∨
            strandOfMarker markerCounts m0 = 1 := by
          unfold strandOfMarker; omega
        rcases hms with h | h <;> simp [h] <;> omega
      | false =>
        by_cases hchain : List.Chain (fun a b =>
            readIdOfMarker markerCounts a ≠ readIdOfMarker markerCounts b) m0 (m1 :: rest)
        · rw [isBadDisjointSet, badSetScan_chain_counts markerCounts m0 _ _ _ hchain]
          have hnodup : ((m0 :: m1 :: rest).map (readIdOfMarker markerCounts)).Nodup :=
            (nodupReadIds_iff_chain markerCounts m0 (m1 :: rest) hsorted).mpr hchain
          simp only [badSetSpec, hnodup, not_true_eq_false, and_false, false_or,
            not_false_eq_true, true_and]
          rw [strandCount_cons markerCounts 0 m0 (m1 :: rest),
            strandCount_cons markerCounts 1 m0 (m1 :: rest)]
          have hms : strandOfMarker markerCounts m0 = 0 ∨
              strandOfMarker markerCounts m0 = 1 := by
            unfold strandOfMarker; omega
          rcases hms with h | h <;> simp [h] <;> omega
        · have hdup : (badSetScan markerCounts false m0
              (if strandOfMarker markerCounts m0 = 0 then 1 else 0)
              (if strandOfMarker markerCounts m0 = 1 then 1 else 0)
              (m1 :: rest)).2.2 = true :=
            (badSetScan_characterization markerCounts m0 _ _ _).mpr hchain
          rw [isBadDisjointSet]
          simp only [hdup, if_true, true_iff]
          have hnotnodup : ¬ ((m0 :: m1 :: rest).map (readIdOfMarker markerCounts)).Nodup :=
            fun h => hchain ((nodupReadIds_iff_chain markerCounts m0 (m1 :: rest) hsorted).mp h)
        -- the duplicate found by the scan witnesses the spec's duplicate clause
          exact Or.inl ⟨by simp, hnotnodup⟩
  · intro hlen
    match ms with
    | [m] => simp [isBadDisjointSet]

/-- C1 witness: a two-marker set on the two strands of one read (marker 0 on
strand 0, marker 2 on strand 1 of read 0, table `[2, 2]`) is a duplicate-read
set, and the code and the spec criterion agree on it. -/
theorem badDisjointSetFlagging_witness :
    (2 ≤ ([0, 2] : List Nat).length ∧
      (isBadDisjointSet [2, 2] false 1 [0, 2] = true ↔ badSetSpec [2, 2] false 1 [0, 2])) ∧
    isBadDisjointSet [2, 2] false 1 [0, 2] = true ∧ badSetSpec [2, 2] false 1 [0, 2] := by
  refine ⟨⟨by decide, (badDisjointSetFlagging [2, 2] false 1 [0, 2] (by decide)).1 (by decide)⟩,
    by decide, by decide⟩

/-- C1 counterexample to the claim as stated: with `minCoveragePerStrand = 1`
and a kept set holding exactly one marker (marker 0, strand 0 of read 0,
marker table `[1, 1]`), strand 1 contributes 0 < 1 markers so the spec's
criterion calls the set bad, but `createMarkerGraphVerticesThreadFunction7`
tests `1 < minCoveragePerStrand` for single-marker sets and keeps it. -/
theorem badDisjointSetFlagging_counterexample :
    isBadDisjointSet [1, 1] false 1 [0] = false ∧ badSetSpec [1, 1] false 1 [0] := by
  constructor
  · decide
  · decide

theorem convergenceLoopGo_spec (u : Nat → Nat) :
    ∀ fuel pass, pass ≤ 10 → 10 ≤ fuel + pass →
      (convergenceLoopGo u fuel pass > 10 ↔ ∀ k, pass ≤ k → k ≤ 9 → u k ≠ 0) := by
  intro fuel
  induction fuel with
  | zero =>
    intro pass h10 hfuel
    have hp : pass = 10 := by omega
    subst hp
    simp only [convergenceLoopGo]
    constructor
    · intro _ k hk1 hk2 _; omega
    · intro _; omega
  | succ m ih =>
    intro pass h10 hfuel
    rw [convergenceLoopGo]
    by_cases hu : u pass > 0
    · by_cases hp : pass + 1 ≤ 10
      · rw [if_pos ⟨hu, hp⟩, ih (pass + 1) hp (by omega)]
        constructor
        · intro h k hk1 hk9
          by_cases hk : k = pass
          · subst hk; omega
          · exact h k (by omega) hk9
        · intro h k hk1 hk9
          exact h k (by omega) hk9
      · rw [if_neg (by tauto)]
        have hp10 : pass = 10 := by omega
        subst hp10
        constructor
        · intro _ k hk1 hk9 _; omega
        · intro _; omega
    · rw [if_neg (by tauto)]
      by_cases hp : pass = 10
      · subst hp
        constructor
        · intro _ k hk1 hk9
          omega
        · intro _
          omega
      · constructor
        · intro habs
          exact absurd habs (by omega)
        · intro h
          exact absurd (h pass le_rfl (by omega)) (by omega)

/-- C2 (amended).  The convergence loop of `createMarkerGraphVertices`
terminates normally iff some pass among the first nine observes
`parentUpdated = 0`; equivalently it throws iff passes 1..9 all report
updates.  In particular a run that converges exactly at the 10th pass still
throws, because the throw tests only the final `pass` counter (which is then
11) and ignores the last observed `parentUpdated` value. -/
theorem convergenceLoopThrows_iff (u : Nat → Nat) :
    convergenceLoopThrows u = true ↔ ∀ k, 1 ≤ k → k ≤ 9 → u k ≠ 0 := by
  unfold convergenceLoopThrows convergenceLoopFinalPass
  rw [decide_eq_true_iff]
  exact convergenceLoopGo_spec u 10 1 (by omega) (by omega)

/-- C2 counterexample to the claim as stated: when the first nine passes each
update a parent and the 10th pass observes `parentUpdated = 0`, convergence
occurs at the 10th iteration, yet the loop exits with `pass = 11` and the
function throws instead of continuing. -/
theorem convergenceLoop_counterexample :
    convergenceLoopThrows (fun k => if k ≤ 9 then 1 else 0) = true ∧
      (fun k => if k ≤ 9 then 1 else 0 : Nat → Nat) 10 = 0 := by
  constructor
  · decide
  · decide

/-- C9.  Edge creation emits `edges` and `edgeMarkerIntervals` with equal
sizes; every created edge stores in `coverage` the number of its marker
intervals when that number is below 256 and 255 otherwise, while the interval
list keeps the full set; consequently an edge with `coverage < 255` has
exactly `coverage` marker intervals. -/
theorem markerGraphEdgeCoverageCap
    (input : List (Nat × List (Nat × List MarkerInterval))) :
    (createMarkerGraphEdgesFrom input).1.length =
        (createMarkerGraphEdgesFrom input).2.length ∧
    ∀ e iv, (e, iv) ∈ (createMarkerGraphEdgesFrom input).1.zip
        (createMarkerGraphEdgesFrom input).2 →
      (e.coverage = if iv.length < 256 then iv.length else 255) ∧
      (e.coverage < 255 → iv.length = e.coverage) := by
  induction input with
  | nil => exact ⟨rfl, by intro e iv h; simp [createMarkerGraphEdgesFrom] at h⟩
  | cons hd rest ih =>
    obtain ⟨v0, children⟩ := hd
    constructor
    · simp [createMarkerGraphEdgesFrom, ih.1]
    · intro e iv hmem
      simp only [createMarkerGraphEdgesFrom] at hmem
      rw [List.zip_append (by simp)] at hmem
      rcases List.mem_append.mp hmem with hmem | hmem
      · rw [List.zip_map'] at hmem
        rcases List.mem_map.mp hmem with ⟨x, hx, hex⟩
        rcases List.mem_map.mp hx with ⟨c, hc, rfl⟩
        simp only at hex
        cases hex
        constructor
        · simp [edgeCoverageField]
        · intro hlt
          simp only [edgeCoverageField] at hlt ⊢
          split at hlt
          · rename_i h
            rw [if_pos h]
          · exact absurd hlt (by omega)
      · exact ih.2 e iv hmem

/-- C9 witness: two source vertices, one child with 2 intervals and one with
300 intervals; the second edge's coverage byte is capped at 255 while its
interval list keeps all 300 entries. -/
theorem markerGraphEdgeCoverageCap_witness :
    (MarkerGraphEdgeRec.mk 0 1 2,
        [MarkerInterval.mk 0 0 1, MarkerInterval.mk 1 0 1]) ∈
      (createMarkerGraphEdgesFrom
        [(0, [(1, [MarkerInterval.mk 0 0 1, MarkerInterval.mk 1 0 1])]),
         (1, [(2, List.replicate 300 (MarkerInterval.mk 0 2 3))])]).1.zip
      (createMarkerGraphEdgesFrom
        [(0, [(1, [MarkerInterval.mk 0 0 1, MarkerInterval.mk 1 0 1])]),
         (1, [(2, List.replicate 300 (MarkerInterval.mk 0 2 3))])]).2 ∧
    ((MarkerGraphEdgeRec.mk 0 1 2).coverage = 2 ∧
      (MarkerGraphEdgeRec.mk 0 1 2).coverage < 255 →
        ([MarkerInterval.mk 0 0 1, MarkerInterval.mk 1 0 1] : List MarkerInterval).length = 2) ∧
    (createMarkerGraphEdgesFrom
        [(0, [(1, [MarkerInterval.mk 0 0 1, MarkerInterval.mk 1 0 1])]),
         (1, [(2, List.replicate 300 (MarkerInterval.mk 0 2 3))])]).1.map
      MarkerGraphEdgeRec.coverage = [2, 255] :=
  ⟨by decide,
   fun _ => ((markerGraphEdgeCoverageCap
      [(0, [(1, [MarkerInterval.mk 0 0 1, MarkerInterval.mk 1 0 1])]),
       (1, [(2, List.replicate 300 (MarkerInterval.mk 0 2 3))])]).2
      (MarkerGraphEdgeRec.mk 0 1 2)
      [MarkerInterval.mk 0 0 1, MarkerInterval.mk 1 0 1] (by decide)).2 (by decide),
   by decide⟩

/-- C5.  When the strand-symmetry enforcer's checks complete without
throwing, `reverseComplementVertex` is an involution on the vertices and
`reverseComplementEdge` is a fixed-point-free involution on the edges; a
vertex, by contrast, is allowed to equal its own reverse complement (the
witness below passes the checks with `rcVertex[0] = 0`). -/
theorem reverseComplementInvolution (rcVertex rcEdge : List Nat)
    (edges : List EdgeFlagsRec)
    (hv : checkReverseComplementVertexInvolution rcVertex = true)
    (he : checkStrandSymmetricEdgeLoop rcEdge edges = true) :
    (∀ v, v < rcVertex.length → rcVertex.getD (rcVertex.getD v 0) 0 = v) ∧
    (∀ e, e < edges.length →
      rcEdge.getD (rcEdge.getD e 0) 0 = e ∧ rcEdge.getD e 0 ≠ e) := by
  constructor
  · intro v hvlt
    have := List.all_eq_true.mp hv v (List.mem_range.mpr hvlt)
    exact beq_iff_eq.mp this
  · intro e helt
    have h := List.all_eq_true.mp he e (List.mem_range.mpr helt)
    simp only [Bool.and_eq_true, beq_iff_eq, bne_iff_ne, ne_eq] at h
    exact ⟨h.1.1.1.1.1, h.1.1.1.1.2⟩

/-- C5 witness: three vertices with vertex 0 its own reverse complement and
vertices 1, 2 a pair; two edges forming a reverse-complement pair with equal
coverage and flags.  Both checks pass and the involution properties follow. -/
theorem reverseComplementInvolution_witness :
    (checkReverseComplementVertexInvolution [0, 2, 1] = true ∧
      checkStrandSymmetricEdgeLoop [1, 0]
        [EdgeFlagsRec.mk 3 false false false, EdgeFlagsRec.mk 3 false false false] = true) ∧
    ((∀ v, v < ([0, 2, 1] : List Nat).length →
        ([0, 2, 1] : List Nat).getD (([0, 2, 1] : List Nat).getD v 0) 0 = v) ∧
      (∀ e, e < ([EdgeFlagsRec.mk 3 false false false,
          EdgeFlagsRec.mk 3 false false false] : List EdgeFlagsRec).length →
        ([1, 0] : List Nat).getD (([1, 0] : List Nat).getD e 0) 0 = e ∧
          ([1, 0] : List Nat).getD e 0 ≠ e)) :=
  ⟨⟨by decide, by decide⟩,
    reverseComplementInvolution [0, 2, 1] [1, 0]
      [EdgeFlagsRec.mk 3 false false false, EdgeFlagsRec.mk 3 false false false]
      (by decide) (by decide)⟩

theorem mem_insertSegmentPairKey (k x : Nat × Nat) (l : List (Nat × Nat)) :
    x ∈ insertSegmentPairKey k l ↔ x = k ∨ x ∈ l := by
  induction l with
  | nil => simp [insertSegmentPairKey]
  | cons k2 rest ih =>
    simp only [insertSegmentPairKey]
    by_cases h1 : k = k2
    · subst h1
      rw [if_pos rfl]
      simp only [List.mem_cons]
      tauto
    · rw [if_neg h1]
      by_cases h2 : segmentPairLt k k2 = true
      · rw [if_pos h2]
        simp only [List.mem_cons]
      · rw [if_neg h2]
        simp only [List.mem_cons, ih]
        tauto

theorem mem_transitionKeys (ts : List ((Nat × Nat) × TransitionRec))
    (k : Nat × Nat) :
    k ∈ transitionKeys ts ↔ k ∈ ts.map Prod.fst := by
  unfold transitionKeys
  suffices h : ∀ acc, k ∈ ts.foldl (fun acc t => insertSegmentPairKey t.1 acc) acc ↔
      k ∈ acc ∨ k ∈ ts.map Prod.fst by
    rw [h []]
    simp
  induction ts with
  | nil => intro acc; simp
  | cons t rest ih =>
    intro acc
    simp only [List.foldl_cons, List.map_cons, List.mem_cons]
    rw [ih (insertSegmentPairKey t.1 acc), mem_insertSegmentPairKey]
    tauto

/-- Characterization of the transitions recorded from one pseudo-path. -/
theorem mem_adjacentTransitions (orv : Nat) (l : List PseudoPathEntry)
    (x : (Nat × Nat) × TransitionRec) :
    x ∈ adjacentTransitions orv l ↔
      ∃ i, i + 1 < l.length ∧
        (l.getD i default).segmentId ≠ (l.getD (i + 1) default).segmentId ∧
        x = (((l.getD i default).segmentId, (l.getD (i + 1) default).segmentId),
          TransitionRec.mk orv (l.getD i default) (l.getD (i + 1) default)) := by
  induction l with
  | nil => simp [adjacentTransitions]
  | cons p rest ih =>
    cases rest with
    | nil =>
      simp [adjacentTransitions]
    | cons q rest2 =>
      simp only [adjacentTransitions, List.mem_append]
      rw [ih]
      constructor
      · intro h
        rcases h with h | ⟨i, hi, hne, hx⟩
        · by_cases hpq : p.segmentId = q.segmentId
          · simp [hpq] at h
          · simp only [if_neg hpq, List.mem_singleton] at h
            exact ⟨0, by simp, by simpa using hpq, by simpa using h⟩
        · exact ⟨i + 1, by simpa using hi, by simpa using hne, by simpa using hx⟩
      · rintro ⟨i, hi, hne, hx⟩
        cases i with
        | zero =>
          simp only [List.getD_cons_zero, List.getD_cons_succ] at hne hx
          left
          rw [if_neg hne]
          simp [hx]
        | succ j =>
          right
          refine ⟨j, by simpa using hi, by simpa using hne, by simpa using hx⟩

/-- C7.  (a) A transition is recorded for an adjacent pair of pseudo-path
entries of an oriented read iff their segment ids differ, keyed by the pair
of segment ids; (b) a `Link(s0, s1, coverage)` is created iff the number of
recorded transitions for `(s0, s1)` is at least `minCoverage = 2`, with
`coverage` equal to that number; (c) the supporting transitions are stored in
a parallel array aligned with the links. -/
theorem mode3TransitionsAndLinks (pseudoPaths : List (List PseudoPathEntry))
    (ts : List ((Nat × Nat) × TransitionRec)) :
    (∀ s0 s1 orv p q,
      ((s0, s1), TransitionRec.mk orv p q) ∈ findTransitionsList pseudoPaths ↔
        (orv < 2 * (pseudoPaths.length / 2) ∧
          (∃ i, i + 1 < (pseudoPaths.getD orv []).length ∧
            (pseudoPaths.getD orv []).getD i default = p ∧
            (pseudoPaths.getD orv []).getD (i + 1) default = q) ∧
          p.segmentId = s0 ∧ q.segmentId = s1 ∧ s0 ≠ s1)) ∧
    (∀ s0 s1 c,
      LinkRec.mk s0 s1 c ∈ (createLinksFrom ts mode3LinkMinCoverage).1 ↔
        ((transitionsForPair ts (s0, s1)).length = c ∧ mode3LinkMinCoverage ≤ c)) ∧
    ((createLinksFrom ts mode3LinkMinCoverage).1.length =
        (createLinksFrom ts mode3LinkMinCoverage).2.length ∧
      ∀ l tv, (l, tv) ∈ (createLinksFrom ts mode3LinkMinCoverage).1.zip
          (createLinksFrom ts mode3LinkMinCoverage).2 →
        tv = transitionsForPair ts (l.segmentId0, l.segmentId1) ∧
          l.coverage = tv.length) := by
  refine ⟨?_, ?_, ?_, ?_⟩
  · intro s0 s1 orv p q
    unfold findTransitionsList
    rw [List.mem_flatten]
    constructor
    · rintro ⟨l, hl, hmem⟩
      rcases List.mem_map.mp hl with ⟨o, ho, rfl⟩
      rw [mem_adjacentTransitions] at hmem
      rcases hmem with ⟨i, hi, hne, hx⟩
      have h1 : s0 = ((pseudoPaths.getD o []).getD i default).segmentId ∧
          s1 = ((pseudoPaths.getD o []).getD (i + 1) default).segmentId ∧
          orv = o ∧ p = (pseudoPaths.getD o []).getD i default ∧
          q = (pseudoPaths.getD o []).getD (i + 1) default := by
        have := hx
        injection this with h2 h3
        injection h2 with h4 h5
        injection h3 with h6 h7 h8
        exact ⟨h4, h5, h6, h7, h8⟩
      obtain ⟨rfl, rfl, rfl, rfl, rfl⟩ := h1
      exact ⟨List.mem_range.mp ho, ⟨i, hi, rfl, rfl⟩, rfl, rfl, fun h => hne (by simpa using h)⟩
    · rintro ⟨horb, ⟨i, hi, hp, hq⟩, hs0, hs1, hne⟩
      refine ⟨adjacentTransitions orv (pseudoPaths.getD orv []),
        List.mem_map.mpr ⟨orv, List.mem_range.mpr horb, rfl⟩, ?_⟩
      rw [mem_adjacentTransitions]
      exact ⟨i, hi, by rw [hp, hq, hs0, hs1]; exact hne, by rw [hp, hq, hs0, hs1]⟩
  · intro s0 s1 c
    constructor
    · intro hmem
      rcases List.mem_map.mp hmem with ⟨k, hk, hlink⟩
      rcases List.mem_filter.mp hk with ⟨_, hcov⟩
      injection hlink with h1 h2 h3
      subst h1; subst h2; subst h3
      exact ⟨rfl, by simpa using hcov⟩
    · rintro ⟨hc, hcov⟩
      have hpos : 0 < (transitionsForPair ts (s0, s1)).length := by
        unfold mode3LinkMinCoverage at hcov
        omega
      have hkey : (s0, s1) ∈ transitionKeys ts := by
        rw [mem_transitionKeys]
        rcases List.exists_mem_of_length_pos hpos with ⟨t, ht⟩
        unfold transitionsForPair at ht
        rcases List.mem_map.mp ht with ⟨u, hu, _⟩
        rcases List.mem_filter.mp hu with ⟨humem, hueq⟩
        have hueq' : u.1 = (s0, s1) := by simpa using hueq
        exact hueq' ▸ List.mem_map_of_mem Prod.fst humem
      have hge : mode3LinkMinCoverage ≤ (transitionsForPair ts (s0, s1)).length := by
        rw [hc]; exact hcov
      have hfil : (s0, s1) ∈ (transitionKeys ts).filter
          (fun k => mode3LinkMinCoverage ≤ (transitionsForPair ts k).length) :=
        List.mem_filter.mpr ⟨hkey, by simpa using hge⟩
      subst hc
      exact List.mem_map_of_mem _ hfil
  · simp [createLinksFrom]
  · intro l tv hmem
    unfold createLinksFrom at hmem
    simp only at hmem
    rw [List.zip_map'] at hmem
    rcases List.mem_map.mp hmem with ⟨k, hk, hx⟩
    injection hx with h1 h2
    subst h2
    cases h1
    exact ⟨rfl, rfl⟩

/-- C7 witness: on `witnessPseudoPaths` the two oriented reads each record a
transition for `(1, 2)`, so one `Link(1, 2, 2)` is created and its stored
transition vector agrees with the recorded transitions. -/
theorem mode3TransitionsAndLinks_witness :
    ((LinkRec.mk 1 2 2,
        [TransitionRec.mk 0 (PseudoPathEntry.mk 1 0 0 1) (PseudoPathEntry.mk 2 0 2 3),
         TransitionRec.mk 1 (PseudoPathEntry.mk 1 0 0 1) (PseudoPathEntry.mk 2 0 2 3)]) ∈
      (createLinksFrom (findTransitionsList witnessPseudoPaths) mode3LinkMinCoverage).1.zip
        (createLinksFrom (findTransitionsList witnessPseudoPaths) mode3LinkMinCoverage).2) ∧
    ([TransitionRec.mk 0 (PseudoPathEntry.mk 1 0 0 1) (PseudoPathEntry.mk 2 0 2 3),
      TransitionRec.mk 1 (PseudoPathEntry.mk 1 0 0 1) (PseudoPathEntry.mk 2 0 2 3)] =
        transitionsForPair (findTransitionsList witnessPseudoPaths)
          ((LinkRec.mk 1 2 2).segmentId0, (LinkRec.mk 1 2 2).segmentId1) ∧
      (LinkRec.mk 1 2 2).coverage =
        ([TransitionRec.mk 0 (PseudoPathEntry.mk 1 0 0 1) (PseudoPathEntry.mk 2 0 2 3),
          TransitionRec.mk 1 (PseudoPathEntry.mk 1 0 0 1) (PseudoPathEntry.mk 2 0 2 3)] :
            List TransitionRec).length) :=
  ⟨by decide,
    (mode3TransitionsAndLinks witnessPseudoPaths
        (findTransitionsList witnessPseudoPaths)).2.2.2
      (LinkRec.mk 1 2 2)
      [TransitionRec.mk 0 (PseudoPathEntry.mk 1 0 0 1) (PseudoPathEntry.mk 2 0 2 3),
       TransitionRec.mk 1 (PseudoPathEntry.mk 1 0 0 1) (PseudoPathEntry.mk 2 0 2 3)]
      (by decide)⟩

theorem mem_pruneMarks (G : MGraph) (rem pru : Nat → Bool) (e : Nat) :
    e ∈ pruneMarks G rem pru ↔
      (e < G.nE ∧ (!rem e && !pru e &&
        (isForwardLeafPSS G rem pru (G.tgt e) ||
          isBackwardLeafPSS G rem pru (G.src e))) = true) := by
  unfold pruneMarks
  rw [List.mem_filter, List.mem_range]

/-- C8.  Over the iterations of `pruneMarkerGraphStrongSubgraph`, the
`wasPruned` flag of an edge after `k+1` iterations equals its flag after `k`
iterations or-ed with the leaf test evaluated against the flags after `k`
iterations: an edge is newly pruned in an iteration iff, with respect to the
start-of-iteration flags, it is neither removed nor pruned and its target is
a forward leaf or its source is a backward leaf; all marks of an iteration
commit together, and iteration 0 starts from cleared `wasPruned` flags. -/
theorem pruningTwoPhase (G : MGraph) (rem : Nat → Bool) :
    (∀ k e, e < G.nE →
      pruneStrongSubgraph G rem (k + 1) e =
        (pruneStrongSubgraph G rem k e ||
          (!rem e && !pruneStrongSubgraph G rem k e &&
            (isForwardLeafPSS G rem (pruneStrongSubgraph G rem k) (G.tgt e) ||
              isBackwardLeafPSS G rem (pruneStrongSubgraph G rem k) (G.src e))))) ∧
    pruneStrongSubgraph G rem 0 = fun _ => false := by
  refine ⟨?_, rfl⟩
  intro k e he
  show pruneIterationStep G rem (pruneStrongSubgraph G rem k) e = _
  unfold pruneIterationStep
  rcases hbig : (!rem e && !pruneStrongSubgraph G rem k e &&
      (isForwardLeafPSS G rem (pruneStrongSubgraph G rem k) (G.tgt e) ||
        isBackwardLeafPSS G rem (pruneStrongSubgraph G rem k) (G.src e))) with hb | hb
  · have : ¬ e ∈ pruneMarks G rem (pruneStrongSubgraph G rem k) := by
      rw [mem_pruneMarks]
      intro hcon
      rw [hbig] at hcon
      exact Bool.false_ne_true hcon.2
    simp [this]
  · have : e ∈ pruneMarks G rem (pruneStrongSubgraph G rem k) := by
      rw [mem_pruneMarks]
      exact ⟨he, hbig⟩
    simp [this]

/-- C8 witness: on the two-edge chain, edge 1 is a forward leaf and edge 0 a
backward leaf, and after one iteration both are pruned exactly as the
characterization predicts. -/
theorem pruningTwoPhase_witness :
    (0 < pruneWitnessGraph.nE ∧
      pruneStrongSubgraph pruneWitnessGraph (fun _ => false) 1 0 =
        (pruneStrongSubgraph pruneWitnessGraph (fun _ => false) 0 0 ||
          (!(false : Bool) && !pruneStrongSubgraph pruneWitnessGraph (fun _ => false) 0 0 &&
            (isForwardLeafPSS pruneWitnessGraph (fun _ => false)
                (pruneStrongSubgraph pruneWitnessGraph (fun _ => false) 0)
                (pruneWitnessGraph.tgt 0) ||
              isBackwardLeafPSS pruneWitnessGraph (fun _ => false)
                (pruneStrongSubgraph pruneWitnessGraph (fun _ => false) 0)
                (pruneWitnessGraph.src 0))))) ∧
    pruneStrongSubgraph pruneWitnessGraph (fun _ => false) 1 0 = true :=
  ⟨⟨by decide,
    (pruningTwoPhase pruneWitnessGraph (fun _ => false)).1 0 0 (by decide)⟩,
    by decide⟩

theorem UnvisitedPath.one_le {G : MGraph} {rem : Nat → Bool} {eAvoid : Nat}
    {dist : Nat → Option Nat} {u1 u ℓ : Nat}
    (h : UnvisitedPath G rem eAvoid dist u1 u ℓ) : 1 ≤ ℓ := by
  cases h with
  | single => omega
  | cons => omega

theorem UnvisitedPath.toAdmissible {G : MGraph} {rem : Nat → Bool} {eAvoid : Nat}
    {dist : Nat → Option Nat} {u1 u ℓ : Nat}
    (h : UnvisitedPath G rem eAvoid dist u1 u ℓ) :
    AdmissiblePath G rem eAvoid u u1 ℓ := by
  induction h with
  | single f hf hna hr u hs ht => exact AdmissiblePath.single f hf hna hr u u1 hs ht
  | cons f hf hna hr u k hs hun tail ih => exact AdmissiblePath.cons f hf hna hr u u1 k hs ih

theorem UnvisitedPath.mono {G : MGraph} {rem : Nat → Bool} {eAvoid : Nat}
    {dist dist' : Nat → Option Nat} {u1 u ℓ : Nat}
    (hsub : ∀ x, dist' x = none → dist x = none)
    (h : UnvisitedPath G rem eAvoid dist' u1 u ℓ) :
    UnvisitedPath G rem eAvoid dist u1 u ℓ := by
  induction h with
  | single f hf hna hr u hs ht => exact UnvisitedPath.single f hf hna hr u hs ht
  | cons f hf hna hr u k hs hun tail ih =>
    exact UnvisitedPath.cons f hf hna hr u k hs (hsub _ hun) ih

theorem AdmissiblePath.snoc {G : MGraph} {rem : Nat → Bool} {eAvoid : Nat} :
    ∀ {u v k}, AdmissiblePath G rem eAvoid u v k →
      ∀ {f}, f < G.nE → f ≠ eAvoid → rem f = false → G.src f = v →
        AdmissiblePath G rem eAvoid u (G.tgt f) (k + 1) := by
  intro u v k h
  induction h with
  | single g hg hgna hgr a b has hat =>
    intro f hf hna hr hs
    exact AdmissiblePath.cons g hg hgna hgr a (G.tgt f) 1 has
      (AdmissiblePath.single f hf hna hr (G.tgt g) (G.tgt f) (by rw [hs, ← hat]) rfl)
  | cons g hg hgna hgr a b k2 has tail ih =>
    intro f hf hna hr hs
    exact AdmissiblePath.cons g hg hgna hgr a (G.tgt f) (k2 + 1) has (ih hf hna hr hs)

theorem bfsScan_found (G : MGraph) (rem : Nat → Bool) (eAvoid u1 maxDist d1 : Nat) :
    ∀ (fs : List Nat) (dist : Nat → Option Nat) (q marked : List Nat),
      dist u1 = none →
      ((bfsScan G rem eAvoid u1 maxDist d1 fs dist q marked).2.2.2 = true ↔
        ∃ f ∈ fs, f ≠ eAvoid ∧ rem f = false ∧ G.tgt f = u1) := by
  intro fs
  induction fs with
  | nil =>
    intro dist q marked h1
    simp [bfsScan]
  | cons f rest ih =>
    intro dist q marked h1
    rw [bfsScan]
    by_cases hav : f = eAvoid
    · rw [if_pos hav, ih dist q marked h1]
      constructor
      · rintro ⟨g, hg, hgp⟩; exact ⟨g, List.mem_cons_of_mem f hg, hgp⟩
      · rintro ⟨g, hg, hgp⟩
        rcases List.mem_cons.mp hg with rfl | hg
        · exact absurd hav hgp.1
        · exact ⟨g, hg, hgp⟩
    · rw [if_neg hav]
      by_cases hrem : rem f = true
      · rw [if_pos hrem, ih dist q marked h1]
        constructor
        · rintro ⟨g, hg, hgp⟩; exact ⟨g, List.mem_cons_of_mem f hg, hgp⟩
        · rintro ⟨g, hg, hgp⟩
          rcases List.mem_cons.mp hg with rfl | hg
          · rw [hrem] at hgp; exact absurd hgp.2.1 (by simp)
          · exact ⟨g, hg, hgp⟩
      · rw [if_neg hrem]
        by_cases hvis : (dist (G.tgt f)).isSome
        · rw [if_pos hvis, ih dist q marked h1]
          have htne : G.tgt f ≠ u1 := by
            intro hcon
            rw [hcon, h1] at hvis
            simp at hvis
          constructor
          · rintro ⟨g, hg, hgp⟩; exact ⟨g, List.mem_cons_of_mem f hg, hgp⟩
          · rintro ⟨g, hg, hgp⟩
            rcases List.mem_cons.mp hg with rfl | hg
            · exact absurd hgp.2.2 htne
            · exact ⟨g, hg, hgp⟩
        · rw [if_neg hvis]
          by_cases hu1 : G.tgt f = u1
          · rw [if_pos hu1]
            exact ⟨fun _ => ⟨f, List.mem_cons_self f rest,
              hav, Bool.not_eq_true _ ▸ hrem, hu1⟩, fun _ => rfl⟩
          · rw [if_neg hu1]
            have h1' : (fun x => if x = G.tgt f then some d1 else dist x) u1 = none := by
              simp only [if_neg (fun hcon : u1 = G.tgt f => hu1 hcon.symm)]
              exact h1
            rw [ih _ _ _ h1']
            constructor
            · rintro ⟨g, hg, hgp⟩; exact ⟨g, List.mem_cons_of_mem f hg, hgp⟩
            · rintro ⟨g, hg, hgp⟩
              rcases List.mem_cons.mp hg with rfl | hg
              · exact absurd hgp.2.2 hu1
              · exact ⟨g, hg, hgp⟩

theorem bfsScan_state (G : MGraph) (rem : Nat → Bool) (eAvoid u1 maxDist d1 : Nat) :
    ∀ (fs : List Nat) (dist : Nat → Option Nat) (q marked : List Nat),
      dist u1 = none →
      (bfsScan G rem eAvoid u1 maxDist d1 fs dist q marked).2.2.2 = false →
      ∃ newV : List Nat,
        bfsScan G rem eAvoid u1 maxDist d1 fs dist q marked =
          ((fun x => if x ∈ newV then some d1 else dist x),
            q ++ (if d1 < maxDist then newV else []), marked ++ newV, false) ∧
        newV.Nodup ∧
        (∀ x ∈ newV, dist x = none ∧ x ≠ u1 ∧
          ∃ f ∈ fs, f ≠ eAvoid ∧ rem f = false ∧ G.tgt f = x) ∧
        (∀ f ∈ fs, f ≠ eAvoid → rem f = false →
          G.tgt f ≠ u1 ∧ ((dist (G.tgt f)).isSome ∨ G.tgt f ∈ newV)) := by
  intro fs
  induction fs with
  | nil =>
    intro dist q marked h1 hnf
    refine ⟨[], ?_, List.nodup_nil, by simp, by simp⟩
    simp [bfsScan]
  | cons f rest ih =>
    intro dist q marked h1 hnf
    rw [bfsScan] at hnf ⊢
    by_cases hav : f = eAvoid
    · rw [if_pos hav] at hnf ⊢
      rcases ih dist q marked h1 hnf with ⟨newV, heq, hnd, hprops, hcov⟩
      refine ⟨newV, heq, hnd, ?_, ?_⟩
      · intro x hx
        rcases hprops x hx with ⟨ha, hb, g, hg, hgp⟩
        exact ⟨ha, hb, g, List.mem_cons_of_mem f hg, hgp⟩
      · intro g hg hgav hgrem
        rcases List.mem_cons.mp hg with rfl | hg
        · exact absurd hav hgav
        · exact hcov g hg hgav hgrem
    · rw [if_neg hav] at hnf ⊢
      by_cases hrem : rem f = true
      · rw [if_pos hrem] at hnf ⊢
        rcases ih dist q marked h1 hnf with ⟨newV, heq, hnd, hprops, hcov⟩
        refine ⟨newV, heq, hnd, ?_, ?_⟩
        · intro x hx
          rcases hprops x hx with ⟨ha, hb, g, hg, hgp⟩
          exact ⟨ha, hb, g, List.mem_cons_of_mem f hg, hgp⟩
        · intro g hg hgav hgrem
          rcases List.mem_cons.mp hg with rfl | hg
          · rw [hrem] at hgrem; exact absurd hgrem (by simp)
          · exact hcov g hg hgav hgrem
      · rw [if_neg hrem] at hnf ⊢
        by_cases hvis : (dist (G.tgt f)).isSome
        · rw [if_pos hvis] at hnf ⊢
          rcases ih dist q marked h1 hnf with ⟨newV, heq, hnd, hprops, hcov⟩
          refine ⟨newV, heq, hnd, ?_, ?_⟩
          · intro x hx
            rcases hprops x hx with ⟨ha, hb, g, hg, hgp⟩
            exact ⟨ha, hb, g, List.mem_cons_of_mem f hg, hgp⟩
          · intro g hg hgav hgrem
            rcases List.mem_cons.mp hg with rfl | hg
            · refine ⟨?_, Or.inl hvis⟩
              intro hcon
              rw [hcon, h1] at hvis
              simp at hvis
            · exact hcov g hg hgav hgrem
        · rw [if_neg hvis] at hnf ⊢
          by_cases hu1 : G.tgt f = u1
          · rw [if_pos hu1] at hnf
            simp at hnf
          · rw [if_neg hu1] at hnf ⊢
            have h1' : (fun x => if x = G.tgt f then some d1 else dist x) u1 = none := by
              simp only [if_neg (fun hcon : u1 = G.tgt f => hu1 hcon.symm)]
              exact h1
            rcases ih _ _ _ h1' hnf with ⟨newV, heq, hnd, hprops, hcov⟩
            have htnotin : G.tgt f ∉ newV := by
              intro hcon
              have := (hprops _ hcon).1
              simp at this
            refine ⟨G.tgt f :: newV, ?_, ?_, ?_, ?_⟩
            · rw [heq]
              refine congrArg₂ _ ?_ (congrArg₂ _ ?_ (congrArg₂ _ ?_ rfl))
              · funext x
                by_cases hx : x = G.tgt f
                · subst hx
                  simp [htnotin]
                · by_cases hx2 : x ∈ newV <;> simp [hx, hx2, List.mem_cons]
              · by_cases hd : d1 < maxDist
                · simp [hd]
                · simp [hd]
              · simp
            · exact List.nodup_cons.mpr ⟨htnotin, hnd⟩
            · intro x hx
              rcases List.mem_cons.mp hx with rfl | hx
              · have hvis' : dist (G.tgt f) = none := by
                  simpa [Option.not_isSome_iff_eq_none] using hvis
                have hrem' : rem f = false := by
                  simpa using hrem
                exact ⟨hvis', hu1, f, List.mem_cons_self f rest, hav, hrem', rfl⟩
              · rcases hprops x hx with ⟨ha, hb, g, hg, hgp⟩
                have ha' : dist x = none := by
                  by_cases hxt : x = G.tgt f
                  · exact absurd hxt (by rintro rfl; exact htnotin hx)
                  · simpa [hxt] using ha
                exact ⟨ha', hb, g, List.mem_cons_of_mem f hg, hgp⟩
            · intro g hg hgav hgrem
              rcases List.mem_cons.mp hg with rfl | hg
              · exact ⟨hu1, Or.inr (List.mem_cons_self _ _)⟩
              · rcases hcov g hg hgav hgrem with ⟨hne, hcase⟩
                refine ⟨hne, ?_⟩
                rcases hcase with hvis2 | hmem
                · by_cases hxt : G.tgt g = G.tgt f
                  · exact Or.inr (hxt ▸ List.mem_cons_self _ _)
                  · left
                    simpa [hxt] using hvis2
                · exact Or.inr (List.mem_cons_of_mem _ hmem)

theorem UnvisitedPath.decompose {G : MGraph} {rem : Nat → Bool} {eAvoid : Nat}
    {dist : Nat → Option Nat} {newV : List Nat} {d1 u1 : Nat} :
    ∀ {v ℓ}, UnvisitedPath G rem eAvoid dist u1 v ℓ →
      UnvisitedPath G rem eAvoid
          (fun x => if x ∈ newV then some d1 else dist x) u1 v ℓ ∨
        ∃ j x, 1 ≤ j ∧ j < ℓ ∧ x ∈ newV ∧
          UnvisitedPath G rem eAvoid
            (fun x => if x ∈ newV then some d1 else dist x) u1 x (ℓ - j) := by
  intro v ℓ h
  induction h with
  | single f hf hna hr u hs ht =>
    exact Or.inl (UnvisitedPath.single f hf hna hr u hs ht)
  | cons f hf hna hr u k hs hun tail ih =>
    rcases ih with htail | ⟨j, x, hj1, hjk, hxmem, hsuffix⟩
    · by_cases hmem : G.tgt f ∈ newV
      · exact Or.inr ⟨1, G.tgt f, le_rfl, by have := tail.one_le; omega, hmem,
          by simpa using htail⟩
      · refine Or.inl (UnvisitedPath.cons f hf hna hr u k hs ?_ htail)
        simp only [hmem, if_false]
        exact hun
    · exact Or.inr ⟨j + 1, x, by omega, by omega, hxmem, by
        have : k + 1 - (j + 1) = k - j := by omega
        rw [this]
        exact hsuffix⟩

/-- Helper: a duplicate-free list of naturals below `n` has at most `n`
elements. -/
theorem length_le_of_nodup_lt {l : List Nat} {n : Nat}
    (hnd : l.Nodup) (hlt : ∀ v ∈ l, v < n) : l.length ≤ n := by
  have hsub : l.toFinset ⊆ Finset.range n := fun v hv =>
    Finset.mem_range.mpr (hlt v (List.mem_toFinset.mp hv))
  have := Finset.card_le_card hsub
  rwa [List.toFinset_card_of_nodup hnd, Finset.card_range] at this

theorem bfsFound_transfer_fwd (G : MGraph) (rem : Nat → Bool)
    (eAvoid u0 u1 maxDist : Nat) (hwf : G.WellFormed)
    (dist : Nat → Option Nat) (v0 : Nat) (rest marked newV : List Nat) (m : Nat)
    (hinv : BfsInv G rem eAvoid u0 u1 maxDist dist (v0 :: rest) marked)
    (hv0 : dist v0 = some m)
    (hnewProps : ∀ x ∈ newV, dist x = none ∧ x ≠ u1 ∧
      ∃ f ∈ G.eBySrc v0, f ≠ eAvoid ∧ rem f = false ∧ G.tgt f = x)
    (hcov : ∀ f ∈ G.eBySrc v0, f ≠ eAvoid → rem f = false →
      G.tgt f ≠ u1 ∧ ((dist (G.tgt f)).isSome ∨ G.tgt f ∈ newV))
    (hfound : BfsFoundGoal G rem eAvoid u1 maxDist dist (v0 :: rest)) :
    BfsFoundGoal G rem eAvoid u1 maxDist
      (fun x => if x ∈ newV then some (m + 1) else dist x)
      (rest ++ (if m + 1 < maxDist then newV else [])) := by
  have hv0nV : v0 < G.nV :=
    hinv.mark_lt v0 ((hinv.mark_iff v0).mp (by rw [hv0]; rfl))
  obtain ⟨v, mv, ℓ, hvq, hvd, hpath, hcon⟩ := hfound
  have hnotnew : ∀ w, (dist w).isSome → w ∉ newV := by
    intro w hw hmem
    rw [(hnewProps w hmem).1] at hw
    simp at hw
  rcases List.mem_cons.mp hvq with rfl | hvrest
  · -- the found path starts at the vertex being dequeued
    have hm : mv = m := by rw [hv0] at hvd; exact (Option.some.injEq .. ▸ hvd).symm
    subst hm
    cases hpath with
    | single f hf hna hr u hs ht =>
      exfalso
      have hfmem : f ∈ G.eBySrc v := hwf.mem_of_src v hv0nV f hf hs
      exact (hcov f hfmem hna hr).1 ht
    | cons f hf hna hr u k hs hun tail =>
      have hfmem : f ∈ G.eBySrc v := hwf.mem_of_src v hv0nV f hf hs
      have hwnew : G.tgt f ∈ newV := by
        rcases (hcov f hfmem hna hr).2 with hsome | hmem
        · rw [hun] at hsome; simp at hsome
        · exact hmem
      have hk1 : 1 ≤ k := tail.one_le
      have hcon2 : mv + (k + 1) ≤ maxDist := by
        rcases hcon with h1 | h2
        · omega
        · exact h2
      have hpush : mv + 1 < maxDist := by omega
      rcases @UnvisitedPath.decompose _ _ _ _ newV (mv + 1) _ _ _ tail with
        htail | ⟨j, x, hj1, hjk, hxmem, hsuffix⟩
      · refine ⟨G.tgt f, mv + 1, k, ?_, ?_, htail, ?_⟩
        · rw [if_pos hpush]; exact List.mem_append_right rest hwnew
        · simp [hwnew]
        · right; omega
      · refine ⟨x, mv + 1, k - j, ?_, ?_, hsuffix, ?_⟩
        · rw [if_pos hpush]; exact List.mem_append_right rest hxmem
        · simp [hxmem]
        · have := hsuffix.one_le
          right; omega
  · -- the found path starts at a vertex remaining in the queue
    have hmle : m ≤ mv ∧ mv ≤ m + 1 := by
      have hrel := (List.pairwise_cons.mp hinv.q_pair).1 v hvrest
      rw [hv0, hvd] at hrel
      exact hrel
    have hvnot : v ∉ newV := hnotnew v (by rw [hvd]; rfl)
    rcases @UnvisitedPath.decompose _ _ _ _ newV (m + 1) _ _ _ hpath with
      hpath' | ⟨j, x, hj1, hjl, hxmem, hsuffix⟩
    · refine ⟨v, mv, ℓ, List.mem_append_left _ hvrest, ?_, hpath', hcon⟩
      simp [hvnot, hvd]
    · have hl2 : 2 ≤ ℓ := by omega
      have hcon2 : mv + ℓ ≤ maxDist := by
        rcases hcon with h1 | h2
        · omega
        · exact h2
      have hpush : m + 1 < maxDist := by omega
      refine ⟨x, m + 1, ℓ - j, ?_, ?_, hsuffix, ?_⟩
      · rw [if_pos hpush]; exact List.mem_append_right rest hxmem
      · simp [hxmem]
      · have := hsuffix.one_le
        right; omega

theorem bfsFound_transfer_bwd (G : MGraph) (rem : Nat → Bool)
    (eAvoid u0 u1 maxDist : Nat) (hwf : G.WellFormed)
    (dist : Nat → Option Nat) (v0 : Nat) (rest marked newV : List Nat) (m : Nat)
    (hinv : BfsInv G rem eAvoid u0 u1 maxDist dist (v0 :: rest) marked)
    (hv0 : dist v0 = some m)
    (hnewProps : ∀ x ∈ newV, dist x = none ∧ x ≠ u1 ∧
      ∃ f ∈ G.eBySrc v0, f ≠ eAvoid ∧ rem f = false ∧ G.tgt f = x)
    (hfound : BfsFoundGoal G rem eAvoid u1 maxDist
      (fun x => if x ∈ newV then some (m + 1) else dist x)
      (rest ++ (if m + 1 < maxDist then newV else []))) :
    BfsFoundGoal G rem eAvoid u1 maxDist dist (v0 :: rest) := by
  have hv0nV : v0 < G.nV :=
    hinv.mark_lt v0 ((hinv.mark_iff v0).mp (by rw [hv0]; rfl))
  obtain ⟨v, mv, ℓ, hvq, hvd, hpath, hcon⟩ := hfound
  have hsub : ∀ x, (fun x => if x ∈ newV then some (m + 1) else dist x) x = none →
      dist x = none := by
    intro x hx
    by_cases hmem : x ∈ newV
    · simp [hmem] at hx
    · simpa [hmem] using hx
  have hpath2 := hpath.mono hsub
  rcases List.mem_append.mp hvq with hvrest | hvpush
  · have hvnot : v ∉ newV := by
      intro hmem
      obtain ⟨mr, hmr, _⟩ := hinv.q_mem v (List.mem_cons_of_mem v0 hvrest)
      rw [(hnewProps v hmem).1] at hmr
      exact Option.noConfusion hmr
    refine ⟨v, mv, ℓ, List.mem_cons_of_mem v0 hvrest, ?_, hpath2, hcon⟩
    simpa [hvnot] using hvd
  · have hpushlt : m + 1 < maxDist := by
      by_contra hc
      rw [if_neg hc] at hvpush
      exact absurd hvpush (List.not_mem_nil v)
    rw [if_pos hpushlt] at hvpush
    have hvmem : v ∈ newV := hvpush
    have hmv : mv = m + 1 := by
      simp only [if_pos hvmem] at hvd
      exact (Option.some.injEq .. ▸ hvd).symm
    subst hmv
    rcases hnewProps v hvmem with ⟨hvnone, _, f, hfmem, hfa, hfr, hft⟩
    have hfprops := hwf.src_of_mem v0 hv0nV f hfmem
    refine ⟨v0, m, ℓ + 1, List.mem_cons_self v0 rest, hv0, ?_, ?_⟩
    · exact UnvisitedPath.cons f hfprops.1 hfa hfr v0 ℓ hfprops.2
        (hft ▸ hvnone) (hft ▸ hpath2)
    · right
      rcases hcon with h1 | h2 <;> omega

theorem bfsInv_step (G : MGraph) (rem : Nat → Bool)
    (eAvoid u0 u1 maxDist : Nat) (hwf : G.WellFormed)
    (dist : Nat → Option Nat) (v0 : Nat) (rest marked newV : List Nat) (m : Nat)
    (hinv : BfsInv G rem eAvoid u0 u1 maxDist dist (v0 :: rest) marked)
    (hv0 : dist v0 = some m)
    (hnd : newV.Nodup)
    (hnewProps : ∀ x ∈ newV, dist x = none ∧ x ≠ u1 ∧
      ∃ f ∈ G.eBySrc v0, f ≠ eAvoid ∧ rem f = false ∧ G.tgt f = x)
    (hcov : ∀ f ∈ G.eBySrc v0, f ≠ eAvoid → rem f = false →
      G.tgt f ≠ u1 ∧ ((dist (G.tgt f)).isSome ∨ G.tgt f ∈ newV)) :
    BfsInv G rem eAvoid u0 u1 maxDist
      (fun x => if x ∈ newV then some (m + 1) else dist x)
      (rest ++ (if m + 1 < maxDist then newV else [])) (marked ++ newV) := by
  have hv0nV : v0 < G.nV :=
    hinv.mark_lt v0 ((hinv.mark_iff v0).mp (by rw [hv0]; rfl))
  have hnotnew : ∀ w, (dist w).isSome → w ∉ newV := by
    intro w hw hmem
    rw [(hnewProps w hmem).1] at hw
    simp at hw
  have hguard : m < maxDist ∨ (v0 = u0 ∧ m = 0) := by
    obtain ⟨m2, hm2, hg⟩ := hinv.q_mem v0 (List.mem_cons_self v0 rest)
    rw [hv0] at hm2
    cases hm2
    exact hg
  have hrestd : ∀ v ∈ rest,
      (if v ∈ newV then some (m + 1) else dist v) = dist v := by
    intro v hv
    obtain ⟨mr, hmr, _⟩ := hinv.q_mem v (List.mem_cons_of_mem v0 hv)
    have : v ∉ newV := hnotnew v (by rw [hmr]; rfl)
    simp [this]
  have hrestwin : ∀ v ∈ rest, ∃ mr, dist v = some mr ∧ m ≤ mr ∧ mr ≤ m + 1 := by
    intro v hv
    obtain ⟨mr, hmr, _⟩ := hinv.q_mem v (List.mem_cons_of_mem v0 hv)
    have hrel := (List.pairwise_cons.mp hinv.q_pair).1 v hv
    rw [hv0, hmr] at hrel
    exact ⟨mr, hmr, hrel⟩
  have hnewlt : ∀ x ∈ newV, x < G.nV := by
    intro x hx
    rcases hnewProps x hx with ⟨_, _, f, hfmem, _, _, hft⟩
    have hfp := hwf.src_of_mem v0 hv0nV f hfmem
    exact hft ▸ (hwf.vert_lt f hfp.1).2
  refine ⟨?_, ?_, ?_, ?_, ?_, ?_, ?_, ?_, ?_, ?_⟩
  · have : u0 ∉ newV := hnotnew u0 (by rw [hinv.dist_u0]; rfl)
    simp only [this, if_false]
    exact hinv.dist_u0
  · intro v
    by_cases hmem : v ∈ newV
    · simp [hmem]
    · simp only [hmem, if_false, List.mem_append]
      rw [hinv.mark_iff v]
      tauto
  · rw [List.nodup_append]
    exact ⟨hinv.mark_nodup, hnd,
      fun a ha hb => (hnotnew a ((hinv.mark_iff a).mpr ha)) hb⟩
  · intro v hv
    rcases List.mem_append.mp hv with hv | hv
    · exact hinv.mark_lt v hv
    · exact hnewlt v hv
  · have : u1 ∉ newV := fun hmem => (hnewProps u1 hmem).2.1 rfl
    simp only [this, if_false]
    exact hinv.dist_u1
  · intro v mv hmv
    by_cases hmem : v ∈ newV
    · simp only [hmem, if_true, Option.some.injEq] at hmv
      subst hmv
      right
      rcases hnewProps v hmem with ⟨_, _, f, hfmem, hfa, hfr, hft⟩
      have hfp := hwf.src_of_mem v0 hv0nV f hfmem
      rcases hinv.dist_path v0 m hv0 with ⟨hvu0, hm0⟩ | ⟨hm1, hmB, hpath⟩
      · subst hm0
        refine ⟨le_rfl, by omega, ?_⟩
        exact hft ▸ AdmissiblePath.single f hfp.1 hfa hfr u0 (G.tgt f)
          (hvu0 ▸ hfp.2) rfl
      · have hmlt : m < maxDist := by
          rcases hguard with h | ⟨_, h0⟩
          · exact h
          · omega
        refine ⟨by omega, by omega, ?_⟩
        exact hft ▸ hpath.snoc hfp.1 hfa hfr hfp.2
    · simp only [hmem, if_false] at hmv
      exact hinv.dist_path v mv hmv
  · rw [List.nodup_append]
    refine ⟨(List.nodup_cons.mp hinv.q_nodup).2, ?_, ?_⟩
    · by_cases hd : m + 1 < maxDist
      · rw [if_pos hd]; exact hnd
      · rw [if_neg hd]; exact List.nodup_nil
    · intro a ha hb
      have hbnew : a ∈ newV := by
        by_cases hd : m + 1 < maxDist
        · rwa [if_pos hd] at hb
        · rw [if_neg hd] at hb; exact absurd hb (List.not_mem_nil a)
      obtain ⟨mr, hmr, _⟩ := hinv.q_mem a (List.mem_cons_of_mem v0 ha)
      exact hnotnew a (by rw [hmr]; rfl) hbnew
  · intro v hv
    rcases List.mem_append.mp hv with hv | hv
    · obtain ⟨mr, hmr, hg⟩ := hinv.q_mem v (List.mem_cons_of_mem v0 hv)
      refine ⟨mr, ?_, hg⟩
      rw [hrestd v hv, hmr]
    · have hd : m + 1 < maxDist := by
        by_contra hc
        rw [if_neg hc] at hv
        exact absurd hv (List.not_mem_nil v)
      rw [if_pos hd] at hv
      exact ⟨m + 1, by simp [hv], Or.inl hd⟩
  · rw [List.pairwise_append]
    refine ⟨?_, ?_, ?_⟩
    · have htail := (List.pairwise_cons.mp hinv.q_pair).2
      refine htail.imp_of_mem ?_
      intro a b ha hb hab
      rw [hrestd a ha, hrestd b hb]
      exact hab
    · by_cases hd : m + 1 < maxDist
      · rw [if_pos hd]
        refine List.pairwise_of_forall_mem_list ?_
        intro a ha b hb
        refine ⟨?_, ?_⟩ <;> simp [ha, hb]
      · rw [if_neg hd]; exact List.Pairwise.nil
    · intro a ha b hb
      have hbnew : b ∈ newV := by
        by_cases hd : m + 1 < maxDist
        · rwa [if_pos hd] at hb
        · rw [if_neg hd] at hb; exact absurd hb (List.not_mem_nil b)
      obtain ⟨mr, hmr, hle, hge⟩ := hrestwin a ha
      rw [hrestd a ha, hmr]
      simp only [hbnew, if_true]
      simp
      omega
  · intro v mv hmv hg hvq f hf hfa hfr hfs
    by_cases hvnew : v ∈ newV
    · exfalso
      simp only [hvnew, if_true, Option.some.injEq] at hmv
      subst hmv
      rcases hg with hlt | ⟨_, h0⟩
      · exact hvq (by
          rw [if_pos hlt]
          exact List.mem_append_right rest hvnew)
      · omega
    · simp only [hvnew, if_false] at hmv
      by_cases hvv0 : v = v0
      · subst hvv0
        have hm : mv = m := by rw [hv0] at hmv; cases hmv; rfl
        subst hm
        have hfmem : f ∈ G.eBySrc v := hwf.mem_of_src v hv0nV f hf hfs
        rcases hcov f hfmem hfa hfr with ⟨hne, hcase⟩
        refine ⟨hne, ?_⟩
        rcases hcase with hsome | hmem
        · by_cases ht : G.tgt f ∈ newV
          · simp [ht]
          · simpa [ht] using hsome
        · simp [hmem]
      · have hvnq : v ∉ v0 :: rest := by
          intro hcon
          rcases List.mem_cons.mp hcon with h | h
          · exact hvv0 h
          · exact hvq (List.mem_append_left _ h)
        rcases hinv.processed v mv hmv hg hvnq f hf hfa hfr hfs with ⟨hne, hsome⟩
        refine ⟨hne, ?_⟩
        by_cases ht : G.tgt f ∈ newV
        · simp [ht]
        · simpa [ht] using hsome

theorem bfsLoop_spec (G : MGraph) (rem : Nat → Bool)
    (eAvoid u0 u1 maxDist : Nat) (hwf : G.WellFormed) :
    ∀ (fuel : Nat) (dist : Nat → Option Nat) (q marked : List Nat),
      BfsInv G rem eAvoid u0 u1 maxDist dist q marked →
      q.length + (G.nV - marked.length) < fuel →
      (bfsLoop G rem eAvoid u1 maxDist fuel dist q marked = true ↔
        BfsFoundGoal G rem eAvoid u1 maxDist dist q) := by
  intro fuel
  induction fuel with
  | zero =>
    intro dist q marked _ hfuel
    omega
  | succ fuel ih =>
    intro dist q marked hinv hfuel
    match q with
    | [] =>
      rw [bfsLoop]
      constructor
      · intro h; exact absurd h (by simp)
      · rintro ⟨v, mv, ℓ, hvq, _⟩
        exact absurd hvq (List.not_mem_nil v)
    | v0 :: rest =>
      obtain ⟨m, hv0, hguard⟩ := hinv.q_mem v0 (List.mem_cons_self v0 rest)
      have hv0nV : v0 < G.nV :=
        hinv.mark_lt v0 ((hinv.mark_iff v0).mp (by rw [hv0]; rfl))
      have hgetD : (dist v0).getD 0 = m := by rw [hv0]; rfl
      rw [bfsLoop]
      simp only [hgetD]
      rcases hfnd : (bfsScan G rem eAvoid u1 maxDist (m + 1)
          (G.eBySrc v0) dist rest marked).2.2.2 with hf | hf
      · -- the scan did not find u1: recurse with the invariant re-established
        rw [if_neg (by simp)]
        rcases bfsScan_state G rem eAvoid u1 maxDist (m + 1) (G.eBySrc v0)
          dist rest marked hinv.dist_u1 hfnd with ⟨newV, heq, hnd, hprops, hcov⟩
        have hprops' : ∀ x ∈ newV, dist x = none ∧ x ≠ u1 ∧
            ∃ f ∈ G.eBySrc v0, f ≠ eAvoid ∧ rem f = false ∧ G.tgt f = x := hprops
        have hcov' : ∀ f ∈ G.eBySrc v0, f ≠ eAvoid → rem f = false →
            G.tgt f ≠ u1 ∧ ((dist (G.tgt f)).isSome ∨ G.tgt f ∈ newV) := by
          intro f hfm hfa hfr
          exact hcov f hfm hfa (by simpa using hfr)
        have heq1 : (bfsScan G rem eAvoid u1 maxDist (m + 1)
            (G.eBySrc v0) dist rest marked).1 =
              (fun x => if x ∈ newV then some (m + 1) else dist x) := by rw [heq]
        have heq2 : (bfsScan G rem eAvoid u1 maxDist (m + 1)
            (G.eBySrc v0) dist rest marked).2.1 =
              rest ++ (if m + 1 < maxDist then newV else []) := by rw [heq]
        have heq3 : (bfsScan G rem eAvoid u1 maxDist (m + 1)
            (G.eBySrc v0) dist rest marked).2.2.1 = marked ++ newV := by rw [heq]
        rw [heq1, heq2, heq3]
        have hinv' := bfsInv_step G rem eAvoid u0 u1 maxDist hwf
          dist v0 rest marked newV m hinv hv0 hnd hprops' hcov'
        have hmnew : (marked ++ newV).length ≤ G.nV :=
          length_le_of_nodup_lt hinv'.mark_nodup hinv'.mark_lt
        have hmold : marked.length ≤ G.nV :=
          length_le_of_nodup_lt hinv.mark_nodup hinv.mark_lt
        have hfuel' : (rest ++ (if m + 1 < maxDist then newV else [])).length +
            (G.nV - (marked ++ newV).length) < fuel := by
          have hpushlen : (if m + 1 < maxDist then newV else []).length ≤ newV.length := by
            by_cases hc : m + 1 < maxDist
            · rw [if_pos hc]
            · rw [if_neg hc]; simp
          rw [List.length_append, List.length_append] at *
          simp only [List.length_cons] at hfuel
          omega
        rw [ih _ _ _ hinv' hfuel']
        constructor
        · intro h
          exact bfsFound_transfer_bwd G rem eAvoid u0 u1 maxDist hwf
            dist v0 rest marked newV m hinv hv0 hprops' h
        · intro h
          exact bfsFound_transfer_fwd G rem eAvoid u0 u1 maxDist hwf
            dist v0 rest marked newV m hinv hv0 hprops' hcov' h
      · -- the scan found u1: a one-edge unvisited path from v0 exists
        rw [if_pos rfl]
        constructor
        · intro _
          rcases (bfsScan_found G rem eAvoid u1 maxDist (m + 1) (G.eBySrc v0)
              dist rest marked hinv.dist_u1).mp hfnd with ⟨f, hfm, hfa, hfr, hft⟩
          have hfp := hwf.src_of_mem v0 hv0nV f hfm
          exact ⟨v0, m, 1, List.mem_cons_self v0 rest, hv0,
            UnvisitedPath.single f hfp.1 hfa hfr v0 hfp.2 hft, Or.inl rfl⟩
        · intro _; rfl

theorem AdmissiblePath.length_pos {G : MGraph} {rem : Nat → Bool} {eAvoid : Nat}
    {u v ℓ : Nat} (h : AdmissiblePath G rem eAvoid u v ℓ) : 1 ≤ ℓ := by
  cases h with
  | single => omega
  | cons => omega

/-- Either an admissible path avoids `u0` strictly inside, or it has a
strictly shorter admissible suffix starting at `u0`. -/
theorem AdmissiblePath.toUnvisited_or_shorter {G : MGraph} {rem : Nat → Bool}
    {eAvoid u0 u1 : Nat} :
    ∀ {u ℓ}, AdmissiblePath G rem eAvoid u u1 ℓ →
      UnvisitedPath G rem eAvoid (fun x => if x = u0 then some 0 else none) u1 u ℓ ∨
        ∃ ℓ', ℓ' < ℓ ∧ 1 ≤ ℓ' ∧ AdmissiblePath G rem eAvoid u0 u1 ℓ' := by
  intro u ℓ h
  induction h with
  | single f hf hna hr a b hs ht =>
    exact Or.inl (UnvisitedPath.single f hf hna hr a hs ht)
  | cons f hf hna hr a b k hs tail ih =>
    rcases ih with htail | ⟨ℓ', hlt, h1, hsh⟩
    · by_cases hu0 : G.tgt f = u0
      · right
        refine ⟨k, by omega, htail.one_le, ?_⟩
        have := htail.toAdmissible
        rwa [hu0] at this
      · left
        exact UnvisitedPath.cons f hf hna hr a k hs (by simp [hu0]) htail
    · exact Or.inr ⟨ℓ', by omega, h1, hsh⟩

theorem AdmissiblePath.exists_unvisited {G : MGraph} {rem : Nat → Bool}
    {eAvoid u0 u1 : Nat} :
    ∀ ℓ, AdmissiblePath G rem eAvoid u0 u1 ℓ →
      ∃ ℓ', ℓ' ≤ ℓ ∧ 1 ≤ ℓ' ∧
        UnvisitedPath G rem eAvoid (fun x => if x = u0 then some 0 else none) u1 u0 ℓ' := by
  intro ℓ
  induction ℓ using Nat.strong_induction_on with
  | _ ℓ ih =>
    intro h
    rcases @AdmissiblePath.toUnvisited_or_shorter _ _ _ u0 _ _ _ h with hup | ⟨ℓ', hlt, h1, hsh⟩
    · exact ⟨ℓ, le_rfl, h.length_pos, hup⟩
    · rcases ih ℓ' hlt hsh with ⟨ℓ'', hle, h1', hup⟩
      exact ⟨ℓ'', by omega, h1', hup⟩

theorem bfsScan_none_of_some (G : MGraph) (rem : Nat → Bool)
    (eAvoid u1 maxDist d1 : Nat) :
    ∀ (fs : List Nat) (dist : Nat → Option Nat) (q marked : List Nat),
      (dist u1).isSome →
      (bfsScan G rem eAvoid u1 maxDist d1 fs dist q marked).2.2.2 = false ∧
        (((bfsScan G rem eAvoid u1 maxDist d1 fs dist q marked).1) u1).isSome := by
  intro fs
  induction fs with
  | nil =>
    intro dist q marked h1
    exact ⟨rfl, h1⟩
  | cons f rest ih =>
    intro dist q marked h1
    rw [bfsScan]
    by_cases hav : f = eAvoid
    · rw [if_pos hav]; exact ih dist q marked h1
    · rw [if_neg hav]
      by_cases hrem : rem f = true
      · rw [if_pos hrem]; exact ih dist q marked h1
      · rw [if_neg hrem]
        by_cases hvis : (dist (G.tgt f)).isSome
        · rw [if_pos hvis]; exact ih dist q marked h1
        · rw [if_neg hvis]
          have hu1 : ¬ G.tgt f = u1 := by
            intro hcon
            rw [hcon] at hvis
            exact hvis h1
          rw [if_neg hu1]
          refine ih _ _ _ ?_
          simp only [if_neg (fun hcon : u1 = G.tgt f => hu1 hcon.symm)]
          exact h1

theorem bfsLoop_false_of_some (G : MGraph) (rem : Nat → Bool)
    (eAvoid u1 maxDist : Nat) :
    ∀ (fuel : Nat) (dist : Nat → Option Nat) (q marked : List Nat),
      (dist u1).isSome →
      bfsLoop G rem eAvoid u1 maxDist fuel dist q marked = false := by
  intro fuel
  induction fuel with
  | zero => intro dist q marked _; rfl
  | succ fuel ih =>
    intro dist q marked h1
    match q with
    | [] => rfl
    | v0 :: rest =>
      rw [bfsLoop]
      rcases bfsScan_none_of_some G rem eAvoid u1 maxDist ((dist v0).getD 0 + 1)
        (G.eBySrc v0) dist rest marked h1 with ⟨hnf, hsome⟩
      rw [if_neg (by rw [hnf]; simp)]
      exact ih _ _ _ hsome

/-- Full characterization of the per-edge BFS of `transitiveReduction`:
starting from `u0` and searching `u1 ≠ u0`, it succeeds iff an admissible
forward path from `u0` to `u1` of length between 1 and `max 1 maxDist`
exists; it never succeeds when `u1 = u0`. -/
theorem bfsFindsPath_iff (G : MGraph) (rem : Nat → Bool)
    (eAvoid u0 u1 maxDist : Nat) (hwf : G.WellFormed) (hu0 : u0 < G.nV)
    (hne : u0 ≠ u1) :
    (bfsFindsPath G rem eAvoid u0 u1 maxDist = true ↔
      ∃ ℓ, 1 ≤ ℓ ∧ ℓ ≤ max 1 maxDist ∧ AdmissiblePath G rem eAvoid u0 u1 ℓ) := by
  have hinv : BfsInv G rem eAvoid u0 u1 maxDist
      (fun x => if x = u0 then some 0 else none) [u0] [u0] := by
    refine ⟨by simp, ?_, List.nodup_singleton u0, ?_, ?_, ?_, List.nodup_singleton u0,
      ?_, ?_, ?_⟩
    · intro v
      by_cases hv : v = u0 <;> simp [hv]
    · intro v hv
      rw [List.mem_singleton] at hv
      subst hv
      exact hu0
    · simp only [if_neg (fun hcon : u1 = u0 => hne hcon.symm)]
    · intro v mv hmv
      by_cases hv : v = u0
      · subst hv
        simp only [if_true, eq_self_iff_true] at hmv
        simp at hmv
        exact Or.inl ⟨rfl, by omega⟩
      · simp [hv] at hmv
    · intro v hv
      rw [List.mem_singleton] at hv
      subst hv
      exact ⟨0, by simp, Or.inr ⟨rfl, rfl⟩⟩
    · simp
    · intro v mv hmv hg hvq
      exfalso
      by_cases hv : v = u0
      · exact hvq (hv ▸ List.mem_singleton_self u0)
      · simp [hv] at hmv
  have hfuel : ([u0] : List Nat).length + (G.nV - ([u0] : List Nat).length) < G.nV + 1 := by
    simp only [List.length_singleton]
    omega
  unfold bfsFindsPath
  rw [bfsLoop_spec G rem eAvoid u0 u1 maxDist hwf (G.nV + 1) _ [u0] [u0] hinv hfuel]
  constructor
  · rintro ⟨v, mv, ℓ, hvq, hvd, hpath, hcon⟩
    rw [List.mem_singleton] at hvq
    subst hvq
    have hm0 : mv = 0 := by
      simp at hvd
      omega
    subst hm0
    refine ⟨ℓ, hpath.one_le, ?_, hpath.toAdmissible⟩
    rcases hcon with h1 | h2
    · omega
    · omega
  · rintro ⟨ℓ, h1, hB, hpath⟩
    rcases AdmissiblePath.exists_unvisited ℓ hpath with ⟨ℓ', hle, h1', hup⟩
    refine ⟨u0, 0, ℓ', List.mem_singleton_self u0, by simp, hup, ?_⟩
    rcases Nat.lt_or_ge ℓ' 2 with hlt | hge
    · left; omega
    · right
      have : max 1 maxDist = maxDist ∨ max 1 maxDist = 1 := by omega
      omega

/-- C4 (amended).  During the main pass of `transitiveReduction` (which
processes coverages in ascending order and, within a coverage, canonical
edges in id order, each with `trProcessEdge`), for any flag state `rem`
reached when a canonical edge `e = u0 → u1` is processed:  if `e` is already
flagged it is skipped; otherwise, when `u0 ≠ u1`, `e` becomes flagged iff a
forward path from `u0` to `u1` of length at most `max 1 maxDistance` exists
avoiding `e` and the currently flagged edges — the bound is
`max 1 maxDistance`, not `maxDistance`, because the start vertex is expanded
even when `maxDistance = 0` — and then its reverse complement is flagged
with it, no other edge's flag changing; a self-loop canonical edge
(`u0 = u1`) is never flagged by the BFS step. -/
theorem transitiveReductionBfsRule (G : MGraph) (hwf : G.WellFormed)
    (maxDist : Nat) (rem : Nat → Bool) (e : Nat) (he : e < G.nE) :
    (rem e = true → trProcessEdge G maxDist rem e = rem) ∧
    (rem e = false → G.src e ≠ G.tgt e →
      ((trProcessEdge G maxDist rem e e = true ↔
          ∃ ℓ, 1 ≤ ℓ ∧ ℓ ≤ max 1 maxDist ∧
            AdmissiblePath G rem e (G.src e) (G.tgt e) ℓ) ∧
        (trProcessEdge G maxDist rem e (G.rcE e) = true ↔
          (rem (G.rcE e) = true ∨
            ∃ ℓ, 1 ≤ ℓ ∧ ℓ ≤ max 1 maxDist ∧
              AdmissiblePath G rem e (G.src e) (G.tgt e) ℓ)) ∧
        (∀ x, x ≠ e → x ≠ G.rcE e → trProcessEdge G maxDist rem e x = rem x))) ∧
    (rem e = false → G.src e = G.tgt e → trProcessEdge G maxDist rem e = rem) := by
  have hu0 : G.src e < G.nV := (hwf.vert_lt e he).1
  refine ⟨?_, ?_, ?_⟩
  · intro hrem
    unfold trProcessEdge
    rw [if_pos hrem]
  · intro hrem hne
    have hbfs := bfsFindsPath_iff G rem e (G.src e) (G.tgt e) maxDist hwf hu0 hne
    have hsetE : setRemovedPair G rem e e = true := by
      unfold setRemovedPair
      simp
    have hsetRc : setRemovedPair G rem e (G.rcE e) = true := by
      unfold setRemovedPair
      by_cases hrc : G.rcE e = e <;> simp [hrc]
    refine ⟨?_, ?_, ?_⟩
    · unfold trProcessEdge
      rw [if_neg (by rw [hrem]; simp)]
      by_cases hfound : bfsFindsPath G rem e (G.src e) (G.tgt e) maxDist = true
      · rw [if_pos hfound]
        exact ⟨fun _ => hbfs.mp hfound, fun _ => hsetE⟩
      · rw [if_neg hfound]
        rw [hrem]
        simp only [Bool.false_eq_true, false_iff]
        intro hcon
        exact hfound (hbfs.mpr hcon)
    · unfold trProcessEdge
      rw [if_neg (by rw [hrem]; simp)]
      by_cases hfound : bfsFindsPath G rem e (G.src e) (G.tgt e) maxDist = true
      · rw [if_pos hfound]
        exact ⟨fun _ => Or.inr (hbfs.mp hfound), fun _ => hsetRc⟩
      · rw [if_neg hfound]
        constructor
        · intro h; exact Or.inl h
        · intro h
          rcases h with h | h
          · exact h
          · exact absurd (hbfs.mpr h) hfound
    · intro x hx1 hx2
      unfold trProcessEdge
      rw [if_neg (by rw [hrem]; simp)]
      by_cases hfound : bfsFindsPath G rem e (G.src e) (G.tgt e) maxDist = true
      · rw [if_pos hfound]
        unfold setRemovedPair
        simp [hx1, hx2]
      · rw [if_neg hfound]
  · intro hrem hself
    unfold trProcessEdge
    rw [if_neg (by rw [hrem]; simp)]
    have hfalse : bfsFindsPath G rem e (G.src e) (G.tgt e) maxDist = false := by
      unfold bfsFindsPath
      apply bfsLoop_false_of_some
      rw [← hself]
      simp
    rw [hfalse]
    simp

/-- C4 counterexample to the claim as stated, at two concrete inputs run
through the full `transitiveReduction` (thresholds 1 and 3, so the
coverage-2 edges are BFS-processed, marker-skip threshold 100).
With `maxDistance = 0` on the parallel-pair graph, edge 0 is flagged even
though no forward path of length at most 0 exists (the BFS expands the start
vertex once regardless of `maxDistance`).  With `maxDistance = 2` on the
self-loop graph, edge 0 is never flagged even though the parallel self-loop
is an avoiding forward path of length 1 ≤ 2 (the BFS marks the start vertex
visited, so it can never re-encounter it as the target). -/
theorem transitiveReductionBfsRule_counterexample :
    (transitiveReduction trParallelGraph 1 3 0 100 0 = true ∧
      ¬ ∃ ℓ, 1 ≤ ℓ ∧ ℓ ≤ 0 ∧ AdmissiblePath trParallelGraph (fun _ => false) 0
        (trParallelGraph.src 0) (trParallelGraph.tgt 0) ℓ) ∧
    (transitiveReduction trSelfLoopGraph 1 3 2 100 0 = false ∧
      (1 : Nat) ≤ 2 ∧ AdmissiblePath trSelfLoopGraph (fun _ => false) 0
        (trSelfLoopGraph.src 0) (trSelfLoopGraph.tgt 0) 1) := by
  refine ⟨⟨by decide, ?_⟩, by decide, by omega, ?_⟩
  · rintro ⟨ℓ, h1, h0, _⟩
    omega
  · exact AdmissiblePath.single 1 (by decide) (by decide) rfl
      (trSelfLoopGraph.src 0) (trSelfLoopGraph.tgt 0) (by decide) (by decide)

/-- C4 witness: on the parallel-pair graph with `maxDistance = 1` and all
flags clear, processing canonical edge 0 flags it, and the amended rule's
path criterion is satisfied by the parallel edge 1. -/
theorem transitiveReductionBfsRule_witness :
    ((fun _ => false : Nat → Bool) 0 = false ∧
      trParallelGraph.src 0 ≠ trParallelGraph.tgt 0 ∧ 0 < trParallelGraph.nE) ∧
    (trProcessEdge trParallelGraph 1 (fun _ => false) 0 0 = true ↔
      ∃ ℓ, 1 ≤ ℓ ∧ ℓ ≤ max 1 1 ∧ AdmissiblePath trParallelGraph (fun _ => false) 0
        (trParallelGraph.src 0) (trParallelGraph.tgt 0) ℓ) ∧
    trProcessEdge trParallelGraph 1 (fun _ => false) 0 0 = true :=
  ⟨⟨rfl, by decide, by decide⟩,
    (((transitiveReductionBfsRule trParallelGraph
        ⟨by decide, by decide, by decide, by decide, by decide, by decide, by decide⟩
        1 (fun _ => false) 0 (by decide)).2.1 rfl (by decide)).1),
    by decide⟩

theorem getD_mem_of_length_one {l : List Nat} (h : l.length = 1) : l.getD 0 0 ∈ l := by
  match l, h with
  | [a], _ => exact List.mem_singleton_self a

theorem eq_getD_of_length_one {l : List Nat} {e : Nat} (h : l.length = 1) (he : e ∈ l) :
    l.getD 0 0 = e := by
  match l, h with
  | [a], _ =>
    have : e = a := by simpa using he
    simpa using this.symm

theorem succE_some {G : MGraph} (hwf : G.WellFormed) {e f : Nat} (he : e < G.nE)
    (h : succE G e = some f) : f < G.nE ∧ G.src f = G.tgt e := by
  unfold succE at h
  split at h
  · rename_i hc
    have htv : G.tgt e < G.nV := (hwf.vert_lt e he).2
    have hmem := getD_mem_of_length_one hc.1
    cases h
    exact hwf.src_of_mem (G.tgt e) htv _ hmem
  · exact Option.noConfusion h

theorem predE_some {G : MGraph} (hwf : G.WellFormed) {e f : Nat} (he : e < G.nE)
    (h : predE G e = some f) : f < G.nE ∧ G.tgt f = G.src e := by
  unfold predE at h
  split at h
  · rename_i hc
    have hsv : G.src e < G.nV := (hwf.vert_lt e he).1
    have hmem := getD_mem_of_length_one hc.2
    cases h
    exact hwf.tgt_of_mem (G.src e) hsv _ hmem
  · exact Option.noConfusion h

theorem succ_pred {G : MGraph} (hwf : G.WellFormed) {e f : Nat} (he : e < G.nE)
    (h : succE G e = some f) : predE G f = some e := by
  have hprops := succE_some hwf he h
  unfold succE at h
  split at h
  · rename_i hc
    have htv : G.tgt e < G.nV := (hwf.vert_lt e he).2
    unfold predE
    rw [hprops.2, if_pos hc]
    have hemem : e ∈ G.eByTgt (G.tgt e) := hwf.mem_of_tgt (G.tgt e) htv e he rfl
    rw [eq_getD_of_length_one hc.2 hemem]
  · exact Option.noConfusion h

theorem pred_succ {G : MGraph} (hwf : G.WellFormed) {e f : Nat} (hf : f < G.nE)
    (h : predE G f = some e) : succE G e = some f := by
  have hprops := predE_some hwf hf h
  unfold predE at h
  split at h
  · rename_i hc
    have hsv : G.src f < G.nV := (hwf.vert_lt f hf).1
    unfold succE
    rw [hprops.2, if_pos hc]
    have hfmem : f ∈ G.eBySrc (G.src f) := hwf.mem_of_src (G.src f) hsv f hf rfl
    rw [eq_getD_of_length_one hc.1 hfmem]
  · exact Option.noConfusion h

theorem succE_inj {G : MGraph} (hwf : G.WellFormed) {a b f : Nat}
    (ha : a < G.nE) (hb : b < G.nE)
    (h1 : succE G a = some f) (h2 : succE G b = some f) : a = b := by
  have hpa := succ_pred hwf ha h1
  have hpb := succ_pred hwf hb h2
  rw [hpa] at hpb
  exact (Option.some.injEq .. ▸ hpb)

theorem iterSuccE_add (G : MGraph) :
    ∀ (a b s : Nat), iterSuccE G (a + b) s = (iterSuccE G a s).bind (iterSuccE G b) := by
  intro a
  induction a with
  | zero => intro b s; simp [iterSuccE]
  | succ a ih =>
    intro b s
    have hsa : a + 1 + b = (a + b) + 1 := by omega
    rw [hsa]
    show (match succE G s with
      | none => none
      | some f => iterSuccE G (a + b) f) =
        ((match succE G s with
          | none => none
          | some f => iterSuccE G a f) : Option Nat).bind (iterSuccE G b)
    cases hsucc : succE G s with
    | none => rfl
    | some f => exact ih b f

theorem iterSuccE_valid (G : MGraph) (hwf : G.WellFormed) :
    ∀ (j s x : Nat), s < G.nE → iterSuccE G j s = some x → x < G.nE := by
  intro j
  induction j with
  | zero =>
    intro s x hs h
    cases h
    exact hs
  | succ j ih =>
    intro s x hs h
    rw [iterSuccE] at h
    cases hsucc : succE G s with
    | none => rw [hsucc] at h; exact Option.noConfusion h
    | some f =>
      rw [hsucc] at h
      exact ih f x (succE_some hwf hs hsucc).1 h

theorem iterSuccE_inj (G : MGraph) (hwf : G.WellFormed) :
    ∀ (j a b x : Nat), a < G.nE → b < G.nE →
      iterSuccE G j a = some x → iterSuccE G j b = some x → a = b := by
  intro j
  induction j with
  | zero =>
    intro a b x _ _ h1 h2
    cases h1; cases h2; rfl
  | succ j ih =>
    intro a b x ha hb h1 h2
    rw [iterSuccE] at h1 h2
    cases hsa : succE G a with
    | none => rw [hsa] at h1; exact Option.noConfusion h1
    | some fa =>
      cases hsb : succE G b with
      | none => rw [hsb] at h2; exact Option.noConfusion h2
      | some fb =>
        rw [hsa] at h1
        rw [hsb] at h2
        have hfa : fa < G.nE := (succE_some hwf ha hsa).1
        have hfb : fb < G.nE := (succE_some hwf hb hsb).1
        have : fa = fb := ih fa fb x hfa hfb h1 h2
        subst this
        exact succE_inj hwf ha hb hsa hsb

theorem iterSuccE_prefix_defined (G : MGraph) {T r s x : Nat}
    (h : iterSuccE G T s = some x) (hr : r ≤ T) :
    ∃ y, iterSuccE G r s = some y := by
  have hT : T = r + (T - r) := by omega
  rw [hT, iterSuccE_add] at h
  cases hi : iterSuccE G r s with
  | none => rw [hi] at h; exact Option.noConfusion h
  | some y => exact ⟨y, rfl⟩

theorem iterSuccE_cycle_pump (G : MGraph) {T s : Nat}
    (h : iterSuccE G T s = some s) : ∀ q, iterSuccE G (q * T) s = some s := by
  intro q
  induction q with
  | zero => simp [iterSuccE]
  | succ q ih =>
    have : (q + 1) * T = q * T + T := by ring
    rw [this, iterSuccE_add, ih]
    exact h

theorem iterSuccE_cycle_all_defined (G : MGraph) {T s : Nat} (hT : 1 ≤ T)
    (h : iterSuccE G T s = some s) : ∀ j, ∃ y, iterSuccE G j s = some y := by
  intro j
  have hle : j ≤ (j + 1) * T := by nlinarith
  exact iterSuccE_prefix_defined G (iterSuccE_cycle_pump G h (j + 1)) hle

/-- A cycle through any forward iterate of `s` is also a cycle through `s`. -/
theorem iterSuccE_cycle_transfer (G : MGraph) (hwf : G.WellFormed) {T : Nat} :
    ∀ (j s x : Nat), s < G.nE → iterSuccE G j s = some x →
      iterSuccE G T x = some x → iterSuccE G T s = some s := by
  intro j
  induction j with
  | zero =>
    intro s x hs hj hx
    cases hj
    exact hx
  | succ j ih =>
    intro s x hs hj hx
    rw [iterSuccE] at hj
    cases hsucc : succE G s with
    | none => rw [hsucc] at hj; exact Option.noConfusion hj
    | some t =>
      rw [hsucc] at hj
      have ht : t < G.nE := (succE_some hwf hs hsucc).1
      have htcyc := ih t x ht hj hx
      cases hTz : T with
      | zero => rfl
      | succ T2 =>
        rw [hTz] at htcyc
        rw [iterSuccE_add G T2 1 t] at htcyc
        cases hmid : iterSuccE G T2 t with
        | none => rw [hmid] at htcyc; exact Option.noConfusion htcyc
        | some v =>
          rw [hmid] at htcyc
          simp only [Option.some_bind] at htcyc
          have hone : iterSuccE G 1 v = succE G v := by
            show (match succE G v with
              | none => none
              | some f => iterSuccE G 0 f) = succE G v
            cases succE G v <;> rfl
          have hsv : succE G v = some t := by
            rw [← hone]
            exact htcyc
          have hv : v < G.nE := iterSuccE_valid G hwf T2 t v ht hmid
          have hveq : s = v := succE_inj hwf hs hv hsucc hsv
          subst hveq
          show iterSuccE G (T2 + 1) s = some s
          rw [iterSuccE, hsucc]
          exact hmid

/-- If two forward iterates from `s` collide, `s` lies on a cycle whose
period is the difference. -/
theorem iterSuccE_collision (G : MGraph) (hwf : G.WellFormed) {j k s x : Nat}
    (hs : s < G.nE) (hj : iterSuccE G j s = some x) (hk : iterSuccE G k s = some x)
    (hlt : j < k) : iterSuccE G (k - j) s = some s := by
  have hxcyc : iterSuccE G (k - j) x = some x := by
    have hkdec : k = j + (k - j) := by omega
    rw [hkdec, iterSuccE_add, hj] at hk
    simpa using hk
  exact iterSuccE_cycle_transfer G hwf j s x hs hj hxcyc

theorem iterSuccE_one (G : MGraph) (v : Nat) : iterSuccE G 1 v = succE G v := by
  show (match succE G v with
    | none => none
    | some f => iterSuccE G 0 f) = succE G v
  cases succE G v <;> rfl

theorem iterSuccE_step_back (G : MGraph) {n s cur nxt : Nat}
    (hcur : iterSuccE G n s = some cur) (hstep : succE G cur = some nxt) :
    iterSuccE G (n + 1) s = some nxt := by
  rw [iterSuccE_add, hcur]
  simp only [Option.some_bind]
  rw [iterSuccE_one]
  exact hstep

theorem getLast_cons_append_singleton :
    ∀ (acc : List Nat) (s nxt : Nat),
      (s :: (acc ++ [nxt])).getLast (List.cons_ne_nil s (acc ++ [nxt])) = nxt
  | [], _, _ => rfl
  | a :: t, s, nxt => by
    rw [List.getLast_cons (by simp)]
    exact getLast_cons_append_singleton t a nxt

theorem fwdWalk_spec (G : MGraph) (hwf : G.WellFormed) (s : Nat) (hs : s < G.nE) :
    ∀ (fuel : Nat) (cur : Nat) (acc : List Nat),
      (∀ i, i < acc.length → iterSuccE G (i + 1) s = some (acc.getD i 0)) →
      iterSuccE G acc.length s = some cur →
      (s :: acc).getLast (List.cons_ne_nil s acc) = cur →
      (s :: acc).Nodup →
      (∀ x ∈ s :: acc, x < G.nE) →
      G.nE + 1 ≤ fuel + acc.length →
      ∃ next isCirc, fwdWalk G s fuel cur acc = some (next, isCirc) ∧
        (∀ i, i < next.length → iterSuccE G (i + 1) s = some (next.getD i 0)) ∧
        (s :: next).Nodup ∧
        (∀ x ∈ s :: next, x < G.nE) ∧
        iterSuccE G next.length s = some ((s :: next).getLast (List.cons_ne_nil s next)) ∧
        (isCirc = false → succE G ((s :: next).getLast (List.cons_ne_nil s next)) = none) ∧
        (isCirc = true → succE G ((s :: next).getLast (List.cons_ne_nil s next)) = some s) := by
  intro fuel
  induction fuel with
  | zero =>
    intro cur acc _ _ _ hnd hlt hfuel
    exfalso
    have := length_le_of_nodup_lt hnd hlt
    simp only [List.length_cons] at this
    omega
  | succ fuel ih =>
    intro cur acc hidx hcur hcurlast hnd hlt hfuel
    rw [fwdWalk]
    cases hsucc : succE G cur with
    | none =>
      dsimp only
      refine ⟨acc, false, rfl, hidx, hnd, hlt, ?_, ?_, ?_⟩
      · rw [hcurlast]; exact hcur
      · intro _; rw [hcurlast]; exact hsucc
      · intro hcon; exact Bool.noConfusion hcon
    | some nxt =>
      dsimp only
      by_cases hns : nxt = s
      · rw [if_pos hns]
        refine ⟨acc, true, rfl, hidx, hnd, hlt, ?_, ?_, ?_⟩
        · rw [hcurlast]; exact hcur
        · intro hcon; exact Bool.noConfusion hcon
        · intro _; rw [hcurlast, hsucc, hns]
      · rw [if_neg hns]
        have hcurlt : cur < G.nE := hlt cur (by rw [← hcurlast]; exact List.getLast_mem _)
        have hnxtlt : nxt < G.nE := (succE_some hwf hcurlt hsucc).1
        have hcur' : iterSuccE G (acc.length + 1) s = some nxt :=
          iterSuccE_step_back G hcur hsucc
        have hnotin : nxt ∉ s :: acc := by
          intro hmem
          rcases List.mem_cons.mp hmem with h | h
          · exact hns h
          · rcases List.mem_iff_getElem.mp h with ⟨i, hilen, hie⟩
            have hgd : acc.getD i 0 = nxt := by
              rw [List.getD_eq_getElem acc 0 hilen]; exact hie
            have hi2 := hidx i hilen
            rw [hgd] at hi2
            have hcyc := iterSuccE_collision G hwf hs hi2 hcur' (by omega)
            have hT : acc.length + 1 - (i + 1) = acc.length - i := by omega
            rw [hT] at hcyc
            have hTlen : acc.length - i - 1 < acc.length := by omega
            have := hidx (acc.length - i - 1) hTlen
            have hTrw : acc.length - i - 1 + 1 = acc.length - i := by omega
            rw [hTrw, hcyc] at this
            have hsin : acc.getD (acc.length - i - 1) 0 = s := by
              have := this.symm
              simpa using this
            have : s ∈ acc := by
              rw [← hsin, List.getD_eq_getElem acc 0 hTlen]
              exact List.getElem_mem hTlen
            exact (List.nodup_cons.mp hnd).1 this
        have hidx' : ∀ i, i < (acc ++ [nxt]).length →
            iterSuccE G (i + 1) s = some ((acc ++ [nxt]).getD i 0) := by
          intro i hi
          simp only [List.length_append, List.length_singleton] at hi
          by_cases hilt : i < acc.length
          · rw [List.getD_append acc [nxt] 0 i hilt]
            exact hidx i hilt
          · have : i = acc.length := by omega
            subst this
            rw [List.getD_append_right acc [nxt] 0 acc.length le_rfl]
            simpa using hcur'
        have hnd' : (s :: (acc ++ [nxt])).Nodup := by
          have : s :: (acc ++ [nxt]) = (s :: acc) ++ [nxt] := by simp
          rw [this, List.nodup_append]
          exact ⟨hnd, List.nodup_singleton nxt,
            fun a ha hb => by
              rw [List.mem_singleton] at hb
              subst hb
              exact hnotin ha⟩
        have hlt' : ∀ x ∈ s :: (acc ++ [nxt]), x < G.nE := by
          intro x hx
          rcases List.mem_cons.mp hx with rfl | hx
          · exact hs
          · rcases List.mem_append.mp hx with hx | hx
            · exact hlt x (List.mem_cons_of_mem s hx)
            · rw [List.mem_singleton] at hx
              subst hx
              exact hnxtlt
        have hcurlast' : (s :: (acc ++ [nxt])).getLast
            (List.cons_ne_nil s (acc ++ [nxt])) = nxt :=
          getLast_cons_append_singleton acc s nxt
        have hcurlen' : iterSuccE G (acc ++ [nxt]).length s = some nxt := by
          simpa using hcur'
        have hfuel' : G.nE + 1 ≤ fuel + (acc ++ [nxt]).length := by
          simp only [List.length_append, List.length_singleton]
          omega
        exact ih nxt (acc ++ [nxt]) hidx' hcurlen' hcurlast' hnd' hlt' hfuel'

theorem iterSuccE_cycle_shift (G : MGraph) {T j p s : Nat}
    (hcyc : iterSuccE G T p = some p) (hj : iterSuccE G j p = some s) :
    iterSuccE G T s = some s := by
  have h1 : iterSuccE G (j + T) p = iterSuccE G T s := by
    rw [iterSuccE_add, hj, Option.some_bind]
  have h2 : iterSuccE G (j + T) p = some s := by
    rw [Nat.add_comm, iterSuccE_add, hcyc, Option.some_bind]
    exact hj
  exact h1.symm.trans h2

theorem bwdWalk_spec (G : MGraph) (hwf : G.WellFormed) (s : Nat) (hs : s < G.nE)
    (hnc : ∀ T, 1 ≤ T → iterSuccE G T s ≠ some s) :
    ∀ (fuel : Nat) (cur : Nat) (acc : List Nat),
      (∀ i, i < acc.length → iterSuccE G (i + 1) (acc.getD i 0) = some s) →
      iterSuccE G acc.length cur = some s →
      (s :: acc).getLast (List.cons_ne_nil s acc) = cur →
      (s :: acc).Nodup →
      (∀ x ∈ s :: acc, x < G.nE) →
      G.nE + 1 ≤ fuel + acc.length →
      ∃ prev, bwdWalk G fuel cur acc = some prev ∧
        (∀ i, i < prev.length → iterSuccE G (i + 1) (prev.getD i 0) = some s) ∧
        (s :: prev).Nodup ∧
        (∀ x ∈ s :: prev, x < G.nE) ∧
        iterSuccE G prev.length ((s :: prev).getLast (List.cons_ne_nil s prev)) = some s ∧
        predE G ((s :: prev).getLast (List.cons_ne_nil s prev)) = none := by
  intro fuel
  induction fuel with
  | zero =>
    intro cur acc _ _ _ hnd hlt hfuel
    exfalso
    have := length_le_of_nodup_lt hnd hlt
    simp only [List.length_cons] at this
    omega
  | succ fuel ih =>
    intro cur acc hidx hcur hcurlast hnd hlt hfuel
    rw [bwdWalk]
    cases hpred : predE G cur with
    | none =>
      dsimp only
      refine ⟨acc, rfl, hidx, hnd, hlt, ?_, ?_⟩
      · rw [hcurlast]; exact hcur
      · rw [hcurlast]; exact hpred
    | some prv =>
      dsimp only
      have hcurlt : cur < G.nE := hlt cur (by rw [← hcurlast]; exact List.getLast_mem _)
      have hprvlt : prv < G.nE := (predE_some hwf hcurlt hpred).1
      have hsucc_prv : succE G prv = some cur := pred_succ hwf hcurlt hpred
      have hchain : iterSuccE G (acc.length + 1) prv = some s := by
        rw [Nat.add_comm, iterSuccE_add, iterSuccE_one, hsucc_prv, Option.some_bind]
        exact hcur
      have hnotin : prv ∉ s :: acc := by
        intro hmem
        rcases List.mem_cons.mp hmem with h | h
        · subst h
          exact hnc (acc.length + 1) (by omega) hchain
        · rcases List.mem_iff_getElem.mp h with ⟨i, hilen, hie⟩
          have hgd : acc.getD i 0 = prv := by
            rw [List.getD_eq_getElem acc 0 hilen]; exact hie
          have hi2 := hidx i hilen
          rw [hgd] at hi2
          have hcyc := iterSuccE_collision G hwf hprvlt hi2 hchain (by omega)
          have hT : acc.length + 1 - (i + 1) = acc.length - i := by omega
          rw [hT] at hcyc
          have hshift := iterSuccE_cycle_shift G hcyc hi2
          exact hnc (acc.length - i) (by omega) hshift
      have hidx' : ∀ i, i < (acc ++ [prv]).length →
          iterSuccE G (i + 1) ((acc ++ [prv]).getD i 0) = some s := by
        intro i hi
        simp only [List.length_append, List.length_singleton] at hi
        by_cases hilt : i < acc.length
        · rw [List.getD_append acc [prv] 0 i hilt]
          exact hidx i hilt
        · have : i = acc.length := by omega
          subst this
          rw [List.getD_append_right acc [prv] 0 acc.length le_rfl]
          simpa using hchain
      have hnd' : (s :: (acc ++ [prv])).Nodup := by
        have : s :: (acc ++ [prv]) = (s :: acc) ++ [prv] := by simp
        rw [this, List.nodup_append]
        exact ⟨hnd, List.nodup_singleton prv,
          fun a ha hb => by
            rw [List.mem_singleton] at hb
            subst hb
            exact hnotin ha⟩
      have hlt' : ∀ x ∈ s :: (acc ++ [prv]), x < G.nE := by
        intro x hx
        rcases List.mem_cons.mp hx with rfl | hx
        · exact hs
        · rcases List.mem_append.mp hx with hx | hx
          · exact hlt x (List.mem_cons_of_mem s hx)
          · rw [List.mem_singleton] at hx
            subst hx
            exact hprvlt
      have hcurlast' : (s :: (acc ++ [prv])).getLast
          (List.cons_ne_nil s (acc ++ [prv])) = prv :=
        getLast_cons_append_singleton acc s prv
      have hcur' : iterSuccE G (acc ++ [prv]).length prv = some s := by
        simpa using hchain
      have hfuel' : G.nE + 1 ≤ fuel + (acc ++ [prv]).length := by
        simp only [List.length_append, List.length_singleton]
        omega
      exact ih prv (acc ++ [prv]) hidx' hcur' hcurlast' hnd' hlt' hfuel'

theorem iterSuccE_mod (G : MGraph) {T s : Nat} (hT : 0 < T)
    (h : iterSuccE G T s = some s) (m : Nat) :
    iterSuccE G m s = iterSuccE G (m % T) s := by
  conv_lhs => rw [← Nat.div_add_mod m T]
  rw [iterSuccE_add, Nat.mul_comm T (m / T), iterSuccE_cycle_pump G h (m / T),
    Option.some_bind]

theorem segClosed_circular (G : MGraph) {s : Nat} {next : List Nat}
    (hidx : ∀ i, i < next.length → iterSuccE G (i + 1) s = some (next.getD i 0))
    (hlast : iterSuccE G next.length s =
      some ((s :: next).getLast (List.cons_ne_nil s next)))
    (htrue : succE G ((s :: next).getLast (List.cons_ne_nil s next)) = some s) :
    SegClosed G (s :: next) := by
  have hcyc0 : iterSuccE G (next.length + 1) s = some s := by
    rw [iterSuccE_add, hlast, Option.some_bind, iterSuccE_one]
    exact htrue
  intro e he T hT hcyc j f hjf
  have hk : ∃ k, k ≤ next.length ∧ iterSuccE G k s = some e := by
    rcases List.mem_cons.mp he with rfl | he
    · exact ⟨0, Nat.zero_le _, rfl⟩
    · rcases List.mem_iff_getElem.mp he with ⟨i, hilen, hie⟩
      refine ⟨i + 1, by omega, ?_⟩
      rw [hidx i hilen, List.getD_eq_getElem next 0 hilen, hie]
  obtain ⟨k, hkle, hks⟩ := hk
  have hkj : iterSuccE G (k + j) s = some f := by
    rw [iterSuccE_add, hks, Option.some_bind]
    exact hjf
  have hmod := iterSuccE_mod G (by omega : 0 < next.length + 1) hcyc0 (k + j)
  rw [hkj] at hmod
  have hr : (k + j) % (next.length + 1) < next.length + 1 :=
    Nat.mod_lt _ (by omega)
  cases hrz : (k + j) % (next.length + 1) with
  | zero =>
    rw [hrz] at hmod
    have : f = s := by
      have h2 := hmod.symm
      simp [iterSuccE] at h2
      exact h2.symm
    rw [this]
    exact List.mem_cons_self s next
  | succ i =>
    rw [hrz] at hr hmod
    have hilen : i < next.length := by omega
    rw [hidx i hilen] at hmod
    have : f = next.getD i 0 := by simpa using hmod
    rw [this]
    refine List.mem_cons_of_mem s ?_
    rw [List.getD_eq_getElem next 0 hilen]
    exact List.getElem_mem hilen

theorem segClosed_linear (G : MGraph) (hwf : G.WellFormed) {s : Nat} (hs : s < G.nE)
    {next prev : List Nat}
    (hnc : ∀ T, 1 ≤ T → iterSuccE G T s ≠ some s)
    (hidxN : ∀ i, i < next.length → iterSuccE G (i + 1) s = some (next.getD i 0))
    (hidxP : ∀ i, i < prev.length → iterSuccE G (i + 1) (prev.getD i 0) = some s) :
    SegClosed G (prev.reverse ++ s :: next) := by
  intro e he T hT hcyc j f hjf
  exfalso
  rcases List.mem_append.mp he with he | he
  · rw [List.mem_reverse] at he
    rcases List.mem_iff_getElem.mp he with ⟨i, hilen, hie⟩
    have hi2 := hidxP i hilen
    rw [List.getD_eq_getElem prev 0 hilen, hie] at hi2
    exact hnc T hT (iterSuccE_cycle_shift G hcyc hi2)
  · rcases List.mem_cons.mp he with rfl | he
    · exact hnc T hT hcyc
    · rcases List.mem_iff_getElem.mp he with ⟨i, hilen, hie⟩
      have hi2 := hidxN i hilen
      rw [List.getD_eq_getElem next 0 hilen, hie] at hi2
      exact hnc T hT (iterSuccE_cycle_transfer G hwf (i + 1) s e hs hi2 hcyc)

theorem createSegmentsLoop_spec (G : MGraph) (hwf : G.WellFormed) :
    ∀ (todo : List Nat) (wasFound : Nat → Bool) (paths : List (List Nat)),
      (∀ x ∈ todo, x < G.nE) →
      (∀ e, wasFound e = true → paths.countP (fun p => decide (e ∈ p)) = 1) →
      (∀ e, wasFound e = false → paths.countP (fun p => decide (e ∈ p)) = 0) →
      (∀ p ∈ paths, SegClosed G p) →
      ∀ ps, createSegmentsLoop G todo wasFound paths = some ps →
        (∀ e, e < G.nE → ps.countP (fun p => decide (e ∈ p)) = 1) ∧
        (∀ p ∈ ps, SegClosed G p) := by
  intro todo
  induction todo with
  | nil =>
    intro wasFound paths _ hK1 _ hK3 ps hps
    rw [createSegmentsLoop] at hps
    by_cases hall : (List.range G.nE).all wasFound = true
    · rw [if_pos hall] at hps
      cases hps
      refine ⟨?_, hK3⟩
      intro e he
      exact hK1 e (List.all_eq_true.mp hall e (List.mem_range.mpr he))
    · rw [if_neg hall] at hps
      exact Option.noConfusion hps
  | cons s todo ih =>
    intro wasFound paths htodo hK1 hK2 hK3 ps hps
    rw [createSegmentsLoop] at hps
    have hsE : s < G.nE := htodo s (List.mem_cons_self s todo)
    have htodo' : ∀ x ∈ todo, x < G.nE := fun x hx => htodo x (List.mem_cons_of_mem s hx)
    by_cases hfound : wasFound s = true
    · rw [if_pos hfound] at hps
      exact ih wasFound paths htodo' hK1 hK2 hK3 ps hps
    · rw [if_neg hfound] at hps
      obtain ⟨next, isCirc, heq, hidxN, hndN, hltN, hlastN, hfalseN, htrueN⟩ :=
        fwdWalk_spec G hwf s hsE (G.nE + 1) s []
          (fun i hi => absurd hi (by simp))
          rfl rfl (by simp)
          (by intro x hx; rw [List.mem_singleton] at hx; subst hx; exact hsE)
          (by simp)
      rw [heq] at hps
      dsimp only at hps
      cases isCirc with
      | true =>
        rw [if_pos rfl] at hps
        dsimp only at hps
        simp only [List.reverse_nil, List.nil_append] at hps
        by_cases hany : (s :: next).any wasFound = true
        · rw [if_pos hany] at hps
          exact Option.noConfusion hps
        · rw [if_neg hany] at hps
          have hany' : ∀ x ∈ s :: next, wasFound x = false := by
            intro x hx
            exact Bool.eq_false_iff.mpr (List.any_eq_false.mp (Bool.eq_false_iff.mpr hany) x hx)
          have hclosed : SegClosed G (s :: next) :=
            segClosed_circular G hidxN hlastN (htrueN rfl)
          refine ih _ (paths ++ [s :: next]) htodo' ?_ ?_ ?_ ps hps
          · intro e he
            by_cases hmem : e ∈ s :: next
            · rw [List.countP_append]
              have h0 : paths.countP (fun p => decide (e ∈ p)) = 0 :=
                hK2 e (hany' e hmem)
              simp [h0, hmem]
            · simp only [hmem, if_false] at he
              rw [List.countP_append]
              have h1 := hK1 e he
              simp [h1, hmem]
          · intro e he
            by_cases hmem : e ∈ s :: next
            · simp [hmem] at he
            · simp only [hmem, if_false] at he
              rw [List.countP_append]
              have h0 := hK2 e he
              simp [h0, hmem]
          · intro p hp
            rcases List.mem_append.mp hp with hp | hp
            · exact hK3 p hp
            · rw [List.mem_singleton] at hp
              subst hp
              exact hclosed
      | false =>
        rw [if_neg (by exact Bool.false_ne_true)] at hps
        have hsn := hfalseN rfl
        have hnc : ∀ T, 1 ≤ T → iterSuccE G T s ≠ some s := by
          intro T hT hcyc
          obtain ⟨y, hy⟩ := iterSuccE_cycle_all_defined G hT hcyc (next.length + 1)
          rw [iterSuccE_add, hlastN, Option.some_bind, iterSuccE_one, hsn] at hy
          exact Option.noConfusion hy
        obtain ⟨prev, heqB, hidxP, hndP, hltP, hlastP, hpredP⟩ :=
          bwdWalk_spec G hwf s hsE hnc (G.nE + 1) s []
            (fun i hi => absurd hi (by simp))
            rfl rfl (by simp)
            (by intro x hx; rw [List.mem_singleton] at hx; subst hx; exact hsE)
            (by simp)
        rw [heqB] at hps
        dsimp only at hps
        by_cases hany : (prev.reverse ++ s :: next).any wasFound = true
        · rw [if_pos hany] at hps
          exact Option.noConfusion hps
        · rw [if_neg hany] at hps
          have hany' : ∀ x ∈ prev.reverse ++ s :: next, wasFound x = false := by
            intro x hx
            exact Bool.eq_false_iff.mpr (List.any_eq_false.mp (Bool.eq_false_iff.mpr hany) x hx)
          have hclosed : SegClosed G (prev.reverse ++ s :: next) :=
            segClosed_linear G hwf hsE hnc hidxN hidxP
          refine ih _ (paths ++ [prev.reverse ++ s :: next]) htodo' ?_ ?_ ?_ ps hps
          · intro e he
            by_cases hmem : e ∈ prev.reverse ++ s :: next
            · rw [List.countP_append]
              have h0 : paths.countP (fun p => decide (e ∈ p)) = 0 :=
                hK2 e (hany' e hmem)
              simp [h0, hmem]
            · simp only [hmem, if_false] at he
              rw [List.countP_append]
              have h1 := hK1 e he
              simp [h1, hmem]
          · intro e he
            by_cases hmem : e ∈ prev.reverse ++ s :: next
            · simp [hmem] at he
            · simp only [hmem, if_false] at he
              rw [List.countP_append]
              have h0 := hK2 e he
              simp [h0, hmem]
          · intro p hp
            rcases List.mem_append.mp hp with hp | hp
            · exact hK3 p hp
            · rw [List.mem_singleton] at hp
              subst hp
              exact hclosed

/-- **C6**: mode-3 segment creation partitions the marker-graph edges.
Whenever `AssemblyGraph::createSegments` succeeds (its final
"each edge found" assertion holds), every marker-graph edge appears in the
path of exactly one emitted segment; and every edge of a circular linear
chain ends up in a single segment: the unique segment path holding such an
edge also holds every forward iterate of it, hence all the edges of its
cycle. -/
theorem mode3SegmentsPartition (G : MGraph) (hwf : G.WellFormed) (ps : List (List Nat))
    (h : createSegments G = some ps) :
    (∀ e, e < G.nE → ps.countP (fun p => decide (e ∈ p)) = 1) ∧
    (∀ e T, e < G.nE → 1 ≤ T → iterSuccE G T e = some e →
      ∀ p ∈ ps, e ∈ p → ∀ j f, iterSuccE G j e = some f → f ∈ p) := by
  have hmain := createSegmentsLoop_spec G hwf (List.range G.nE) (fun _ => false) []
    (fun x hx => List.mem_range.mp hx)
    (fun e he => Bool.noConfusion he)
    (fun e _ => rfl)
    (fun p hp => absurd hp (List.not_mem_nil p))
    ps h
  refine ⟨hmain.1, ?_⟩
  intro e T heE hT hcyc p hp hep j f hjf
  exact hmain.2 p hp e hep T hT hcyc j f hjf

theorem mode3SegmentsPartition_witness :
    createSegments segWitnessGraph = some [[0, 1]] ∧
    ((∀ e, e < segWitnessGraph.nE →
        ([[0, 1]] : List (List Nat)).countP (fun p => decide (e ∈ p)) = 1) ∧
      (∀ e T, e < segWitnessGraph.nE → 1 ≤ T →
        iterSuccE segWitnessGraph T e = some e →
        ∀ p ∈ ([[0, 1]] : List (List Nat)), e ∈ p →
          ∀ j f, iterSuccE segWitnessGraph j e = some f → f ∈ p)) :=
  ⟨by decide,
    mode3SegmentsPartition segWitnessGraph
      ⟨by decide, by decide, by decide, by decide, by decide, by decide, by decide⟩
      [[0, 1]] (by decide)⟩

theorem foldl_preserves {α β : Type} (P : β → Prop) (step : β → α → β) :
    ∀ (l : List α) (b : β), (∀ b2 a, a ∈ l → P b2 → P (step b2 a)) → P b →
      P (l.foldl step b) := by
  intro l
  induction l with
  | nil => intro b _ hb; exact hb
  | cons a t ih =>
    intro b hstep hb
    exact ih (step b a)
      (fun b2 x hx hb2 => hstep b2 x (List.mem_cons_of_mem a hx) hb2)
      (hstep b a (List.mem_cons_self a t) hb)

theorem foldlOpt_preserves {α β : Type} (P : β → Prop) (step : β → α → Option β) :
    ∀ (l : List α) (b : β),
      (∀ b2 a, a ∈ l → P b2 → ∀ b3, step b2 a = some b3 → P b3) → P b →
      ∀ b4, foldlOpt step l b = some b4 → P b4 := by
  intro l
  induction l with
  | nil =>
    intro b _ hb b4 h
    cases h
    exact hb
  | cons a t ih =>
    intro b hstep hb b4 h
    rw [foldlOpt] at h
    cases hstepa : step b a with
    | none => rw [hstepa] at h; exact Option.noConfusion h
    | some b2 =>
      rw [hstepa] at h
      exact ih b2
        (fun b3 x hx hb3 => hstep b3 x (List.mem_cons_of_mem a hx) hb3)
        (hstep b a (List.mem_cons_self a t) hb b2 hstepa) b4 h

theorem rcE_inj_of_ne {G : MGraph} (hss : G.StrandSymmetric) {x e : Nat}
    (hx : x < G.nE) (he : e < G.nE) (h1 : x ≠ e) (h2 : x ≠ G.rcE e) :
    G.rcE x ≠ e ∧ G.rcE x ≠ G.rcE e := by
  constructor
  · intro hc
    apply h2
    rw [← hc, hss.rcE_inv x hx]
  · intro hc
    apply h1
    have := congrArg G.rcE hc
    rw [hss.rcE_inv x hx, hss.rcE_inv e he] at this
    exact this

theorem setRemovedPair_sym {G : MGraph} (hss : G.StrandSymmetric) {rem : Nat → Bool}
    {e : Nat} (he : e < G.nE) (hrem : FlagSym G rem) :
    FlagSym G (setRemovedPair G rem e) := by
  intro x hx
  unfold setRemovedPair
  by_cases h1 : x = e
  · subst h1
    rw [if_pos rfl]
    by_cases hre : G.rcE x = x
    · rw [if_pos hre]
    · rw [if_neg hre, if_pos rfl]
  · by_cases h2 : x = G.rcE e
    · subst h2
      rw [hss.rcE_inv e he]
      by_cases hre : G.rcE e = e
      · rw [hre]
      · rw [if_neg hre, if_pos rfl, if_pos rfl]
    · obtain ⟨h3, h4⟩ := rcE_inj_of_ne hss hx he h1 h2
      rw [if_neg h1, if_neg h2, if_neg h3, if_neg h4]
      exact hrem x hx

theorem edgesWithCoverage_lt {G : MGraph} {c e : Nat}
    (h : e ∈ edgesWithCoverage G c) : e < G.nE := by
  unfold edgesWithCoverage at h
  exact List.mem_range.mp (List.mem_filter.mp h).1

theorem rtrEdgesWithCoverage_lt {G : MGraph} {low high c e : Nat}
    (h : e ∈ rtrEdgesWithCoverage G low high c) : e < G.nE := by
  unfold rtrEdgesWithCoverage at h
  exact List.mem_range.mp (List.mem_filter.mp h).1

theorem trLowCoveragePass_sym {G : MGraph} (hss : G.StrandSymmetric) {low : Nat}
    {rem : Nat → Bool} (hrem : FlagSym G rem) :
    FlagSym G (trLowCoveragePass G low rem) := by
  unfold trLowCoveragePass
  refine foldl_preserves (FlagSym G) _ _ rem (fun r c _ hr => ?_) hrem
  exact foldl_preserves (FlagSym G) _ _ r
    (fun r2 e hemem hr2 => setRemovedPair_sym hss (edgesWithCoverage_lt hemem) hr2) hr

theorem trSkipPass_sym {G : MGraph} (hss : G.StrandSymmetric) {skipThreshold : Nat}
    {rem : Nat → Bool} (hrem : FlagSym G rem) :
    FlagSym G (trSkipPass G skipThreshold rem) := by
  unfold trSkipPass
  refine foldl_preserves (FlagSym G) _ _ rem (fun r e hemem hr => ?_) hrem
  have he := edgesWithCoverage_lt hemem
  split
  · exact hr
  · split
    · split
      · exact hr
      · exact setRemovedPair_sym hss he hr
    · exact hr

theorem trProcessEdge_sym {G : MGraph} (hss : G.StrandSymmetric) {maxDist e : Nat}
    (he : e < G.nE) {rem : Nat → Bool} (hrem : FlagSym G rem) :
    FlagSym G (trProcessEdge G maxDist rem e) := by
  unfold trProcessEdge
  split
  · exact hrem
  · split
    · exact setRemovedPair_sym hss he hrem
    · exact hrem

theorem trMainPass_sym {G : MGraph} (hss : G.StrandSymmetric) {low high maxDist : Nat}
    {rem : Nat → Bool} (hrem : FlagSym G rem) :
    FlagSym G (trMainPass G low high maxDist rem) := by
  unfold trMainPass
  refine foldl_preserves (FlagSym G) _ _ rem (fun r c _ hr => ?_) hrem
  exact foldl_preserves (FlagSym G) _ _ r
    (fun r2 e hemem hr2 => trProcessEdge_sym hss (edgesWithCoverage_lt hemem) hr2) hr

theorem transitiveReduction_sym {G : MGraph} (hss : G.StrandSymmetric)
    (low high maxDist skipThreshold : Nat) :
    FlagSym G (transitiveReduction G low high maxDist skipThreshold) := by
  unfold transitiveReduction
  exact trMainPass_sym hss
    (trSkipPass_sym hss (trLowCoveragePass_sym hss (fun e _ => rfl)))

theorem rtrProcessEdge_sym {G : MGraph} (hss : G.StrandSymmetric) {maxDist e : Nat}
    (he : e < G.nE) {rem : Nat → Bool} (hrem : FlagSym G rem) :
    FlagSym G (rtrProcessEdge G maxDist rem e) := by
  unfold rtrProcessEdge
  split
  · exact hrem
  · split
    · exact setRemovedPair_sym hss he hrem
    · exact hrem

theorem reverseTransitiveReduction_sym {G : MGraph} (hss : G.StrandSymmetric)
    {low high maxDist : Nat} {rem : Nat → Bool} (hrem : FlagSym G rem) :
    FlagSym G (reverseTransitiveReduction G low high maxDist rem) := by
  unfold reverseTransitiveReduction
  refine foldl_preserves (FlagSym G) _ _ rem (fun r c _ hr => ?_) hrem
  exact foldl_preserves (FlagSym G) _ _ r
    (fun r2 e hemem hr2 => rtrProcessEdge_sym hss (rtrEdgesWithCoverage_lt hemem) hr2) hr

theorem fwdLeaf_rcV {G : MGraph} (hwf : G.WellFormed) (hss : G.StrandSymmetric)
    {rem pru : Nat → Bool} (hrem : FlagSym G rem) (hpru : FlagSym G pru)
    {v : Nat} (hv : v < G.nV) :
    isForwardLeafPSS G rem pru (G.rcV v) = isBackwardLeafPSS G rem pru v := by
  apply Bool.eq_iff_iff.mpr
  unfold isForwardLeafPSS isBackwardLeafPSS
  rw [List.all_eq_true, List.all_eq_true]
  constructor
  · intro h g hg
    obtain ⟨hglt, hgtgt⟩ := hwf.tgt_of_mem v hv g hg
    have hrcg : G.rcE g ∈ G.eBySrc (G.rcV v) := by
      apply hwf.mem_of_src (G.rcV v) (hss.rcV_lt v hv) (G.rcE g) (hss.rcE_lt g hglt)
      rw [hss.src_rcE g hglt, hgtgt]
    have h2 := h (G.rcE g) hrcg
    rwa [← hrem g hglt, ← hpru g hglt] at h2
  · intro h f hf
    obtain ⟨hflt, hfsrc⟩ := hwf.src_of_mem (G.rcV v) (hss.rcV_lt v hv) f hf
    have hrcf : G.rcE f ∈ G.eByTgt v := by
      apply hwf.mem_of_tgt v hv (G.rcE f) (hss.rcE_lt f hflt)
      rw [hss.tgt_rcE f hflt, hfsrc, hss.rcV_inv v hv]
    have h2 := h (G.rcE f) hrcf
    rwa [hrem f hflt, hpru f hflt]

theorem bwdLeaf_rcV {G : MGraph} (hwf : G.WellFormed) (hss : G.StrandSymmetric)
    {rem pru : Nat → Bool} (hrem : FlagSym G rem) (hpru : FlagSym G pru)
    {v : Nat} (hv : v < G.nV) :
    isBackwardLeafPSS G rem pru (G.rcV v) = isForwardLeafPSS G rem pru v := by
  have h2 := fwdLeaf_rcV hwf hss hrem hpru (hss.rcV_lt v hv)
  rw [hss.rcV_inv v hv] at h2
  exact h2.symm

theorem pruneMarks_rc {G : MGraph} (hwf : G.WellFormed) (hss : G.StrandSymmetric)
    {rem pru : Nat → Bool} (hrem : FlagSym G rem) (hpru : FlagSym G pru)
    {e : Nat} (he : e < G.nE) :
    e ∈ pruneMarks G rem pru ↔ G.rcE e ∈ pruneMarks G rem pru := by
  rw [mem_pruneMarks, mem_pruneMarks]
  have hrclt := hss.rcE_lt e he
  have hvert := hwf.vert_lt e he
  rw [hss.tgt_rcE e he, hss.src_rcE e he,
    fwdLeaf_rcV hwf hss hrem hpru hvert.1, bwdLeaf_rcV hwf hss hrem hpru hvert.2,
    ← hrem e he, ← hpru e he]
  constructor
  · rintro ⟨-, hc⟩
    simp only [Bool.and_eq_true, Bool.or_eq_true] at hc
    refine ⟨hrclt, ?_⟩
    simp only [Bool.and_eq_true, Bool.or_eq_true]
    exact ⟨hc.1, hc.2.symm⟩
  · rintro ⟨-, hc⟩
    simp only [Bool.and_eq_true, Bool.or_eq_true] at hc
    refine ⟨he, ?_⟩
    simp only [Bool.and_eq_true, Bool.or_eq_true]
    exact ⟨hc.1, hc.2.symm⟩

theorem pruneIterationStep_sym {G : MGraph} (hwf : G.WellFormed)
    (hss : G.StrandSymmetric) {rem pru : Nat → Bool}
    (hrem : FlagSym G rem) (hpru : FlagSym G pru) :
    FlagSym G (pruneIterationStep G rem pru) := by
  intro e he
  unfold pruneIterationStep
  by_cases hmem : e ∈ pruneMarks G rem pru
  · have hmem2 := (pruneMarks_rc hwf hss hrem hpru he).mp hmem
    rw [hpru e he, decide_eq_true hmem, decide_eq_true hmem2]
  · have hmem2 : G.rcE e ∉ pruneMarks G rem pru :=
      fun hc => hmem ((pruneMarks_rc hwf hss hrem hpru he).mpr hc)
    rw [hpru e he, decide_eq_false hmem, decide_eq_false hmem2]

theorem pruneStrongSubgraph_sym {G : MGraph} (hwf : G.WellFormed)
    (hss : G.StrandSymmetric) {rem : Nat → Bool} (hrem : FlagSym G rem) :
    ∀ n, FlagSym G (pruneStrongSubgraph G rem n) := by
  intro n
  induction n with
  | zero => exact fun e _ => rfl
  | succ n ih => exact pruneIterationStep_sym hwf hss hrem ih

theorem setFlag_pair_sym {G : MGraph} (hss : G.StrandSymmetric) {sb : Nat → Bool}
    {m : Nat} (hm : m < G.nE) (hsb : FlagSym G sb) :
    FlagSym G (setFlag (setFlag sb m) (G.rcE m)) := by
  intro x hx
  unfold setFlag
  by_cases h2 : x = G.rcE m
  · subst h2
    rw [if_pos rfl, hss.rcE_inv m hm]
    by_cases hmm : m = G.rcE m
    · rw [if_pos hmm]
    · rw [if_neg hmm, if_pos rfl]
  · by_cases h1 : x = m
    · subst h1
      rw [if_neg h2, if_pos rfl, if_pos rfl]
    · obtain ⟨h3, h4⟩ := rcE_inj_of_ne hss hx hm h1 h2
      rw [if_neg h2, if_neg h1, if_neg h4, if_neg h3]
      exact hsb x hx

theorem part1MarkLoop_sym {G : MGraph} {A : AGraph} (hss : G.StrandSymmetric)
    (HmBound : ∀ e, e < A.nE → ∀ m ∈ A.edgeLists e, m < G.nE)
    (keep : Nat → Bool) {sb : Nat → Bool} (hsb : FlagSym G sb) :
    FlagSym G (part1MarkLoop G A keep sb) := by
  unfold part1MarkLoop
  refine foldl_preserves (FlagSym G) _ _ sb (fun s e hemem hs => ?_) hsb
  have helt : e < A.nE := List.mem_range.mp hemem
  split
  · exact hs
  · exact foldl_preserves (FlagSym G) _ _ s
      (fun s2 m hmmem hs2 => setFlag_pair_sym hss (HmBound e helt m hmmem) hs2) hs

theorem foldl_setFlag_mem (l : List Nat) :
    ∀ (sb : Nat → Bool) (x : Nat),
      ((l.foldl (fun sb2 m => setFlag sb2 m) sb) x = true ↔ sb x = true ∨ x ∈ l) := by
  induction l with
  | nil => intro sb x; simp
  | cons a t ih =>
    intro sb x
    rw [List.foldl_cons, ih]
    unfold setFlag
    by_cases hxa : x = a
    · subst hxa
      simp
    · simp [hxa]

theorem part2MarkLoopAux_mem (A : AGraph) (keep : Nat → Bool) (l : List Nat) :
    ∀ (sb : Nat → Bool) (x : Nat),
      ((l.foldl
        (fun sb e =>
          if keep e then sb
          else (A.edgeLists e).foldl (fun sb2 m => setFlag sb2 m) sb) sb) x = true ↔
        sb x = true ∨ ∃ e ∈ l, keep e = false ∧ x ∈ A.edgeLists e) := by
  induction l with
  | nil => intro sb x; simp
  | cons a t ih =>
    intro sb x
    rw [List.foldl_cons, ih]
    by_cases hk : keep a = true
    · rw [if_pos hk]
      constructor
      · rintro (h | ⟨e, he, hke, hxe⟩)
        · exact Or.inl h
        · exact Or.inr ⟨e, List.mem_cons_of_mem a he, hke, hxe⟩
      · rintro (h | ⟨e, he, hke, hxe⟩)
        · exact Or.inl h
        · rcases List.mem_cons.mp he with rfl | he
          · rw [hk] at hke; exact Bool.noConfusion hke
          · exact Or.inr ⟨e, he, hke, hxe⟩
    · rw [if_neg hk]
      rw [foldl_setFlag_mem]
      have hkf : keep a = false := Bool.eq_false_iff.mpr hk
      constructor
      · rintro ((h | hxa) | ⟨e, he, hke, hxe⟩)
        · exact Or.inl h
        · exact Or.inr ⟨a, List.mem_cons_self a t, hkf, hxa⟩
        · exact Or.inr ⟨e, List.mem_cons_of_mem a he, hke, hxe⟩
      · rintro (h | ⟨e, he, hke, hxe⟩)
        · exact Or.inl (Or.inl h)
        · rcases List.mem_cons.mp he with rfl | he
          · exact Or.inl (Or.inr hxe)
          · exact Or.inr ⟨e, he, hke, hxe⟩

theorem part2MarkLoop_mem (A : AGraph) (keep sb : Nat → Bool) (x : Nat) :
    (part2MarkLoop A keep sb x = true ↔
      sb x = true ∨ ∃ e, e < A.nE ∧ keep e = false ∧ x ∈ A.edgeLists e) := by
  unfold part2MarkLoop
  rw [part2MarkLoopAux_mem]
  constructor
  · rintro (h | ⟨e, he, hke, hxe⟩)
    · exact Or.inl h
    · exact Or.inr ⟨e, List.mem_range.mp he, hke, hxe⟩
  · rintro (h | ⟨e, he, hke, hxe⟩)
    · exact Or.inl h
    · exact Or.inr ⟨e, List.mem_range.mpr he, hke, hxe⟩

theorem part2MarkLoop_sym {G : MGraph} {A : AGraph} (hss : G.StrandSymmetric)
    (hssA : A.StrandSymmetric)
    (HmBound : ∀ e, e < A.nE → ∀ m ∈ A.edgeLists e, m < G.nE)
    (HmemRc : ∀ e, e < A.nE → ∀ m ∈ A.edgeLists e, G.rcE m ∈ A.edgeLists (A.rcE e))
    {keep sb : Nat → Bool} (hkeep : KeepSymA A keep) (hsb : FlagSym G sb) :
    FlagSym G (part2MarkLoop A keep sb) := by
  intro x hx
  apply Bool.eq_iff_iff.mpr
  rw [part2MarkLoop_mem, part2MarkLoop_mem, ← hsb x hx]
  constructor
  · rintro (h | ⟨e, he, hke, hxe⟩)
    · exact Or.inl h
    · refine Or.inr ⟨A.rcE e, hssA.rcE_lt e he, ?_, HmemRc e he x hxe⟩
      rw [← hkeep e he]
      exact hke
  · rintro (h | ⟨e, he, hke, hxe⟩)
    · exact Or.inl h
    · refine Or.inr ⟨A.rcE e, hssA.rcE_lt e he, ?_, ?_⟩
      · rw [← hkeep e he]
        exact hke
      · have h2 := HmemRc e he (G.rcE x) hxe
        rwa [hss.rcE_inv x hx] at h2

theorem sameComp_rcV {A : AGraph} (hssA : A.StrandSymmetric) {maxLength : Nat} :
    ∀ {u v : Nat}, SameComp A maxLength u v → SameComp A maxLength (A.rcV u) (A.rcV v) := by
  intro u v h
  unfold SameComp at h ⊢
  induction h with
  | rel u v huv =>
    obtain ⟨e, he, hlen, hsrc, htgt⟩ := huv
    refine Relation.EqvGen.symm _ _ (Relation.EqvGen.rel _ _ ?_)
    exact ⟨A.rcE e, hssA.rcE_lt e he,
      by rw [hssA.len_rcE e he]; exact hlen,
      by rw [hssA.src_rcE e he, htgt],
      by rw [hssA.tgt_rcE e he, hsrc]⟩
  | refl u => exact Relation.EqvGen.refl _
  | symm u v _ ih => exact Relation.EqvGen.symm _ _ ih
  | trans u w v _ _ ih1 ih2 => exact Relation.EqvGen.trans _ _ _ ih1 ih2

theorem find_rcV_eq {A : AGraph} (hssA : A.StrandSymmetric)
    {find : Nat → Nat} {maxLength : Nat}
    (Hfc : ∀ u, u < A.nV → ∀ v, v < A.nV → (find u = find v ↔ SameComp A maxLength u v))
    {u v : Nat} (hu : u < A.nV) (hv : v < A.nV) (h : find u = find v) :
    find (A.rcV u) = find (A.rcV v) :=
  (Hfc _ (hssA.rcV_lt u hu) _ (hssA.rcV_lt v hv)).mpr
    (sameComp_rcV hssA ((Hfc u hu v hv).mp h))

theorem find_rcV_iff {A : AGraph} (hssA : A.StrandSymmetric)
    {find : Nat → Nat} {maxLength : Nat}
    (Hfc : ∀ u, u < A.nV → ∀ v, v < A.nV → (find u = find v ↔ SameComp A maxLength u v))
    {u v : Nat} (hu : u < A.nV) (hv : v < A.nV) :
    find (A.rcV u) = find (A.rcV v) ↔ find u = find v := by
  constructor
  · intro h
    have h2 := find_rcV_eq hssA Hfc (hssA.rcV_lt u hu) (hssA.rcV_lt v hv) h
    rwa [hssA.rcV_inv u hu, hssA.rcV_inv v hv] at h2
  · exact find_rcV_eq hssA Hfc hu hv

theorem part2Keep0_sym {A : AGraph} (hwfA : A.WellFormed) (hssA : A.StrandSymmetric)
    {find : Nat → Nat} {maxLength : Nat}
    (Hfc : ∀ u, u < A.nV → ∀ v, v < A.nV → (find u = find v ↔ SameComp A maxLength u v)) :
    KeepSymA A (part2Keep0 A find maxLength) := by
  intro e he
  unfold part2Keep0
  have hvert := hwfA.vert_lt e he
  rw [hssA.src_rcE e he, hssA.tgt_rcE e he, hssA.len_rcE e he]
  have hiff : find (A.src e) = find (A.tgt e) ↔
      find (A.rcV (A.tgt e)) = find (A.rcV (A.src e)) := by
    rw [find_rcV_iff hssA Hfc hvert.2 hvert.1]
    exact ⟨Eq.symm, Eq.symm⟩
  have hdec : (decide (find (A.src e) ≠ find (A.tgt e)) : Bool)
      = decide (find (A.rcV (A.tgt e)) ≠ find (A.rcV (A.src e))) := by
    apply Bool.eq_iff_iff.mpr
    simp only [decide_eq_true_eq]
    exact not_congr hiff
  rw [hdec]

theorem rcEA_inj_of_ne {A : AGraph} (hssA : A.StrandSymmetric) {x e : Nat}
    (hx : x < A.nE) (he : e < A.nE) (h1 : x ≠ e) (h2 : x ≠ A.rcE e) :
    A.rcE x ≠ e ∧ A.rcE x ≠ A.rcE e := by
  constructor
  · intro hc
    apply h2
    rw [← hc, hssA.rcE_inv x hx]
  · intro hc
    apply h1
    have h3 := congrArg A.rcE hc
    rw [hssA.rcE_inv x hx, hssA.rcE_inv e he] at h3
    exact h3

theorem setKeepPairA_sym {A : AGraph} (hssA : A.StrandSymmetric) {k : Nat → Bool}
    {e : Nat} (he : e < A.nE) (hk : KeepSymA A k) :
    KeepSymA A (setKeepPairA A k e) := by
  intro x hx
  unfold setKeepPairA
  by_cases h1 : x = e
  · subst h1
    rw [if_pos rfl]
    by_cases hre : A.rcE x = x
    · rw [if_pos hre]
    · rw [if_neg hre, if_pos rfl]
  · by_cases h2 : x = A.rcE e
    · subst h2
      rw [hssA.rcE_inv e he]
      by_cases hre : A.rcE e = e
      · rw [hre]
      · rw [if_neg hre, if_pos rfl, if_pos rfl]
    · obtain ⟨h3, h4⟩ := rcEA_inj_of_ne hssA hx he h1 h2
      rw [if_neg h1, if_neg h2, if_neg h3, if_neg h4]
      exact hk x hx

theorem mem_componentTable {A : AGraph} {find : Nat → Nat} {c v : Nat} :
    v ∈ componentTable A find c ↔ v < A.nV ∧ find v = c := by
  unfold componentTable
  rw [List.mem_filter, List.mem_range]
  exact ⟨fun ⟨h1, h2⟩ => ⟨h1, of_decide_eq_true h2⟩,
    fun ⟨h1, h2⟩ => ⟨h1, decide_eq_true h2⟩⟩

theorem componentTable_headD_mem {A : AGraph} {find : Nat → Nat} {c : Nat}
    (hne : componentTable A find c ≠ []) :
    (componentTable A find c).headD 0 ∈ componentTable A find c := by
  cases h : componentTable A find c with
  | nil => exact absurd h hne
  | cons a t => exact List.mem_cons_self a t

theorem componentTable_getD_lt {A : AGraph} {find : Nat → Nat} {c : Nat}
    (hne : componentTable A find c ≠ []) (i : Nat) :
    (componentTable A find c).getD i 0 < A.nV := by
  by_cases hi : i < (componentTable A find c).length
  · rw [List.getD_eq_getElem _ 0 hi]
    exact (mem_componentTable.mp (List.getElem_mem hi)).1
  · rw [List.getD_eq_default _ 0 (by omega)]
    have hmem := componentTable_headD_mem hne
    have := (mem_componentTable.mp hmem).1
    omega

theorem foldl_ite_setKeepTrue_mem (p : Nat → Prop) [DecidablePred p] (l : List Nat) :
    ∀ (k : Nat → Bool) (x : Nat),
      ((l.foldl (fun k2 e => if p e then setKeepTrue k2 e else k2) k) x = true ↔
        k x = true ∨ (p x ∧ x ∈ l)) := by
  induction l with
  | nil => intro k x; simp
  | cons a t ih =>
    intro k x
    rw [List.foldl_cons, ih]
    by_cases hpa : p a
    · rw [if_pos hpa]
      unfold setKeepTrue
      by_cases hxa : x = a
      · subst hxa
        simp [hpa]
      · simp [hxa]
    · rw [if_neg hpa]
      constructor
      · rintro (h | ⟨hpx, hxt⟩)
        · exact Or.inl h
        · exact Or.inr ⟨hpx, List.mem_cons_of_mem a hxt⟩
      · rintro (h | ⟨hpx, hx⟩)
        · exact Or.inl h
        · rcases List.mem_cons.mp hx with rfl | hxt
          · exact absurd hpx hpa
          · exact Or.inr ⟨hpx, hxt⟩

theorem keepInternal_mem (A : AGraph) (find : Nat → Nat) :
    ∀ (comp : List Nat) (keep : Nat → Bool) (x : Nat),
      (keepInternal A find comp keep x = true ↔
        keep x = true ∨ ∃ v0 ∈ comp, x ∈ A.eBySrc v0 ∧ find (A.tgt x) = find v0) := by
  intro comp
  induction comp with
  | nil => intro keep x; simp [keepInternal]
  | cons a t ih =>
    intro keep x
    have hcons : keepInternal A find (a :: t) keep =
        keepInternal A find t
          ((A.eBySrc a).foldl
            (fun k2 e => if find (A.tgt e) = find a then setKeepTrue k2 e else k2) keep) := rfl
    rw [hcons, ih, foldl_ite_setKeepTrue_mem (fun e => find (A.tgt e) = find a)]
    constructor
    · rintro ((h | ⟨hpx, hxa⟩) | ⟨v0, hv0, hxv0, hpf⟩)
      · exact Or.inl h
      · exact Or.inr ⟨a, List.mem_cons_self a t, hxa, hpx⟩
      · exact Or.inr ⟨v0, List.mem_cons_of_mem a hv0, hxv0, hpf⟩
    · rintro (h | ⟨v0, hv0, hxv0, hpf⟩)
      · exact Or.inl (Or.inl h)
      · rcases List.mem_cons.mp hv0 with rfl | hv0
        · exact Or.inl (Or.inr ⟨hpf, hxv0⟩)
        · exact Or.inr ⟨v0, hv0, hxv0, hpf⟩

theorem keepInternal_selfComp_sym {A : AGraph} (hwfA : A.WellFormed)
    (hssA : A.StrandSymmetric) {find : Nat → Nat} {maxLength : Nat}
    (Hfc : ∀ u, u < A.nV → ∀ v, v < A.nV → (find u = find v ↔ SameComp A maxLength u v))
    {c : Nat} (hne : componentTable A find c ≠ [])
    (hrcc : rcComp A find c = c)
    {keep : Nat → Bool} (hkeep : KeepSymA A keep) :
    KeepSymA A (keepInternal A find (componentTable A find c) keep) := by
  have hhead := componentTable_headD_mem hne
  obtain ⟨hheadlt, hheadc⟩ := mem_componentTable.mp hhead
  have hrcc2 : find (A.rcV ((componentTable A find c).headD 0)) = c := hrcc
  have hfindrc : ∀ w, w < A.nV → find w = c → find (A.rcV w) = c := by
    intro w hw hfw
    have hsame : find w = find ((componentTable A find c).headD 0) := by
      rw [hfw, hheadc]
    have := find_rcV_eq hssA Hfc hw hheadlt hsame
    rw [this, hrcc2]
  have hstep : ∀ x, x < A.nE →
      (∃ v0 ∈ componentTable A find c, x ∈ A.eBySrc v0 ∧ find (A.tgt x) = find v0) →
      (∃ v0 ∈ componentTable A find c, A.rcE x ∈ A.eBySrc v0 ∧
        find (A.tgt (A.rcE x)) = find v0) := by
    intro x hx ⟨v0, hv0, hxv0, hpf⟩
    obtain ⟨hv0lt, hv0c⟩ := mem_componentTable.mp hv0
    obtain ⟨hxlt, hxsrc⟩ := hwfA.src_of_mem v0 hv0lt x hxv0
    have hvert := hwfA.vert_lt x hx
    have hsrcc : find (A.src x) = c := by rw [hxsrc, hv0c]
    have htgtc : find (A.tgt x) = c := by rw [hpf, hv0c]
    have hrcv1lt : A.rcV (A.tgt x) < A.nV := hssA.rcV_lt _ hvert.2
    refine ⟨A.rcV (A.tgt x), mem_componentTable.mpr ⟨hrcv1lt, hfindrc _ hvert.2 htgtc⟩,
      ?_, ?_⟩
    · apply hwfA.mem_of_src _ hrcv1lt _ (hssA.rcE_lt x hx)
      exact hssA.src_rcE x hx
    · rw [hssA.tgt_rcE x hx, hfindrc _ hvert.1 hsrcc, hfindrc _ hvert.2 htgtc]
  intro x hx
  apply Bool.eq_iff_iff.mpr
  rw [keepInternal_mem, keepInternal_mem, ← hkeep x hx]
  constructor
  · rintro (h | hex)
    · exact Or.inl h
    · exact Or.inr (hstep x hx hex)
  · rintro (h | hex)
    · exact Or.inl h
    · have h2 := hstep (A.rcE x) (hssA.rcE_lt x hx) hex
      rw [hssA.rcE_inv x hx] at h2
      exact Or.inr h2

theorem keepInternalPairs_sym {A : AGraph} (hwfA : A.WellFormed)
    (hssA : A.StrandSymmetric) {find : Nat → Nat} {comp : List Nat}
    (hcomp : ∀ v ∈ comp, v < A.nV)
    {keep : Nat → Bool} (hkeep : KeepSymA A keep) :
    KeepSymA A (keepInternalPairs A find comp keep) := by
  unfold keepInternalPairs
  refine foldl_preserves (KeepSymA A) _ _ keep (fun k v0 hv0 hk => ?_) hkeep
  refine foldl_preserves (KeepSymA A) _ _ k (fun k2 e hemem hk2 => ?_) hk
  split
  · exact setKeepPairA_sym hssA (hwfA.src_of_mem v0 (hcomp v0 hv0) e hemem).1 hk2
  · exact hk2

theorem bestEdgeFor_mem (A : AGraph) (maxLength v0id v1id : Nat) :
    (bestEdgeFor A maxLength v0id v1id).1 = 0 ∨
      (bestEdgeFor A maxLength v0id v1id).2 ∈ A.eBySrc v0id := by
  unfold bestEdgeFor
  refine foldl_preserves (fun b : Nat × Nat => b.1 = 0 ∨ b.2 ∈ A.eBySrc v0id) _ _ _
    (fun b e hemem hb => ?_) (Or.inl rfl)
  unfold bestEdgeStep
  split
  · exact hb
  · split
    · exact hb
    · split
      · exact hb
      · split
        · exact Or.inr hemem
        · exact hb

theorem predWalk_sym {A : AGraph} (hwfA : A.WellFormed) (hssA : A.StrandSymmetric)
    {maxLength : Nat} {comp : List Nat} {pred : Nat → Nat} {entryId : Nat}
    (hcomp : ∀ i, comp.getD i 0 < A.nV) :
    ∀ (fuel v1 : Nat) (keep : Nat → Bool), KeepSymA A keep →
      ∀ k2, predWalk A maxLength comp pred entryId fuel v1 keep = some k2 →
        KeepSymA A k2 := by
  intro fuel
  induction fuel with
  | zero => intro v1 keep _ k2 h; exact Option.noConfusion h
  | succ fuel ih =>
    intro v1 keep hkeep k2 h
    rw [predWalk] at h
    dsimp only at h
    by_cases hz : (bestEdgeFor A maxLength (comp.getD (pred v1) 0) (comp.getD v1 0)).1 = 0
    · rw [if_pos hz] at h
      exact Option.noConfusion h
    · rw [if_neg hz] at h
      have hmem : (bestEdgeFor A maxLength (comp.getD (pred v1) 0) (comp.getD v1 0)).2 ∈
          A.eBySrc (comp.getD (pred v1) 0) := by
        rcases bestEdgeFor_mem A maxLength (comp.getD (pred v1) 0) (comp.getD v1 0) with
          hb | hb
        · exact absurd hb hz
        · exact hb
      have helt := (hwfA.src_of_mem _ (hcomp (pred v1)) _ hmem).1
      have hkeep2 := setKeepPairA_sym hssA helt hkeep
      by_cases hentry : comp.getD (pred v1) 0 = entryId
      · rw [if_pos hentry] at h
        cases h
        exact hkeep2
      · rw [if_neg hentry] at h
        exact ih (pred v1) _ hkeep2 k2 h

theorem processExits_sym {A : AGraph} (hwfA : A.WellFormed) (hssA : A.StrandSymmetric)
    {find : Nat → Nat} {maxLength : Nat} {comp : List Nat} {pred : Nat → Nat}
    {entryIndex : Nat} (hcomp : ∀ i, comp.getD i 0 < A.nV)
    {keep : Nat → Bool} (hkeep : KeepSymA A keep) :
    ∀ k2, processExits A find maxLength comp pred entryIndex keep = some k2 →
      KeepSymA A k2 := by
  intro k2 h
  unfold processExits at h
  refine foldlOpt_preserves (KeepSymA A) _ _ _ (fun k i _ hk k3 hstep => ?_) hkeep k2 h
  dsimp only at hstep
  split at hstep
  · cases hstep; exact hk
  · split at hstep
    · cases hstep; exact hk
    · split at hstep
      · cases hstep; exact hk
      · exact predWalk_sym hwfA hssA hcomp (A.nV + 1) i k hk k3 hstep

theorem processEntries_sym {A : AGraph} (hwfA : A.WellFormed) (hssA : A.StrandSymmetric)
    {find : Nat → Nat} {maxLength : Nat} {comp : List Nat} {preds : Nat → Nat → Nat}
    (hcomp : ∀ i, comp.getD i 0 < A.nV)
    {keep : Nat → Bool} (hkeep : KeepSymA A keep) :
    ∀ k2, processEntries A find maxLength comp preds keep = some k2 → KeepSymA A k2 := by
  intro k2 h
  unfold processEntries at h
  refine foldlOpt_preserves (KeepSymA A) _ _ _ (fun k i _ hk k3 hstep => ?_) hkeep k2 h
  split at hstep
  · cases hstep; exact hk
  · exact processExits_sym hwfA hssA hcomp hk k3 hstep

theorem processComponent_sym {A : AGraph} (hwfA : A.WellFormed)
    (hssA : A.StrandSymmetric) {find : Nat → Nat} {preds : Nat → Nat → Nat → Nat}
    {maxLength c : Nat}
    (Hfc : ∀ u, u < A.nV → ∀ v, v < A.nV → (find u = find v ↔ SameComp A maxLength u v))
    {keep : Nat → Bool} (hkeep : KeepSymA A keep) :
    ∀ k2, processComponent A find preds maxLength c keep = some k2 → KeepSymA A k2 := by
  intro k2 h
  unfold processComponent at h
  dsimp only at h
  by_cases hemp : (componentTable A find c).isEmpty = true
  · rw [if_pos hemp] at h
    cases h
    exact hkeep
  · rw [if_neg hemp] at h
    have hne : componentTable A find c ≠ [] := by
      intro hc
      apply hemp
      rw [hc]
      rfl
    by_cases hrc : rcComp A find c = c
    · rw [if_pos hrc] at h
      cases h
      exact keepInternal_selfComp_sym hwfA hssA Hfc hne hrc hkeep
    · rw [if_neg hrc] at h
      by_cases hlt : rcComp A find c < c
      · rw [if_pos hlt] at h
        cases h
        exact hkeep
      · rw [if_neg hlt] at h
        by_cases hee : (!((componentTable A find c).any (isEntryV A find maxLength) &&
            (componentTable A find c).any (isExitV A find maxLength))) = true
        · rw [if_pos hee] at h
          cases h
          exact keepInternalPairs_sym hwfA hssA
            (fun v hv => (mem_componentTable.mp hv).1) hkeep
        · rw [if_neg hee] at h
          exact processEntries_sym hwfA hssA (componentTable_getD_lt hne) hkeep k2 h

theorem part2Keep_sym {A : AGraph} (hwfA : A.WellFormed) (hssA : A.StrandSymmetric)
    {find : Nat → Nat} {preds : Nat → Nat → Nat → Nat} {maxLength : Nat}
    (Hfc : ∀ u, u < A.nV → ∀ v, v < A.nV → (find u = find v ↔ SameComp A maxLength u v)) :
    ∀ k2, part2Keep A find preds maxLength = some k2 → KeepSymA A k2 := by
  intro k2 h
  unfold part2Keep at h
  exact foldlOpt_preserves (KeepSymA A) _ _ _
    (fun k c _ hk k3 hstep => processComponent_sym hwfA hssA Hfc hk k3 hstep)
    (part2Keep0_sym hwfA hssA Hfc) k2 h

/-- `SameComp` degenerates to equality when every edge is longer than
`maxLength` (used to discharge the `find`-oracle characterization on
concrete instances). -/
theorem sameComp_of_no_short {A : AGraph} {maxLength : Nat}
    (h : ∀ e, e < A.nE → maxLength < (A.edgeLists e).length) :
    ∀ {u v : Nat}, SameComp A maxLength u v → u = v := by
  intro u v hs
  unfold SameComp at hs
  induction hs with
  | rel u v huv =>
    obtain ⟨e, he, hlen, -, -⟩ := huv
    have := h e he
    omega
  | refl u => rfl
  | symm _ _ _ ih => exact ih.symm
  | trans _ _ _ _ _ ih1 ih2 => exact ih1.trans ih2

/-- **C3**: strand symmetry of the simplifier flags.  Transitive reduction
(from its cleared initial state), reverse transitive reduction, each
pruning iteration count, the part-1 bubble marking and the part-2
superbubble marking each preserve the invariant that every marker-graph
edge carries the same `wasRemovedByTransitiveReduction` / `wasPruned` /
`isSuperBubbleEdge` flag as its reverse-complement edge; in particular the
`keepAssemblyGraphEdge` array computed by part 2 is itself
reverse-complement symmetric, so part 2's final marking loop — which flags
all marker-graph edges of non-kept assembly-graph edges without touching
their reverse complements explicitly — still leaves the superbubble flag
strand-symmetric. -/
theorem simplifierFlagStrandSymmetry (G : MGraph) (A : AGraph)
    (hwf : G.WellFormed) (hss : G.StrandSymmetric)
    (hwfA : A.WellFormed) (hssA : A.StrandSymmetric)
    (HmBound : ∀ e, e < A.nE → ∀ m ∈ A.edgeLists e, m < G.nE)
    (HmemRc : ∀ e, e < A.nE → ∀ m ∈ A.edgeLists e, G.rcE m ∈ A.edgeLists (A.rcE e))
    (find : Nat → Nat) (preds : Nat → Nat → Nat → Nat) (maxLength : Nat)
    (Hfc : ∀ u, u < A.nV → ∀ v, v < A.nV →
      (find u = find v ↔ SameComp A maxLength u v)) :
    (∀ low high maxDist skipThreshold,
      FlagSym G (transitiveReduction G low high maxDist skipThreshold)) ∧
    (∀ low high maxDist rem, FlagSym G rem →
      FlagSym G (reverseTransitiveReduction G low high maxDist rem)) ∧
    (∀ rem n, FlagSym G rem → FlagSym G (pruneStrongSubgraph G rem n)) ∧
    (∀ keep sb, FlagSym G sb → FlagSym G (part1MarkLoop G A keep sb)) ∧
    (∀ keep sb, KeepSymA A keep → FlagSym G sb →
      FlagSym G (part2MarkLoop A keep sb)) ∧
    (∀ keep2, part2Keep A find preds maxLength = some keep2 →
      KeepSymA A keep2 ∧
        ∀ sb, FlagSym G sb → FlagSym G (part2MarkLoop A keep2 sb)) := by
  refine ⟨?_, ?_, ?_, ?_, ?_, ?_⟩
  · intro low high maxDist skipThreshold
    exact transitiveReduction_sym hss low high maxDist skipThreshold
  · intro low high maxDist rem hrem
    exact reverseTransitiveReduction_sym hss hrem
  · intro rem n hrem
    exact pruneStrongSubgraph_sym hwf hss hrem n
  · intro keep sb hsb
    exact part1MarkLoop_sym hss HmBound keep hsb
  · intro keep sb hkeep hsb
    exact part2MarkLoop_sym hss hssA HmBound HmemRc hkeep hsb
  · intro keep2 hkeep2
    have hsym := part2Keep_sym hwfA hssA Hfc keep2 hkeep2
    exact ⟨hsym, fun sb hsb => part2MarkLoop_sym hss hssA HmBound HmemRc hsym hsb⟩

theorem simplifierFlagStrandSymmetry_witness :
    (∀ e, e < bubbleA.nE → ∀ m ∈ bubbleA.edgeLists e, m < bubbleG.nE) ∧
    ((∀ low high maxDist skipThreshold,
      FlagSym bubbleG (transitiveReduction bubbleG low high maxDist skipThreshold)) ∧
    (∀ rem n, FlagSym bubbleG rem → FlagSym bubbleG (pruneStrongSubgraph bubbleG rem n)) ∧
    (∀ keep2, part2Keep bubbleA (fun v => v) (fun _ _ _ => 0) 0 = some keep2 →
      KeepSymA bubbleA keep2 ∧
        ∀ sb, FlagSym bubbleG sb → FlagSym bubbleG (part2MarkLoop bubbleA keep2 sb))) := by
  have big := simplifierFlagStrandSymmetry bubbleG bubbleA
    ⟨by decide, by decide, by decide, by decide, by decide, by decide, by decide⟩
    ⟨by decide, by decide, by decide, by decide, by decide, by decide⟩
    ⟨by decide, by decide, by decide, by decide, by decide⟩
    ⟨by decide, by decide, by decide, by decide, by decide, by decide, by decide⟩
    (by decide) (by decide)
    (fun v => v) (fun _ _ _ => 0) 0
    (by
      intro u hu v hv
      constructor
      · intro h
        have huv : u = v := h
        rw [huv]
        exact Relation.EqvGen.refl v
      · intro h
        exact sameComp_of_no_short (by decide) h)
  exact ⟨by decide, big.1, big.2.2.1, big.2.2.2.2.2⟩

theorem mem_insertByCovDesc {q p : Nat × Nat} :
    ∀ {l : List (Nat × Nat)}, q ∈ insertByCovDesc p l → q = p ∨ q ∈ l := by
  intro l
  induction l with
  | nil =>
    intro h
    exact Or.inl (List.mem_singleton.mp h)
  | cons a t ih =>
    intro h
    rw [insertByCovDesc] at h
    split at h
    · rcases List.mem_cons.mp h with rfl | h2
      · exact Or.inl rfl
      · exact Or.inr h2
    · rcases List.mem_cons.mp h with rfl | h2
      · exact Or.inr (List.mem_cons_self q t)
      · rcases ih h2 with h3 | h3
        · exact Or.inl h3
        · exact Or.inr (List.mem_cons_of_mem a h3)

theorem mem_sortByCovDesc {q : Nat × Nat} :
    ∀ {l : List (Nat × Nat)}, q ∈ sortByCovDesc l → q ∈ l := by
  intro l
  induction l with
  | nil => intro h; exact absurd h (List.not_mem_nil q)
  | cons a t ih =>
    intro h
    have hcons : sortByCovDesc (a :: t) = insertByCovDesc a (sortByCovDesc t) := rfl
    rw [hcons] at h
    rcases mem_insertByCovDesc h with rfl | h2
    · exact List.mem_cons_self q t
    · exact List.mem_cons_of_mem a (ih h2)

theorem part1ProcessTarget_protect {A : AGraph} (hwfA : A.WellFormed) {v0 : Nat}
    (hv0 : v0 < A.nV) {keep : Nat → Bool} (hP : RcTargetKept A keep) (v1 : Nat) :
    RcTargetKept A (part1ProcessTarget A v0 keep v1) := by
  unfold part1ProcessTarget
  split
  · exact hP
  · rename_i hne
    dsimp only
    split
    · exact hP
    · refine foldl_preserves (RcTargetKept A) _ _ keep (fun k p hpmem hk => ?_) hP
      intro e he hrc
      unfold clearKeep
      have hpg : p ∈ ((A.eBySrc v0).filter fun e2 => A.tgt e2 = v1).map
          (fun e2 => (e2, A.avgCov e2)) :=
        mem_sortByCovDesc ((List.drop_sublist 1 _).subset hpmem)
      obtain ⟨e2, he2mem, he2eq⟩ := List.mem_map.mp hpg
      have he2f := List.mem_filter.mp he2mem
      have he2tgt : A.tgt e2 = v1 := of_decide_eq_true he2f.2
      have he2src := (hwfA.src_of_mem v0 hv0 e2 he2f.1).2
      have hp1 : p.1 = e2 := by rw [← he2eq]
      have hne2 : e ≠ p.1 := by
        intro heq
        rw [heq, hp1] at hrc
        rw [hrc, he2src] at he2tgt
        exact hne he2tgt.symm
      rw [if_neg hne2]
      exact hk e he hrc

theorem part1ProcessVertex_protect {A : AGraph} (hwfA : A.WellFormed)
    {maxLength : Nat} {keep : Nat → Bool} (hP : RcTargetKept A keep) {v0 : Nat}
    (hv0 : v0 < A.nV) :
    RcTargetKept A (part1ProcessVertex A maxLength keep v0) := by
  unfold part1ProcessVertex
  dsimp only
  split
  · exact hP
  · exact foldl_preserves (RcTargetKept A) _ _ keep
      (fun k v1 _ hk => part1ProcessTarget_protect hwfA hv0 hk v1) hP

theorem part1Keep_protect (A : AGraph) (hwfA : A.WellFormed) (maxLength : Nat) :
    RcTargetKept A (part1Keep A maxLength) := by
  unfold part1Keep
  exact foldl_preserves (RcTargetKept A) _ _ _
    (fun k v0 hv0 hk => part1ProcessVertex_protect hwfA hk (List.mem_range.mp hv0))
    (fun e _ _ => rfl)

theorem foldl_setFlagPair_mem (G : MGraph) (l : List Nat) :
    ∀ (sb : Nat → Bool) (x : Nat),
      ((l.foldl (fun sb2 m => setFlag (setFlag sb2 m) (G.rcE m)) sb) x = true ↔
        sb x = true ∨ ∃ m ∈ l, x = m ∨ x = G.rcE m) := by
  induction l with
  | nil => intro sb x; simp
  | cons a t ih =>
    intro sb x
    rw [List.foldl_cons, ih]
    unfold setFlag
    by_cases h1 : x = G.rcE a
    · rw [if_pos h1]
      constructor
      · intro _
        exact Or.inr ⟨a, List.mem_cons_self a t, Or.inr h1⟩
      · intro _
        exact Or.inl rfl
    · rw [if_neg h1]
      by_cases h2 : x = a
      · rw [if_pos h2]
        constructor
        · intro _
          exact Or.inr ⟨a, List.mem_cons_self a t, Or.inl h2⟩
        · intro _
          exact Or.inl rfl
      · rw [if_neg h2]
        constructor
        · rintro (h | ⟨m, hm, hx⟩)
          · exact Or.inl h
          · exact Or.inr ⟨m, List.mem_cons_of_mem a hm, hx⟩
        · rintro (h | ⟨m, hm, hx⟩)
          · exact Or.inl h
          · rcases List.mem_cons.mp hm with rfl | hm2
            · rcases hx with hx | hx
              · exact absurd hx h2
              · exact absurd hx h1
            · exact Or.inr ⟨m, hm2, hx⟩

theorem part1MarkLoopAux_mem (G : MGraph) (A : AGraph) (keep : Nat → Bool)
    (l : List Nat) :
    ∀ (sb : Nat → Bool) (x : Nat),
      ((l.foldl
        (fun sb e =>
          if keep e then sb
          else (A.edgeLists e).foldl (fun sb2 m => setFlag (setFlag sb2 m) (G.rcE m)) sb)
        sb) x = true ↔
        sb x = true ∨
          ∃ e ∈ l, keep e = false ∧ ∃ m ∈ A.edgeLists e, x = m ∨ x = G.rcE m) := by
  induction l with
  | nil => intro sb x; simp
  | cons a t ih =>
    intro sb x
    rw [List.foldl_cons, ih]
    by_cases hk : keep a = true
    · rw [if_pos hk]
      constructor
      · rintro (h | ⟨e, he, hke, hex⟩)
        · exact Or.inl h
        · exact Or.inr ⟨e, List.mem_cons_of_mem a he, hke, hex⟩
      · rintro (h | ⟨e, he, hke, hex⟩)
        · exact Or.inl h
        · rcases List.mem_cons.mp he with rfl | he2
          · rw [hk] at hke; exact Bool.noConfusion hke
          · exact Or.inr ⟨e, he2, hke, hex⟩
    · rw [if_neg hk]
      rw [foldl_setFlagPair_mem]
      have hkf : keep a = false := Bool.eq_false_iff.mpr hk
      constructor
      · rintro ((h | hex) | ⟨e, he, hke, hex⟩)
        · exact Or.inl h
        · exact Or.inr ⟨a, List.mem_cons_self a t, hkf, hex⟩
        · exact Or.inr ⟨e, List.mem_cons_of_mem a he, hke, hex⟩
      · rintro (h | ⟨e, he, hke, hex⟩)
        · exact Or.inl (Or.inl h)
        · rcases List.mem_cons.mp he with rfl | he2
          · exact Or.inl (Or.inr hex)
          · exact Or.inr ⟨e, he2, hke, hex⟩

theorem part1MarkLoop_mem (G : MGraph) (A : AGraph) (keep sb : Nat → Bool) (x : Nat) :
    (part1MarkLoop G A keep sb x = true ↔
      sb x = true ∨
        ∃ e, e < A.nE ∧ keep e = false ∧
          ∃ m ∈ A.edgeLists e, x = m ∨ x = G.rcE m) := by
  unfold part1MarkLoop
  rw [part1MarkLoopAux_mem]
  constructor
  · rintro (h | ⟨e, he, hke, hex⟩)
    · exact Or.inl h
    · exact Or.inr ⟨e, List.mem_range.mp he, hke, hex⟩
  · rintro (h | ⟨e, he, hke, hex⟩)
    · exact Or.inl h
    · exact Or.inr ⟨e, List.mem_range.mpr he, hke, hex⟩

/-- **C10**: part 1 of a simplify iteration skips every group of parallel
assembly-graph out-edges of a vertex `v0` whose common target is
`reverseComplementVertex[v0]`.  Each such edge (and its reverse-complement
edge, which belongs to the corresponding group of `rcV v0`) keeps its
`keepAssemblyGraphEdge` flag regardless of coverage, and none of its
marker-graph edges is flagged `isSuperBubbleEdge` by part 1's marking
loop: the bubble is retained entirely. -/
theorem part1RcTargetBubblesRetained (G : MGraph) (A : AGraph)
    (hss : G.StrandSymmetric) (hwfA : A.WellFormed) (hssA : A.StrandSymmetric)
    (HmBound : ∀ e, e < A.nE → ∀ m ∈ A.edgeLists e, m < G.nE)
    (HmemRc : ∀ e, e < A.nE → ∀ m ∈ A.edgeLists e, G.rcE m ∈ A.edgeLists (A.rcE e))
    (Hdisj : ∀ e, e < A.nE → ∀ f, f < A.nE →
      ∀ m ∈ A.edgeLists e, m ∈ A.edgeLists f → e = f)
    (maxLength v0 eg : Nat) (hv0 : v0 < A.nV) (heg : eg ∈ A.eBySrc v0)
    (htgt : A.tgt eg = A.rcV v0) :
    part1Keep A maxLength eg = true ∧
    part1Keep A maxLength (A.rcE eg) = true ∧
    (∀ sb m, m ∈ A.edgeLists eg →
      part1MarkLoop G A (part1Keep A maxLength) sb m = sb m) := by
  obtain ⟨heglt, hegsrc⟩ := hwfA.src_of_mem v0 hv0 eg heg
  have hprc : A.tgt eg = A.rcV (A.src eg) := by rw [hegsrc]; exact htgt
  have hP := part1Keep_protect A hwfA maxLength
  have hkeg : part1Keep A maxLength eg = true := hP eg heglt hprc
  have hrceglt : A.rcE eg < A.nE := hssA.rcE_lt eg heglt
  have hprc2 : A.tgt (A.rcE eg) = A.rcV (A.src (A.rcE eg)) := by
    rw [hssA.tgt_rcE eg heglt, hssA.src_rcE eg heglt, htgt, hssA.rcV_inv v0 hv0,
      hegsrc]
  have hkrc : part1Keep A maxLength (A.rcE eg) = true := hP (A.rcE eg) hrceglt hprc2
  refine ⟨hkeg, hkrc, ?_⟩
  intro sb m hm
  apply Bool.eq_iff_iff.mpr
  rw [part1MarkLoop_mem]
  constructor
  · rintro (h | ⟨e, he, hke, m2, hm2, hx⟩)
    · exact h
    · exfalso
      rcases hx with rfl | rfl
      · have heeg : e = eg := Hdisj e he eg heglt m hm2 hm
        rw [heeg, hkeg] at hke
        exact Bool.noConfusion hke
      · have hm2lt : m2 < G.nE := HmBound e he m2 hm2
        have hrcm : G.rcE (G.rcE m2) ∈ A.edgeLists (A.rcE eg) :=
          HmemRc eg heglt (G.rcE m2) hm
        rw [hss.rcE_inv m2 hm2lt] at hrcm
        have heeg : e = A.rcE eg := Hdisj e he (A.rcE eg) hrceglt m2 hm2 hrcm
        rw [heeg, hkrc] at hke
        exact Bool.noConfusion hke
  · intro h
    exact Or.inl h

theorem part1RcTargetBubblesRetained_witness :
    (0 < bubbleA.nV ∧ (0 : Nat) ∈ bubbleA.eBySrc 0 ∧ bubbleA.tgt 0 = bubbleA.rcV 0) ∧
    (part1Keep bubbleA 5 0 = true ∧
      part1Keep bubbleA 5 (bubbleA.rcE 0) = true ∧
      (∀ sb m, m ∈ bubbleA.edgeLists 0 →
        part1MarkLoop bubbleG bubbleA (part1Keep bubbleA 5) sb m = sb m)) :=
  ⟨⟨by decide, by decide, by decide⟩,
    part1RcTargetBubblesRetained bubbleG bubbleA
      ⟨by decide, by decide, by decide, by decide, by decide, by decide⟩
      ⟨by decide, by decide, by decide, by decide, by decide⟩
      ⟨by decide, by decide, by decide, by decide, by decide, by decide, by decide⟩
      (by decide) (by decide) (by decide)
      5 0 0 (by decide) (by decide) (by decide)⟩

end Shasta
